import Mathlib

/-!
Memory-management simulator: embedding of `src/backend/memory_sim.cpp`.

The class `MemoryManager` is embedded as a record that is passed explicitly:
every member function becomes a function from the state before the call to the
result and the state after it.

Conventions of the embedding.

* `int` is `Int`.  All arithmetic of the simulator stays far below `2^31` for
  the capacities considered (block sizes and addresses are bounded by the
  capacity), so no wrap-around is modelled; the owner-id counter would need
  `2^31` calls to overflow.  C++ `/` and `%` on `int` truncate towards zero and
  are `Int.tdiv` and `Int.tmod`.
* `std::string status` only ever holds `"free"`, `"allocated"` or
  `"fragmented"`; it is the three-constructor type `Status`.
* `std::vector` is `List`; an index of type `size_t` is a `Nat`; the sentinel
  index `-1` of best-fit and worst-fit is `none`.
* `std::unordered_map<int, std::vector<int>> pageTable` is an association list
  with one pair per key.  The iteration order of an unordered map is not fixed
  by the language; the list order stands for it.
* `double fragmentation` is a function of the integer `fragmentedMemory` that
  `updateMemoryStats` computes and of the constant capacity
  (`fragmentedMemory / totalMemory * 100.0`), so the record stores that integer.
* The members `fifoQueue` and `lruList` are never read or written and are
  left out.
* `allocateBuddySystem` calls itself without a bound.  It takes a fuel argument
  that counts the nested calls and is `none` when the fuel runs out; a division
  by zero during the buddy merge is `none` as well (the call does not return).
-/

namespace MemorySim

/-- Status tag of a block (`std::string status` in the source). -/
inductive Status where
  | free
  | allocated
  | fragmented
  deriving DecidableEq, Repr

/-- Block of the address space (`struct MemoryBlock`). -/
structure MemoryBlock where
  id : Int
  start : Int
  size : Int
  status : Status
  deriving DecidableEq, Repr

/-- Parked request (`struct Process`). -/
structure Process where
  id : Int
  size : Int
  deriving DecidableEq, Repr

/-- State of a `MemoryManager` object. -/
structure MemoryManager where
  totalMemory : Int
  usedMemory : Int
  freeMemory : Int
  fragmentedMemory : Int
  blocks : List MemoryBlock
  processQueue : List Process
  nextProcessId : Int
  pageTable : List (Int × List Nat)
  pageSize : Int
  frameAllocation : List Bool
  deriving DecidableEq, Repr

/-- Constructor `MemoryManager(memorySize, _pageSize)`: one free block spanning
the capacity and `memorySize / _pageSize` free frames.

The source constructor builds a manager only when `_pageSize` is not zero (the
division `totalMemory / pageSize` traps otherwise) and the quotient is not
negative (`resize` of a negative count throws); this function is the state it
builds for such arguments, and statements about `MemoryManager.new` at
arbitrary arguments carry `0 < pageSize` as a hypothesis. -/
def MemoryManager.new (memorySize : Int) (pageSize : Int) : MemoryManager :=
  { totalMemory := memorySize
    usedMemory := 0
    freeMemory := memorySize
    fragmentedMemory := 0
    blocks := [⟨0, 0, memorySize, .free⟩]
    processQueue := []
    nextProcessId := 1
    pageTable := []
    pageSize := pageSize
    frameAllocation := List.replicate (memorySize.tdiv pageSize).toNat false }

/-- The manager built with the default arguments, `MemoryManager()`. -/
def MemoryManager.default : MemoryManager := MemoryManager.new 1024 4

/-! ## Statistics -/

/-- Sum of the sizes of the blocks with the given status (one accumulator of the
loop in `updateMemoryStats`). -/
def sizeWithStatus (st : Status) : List MemoryBlock → Int
  | [] => 0
  | b :: rest => (if b.status = st then b.size else 0) + sizeWithStatus st rest

/-- Member `updateMemoryStats`. -/
def updateMemoryStats (m : MemoryManager) : MemoryManager :=
  { m with
    usedMemory := sizeWithStatus .allocated m.blocks
    freeMemory := m.totalMemory - sizeWithStatus .allocated m.blocks
    fragmentedMemory := sizeWithStatus .fragmented m.blocks }

/-! ## Merge pass -/

/-- Loop of `mergeAdjacentFreeBlocks` standing at index `i`: `cur` is
`blocks[i]`, the argument list is `blocks[i+1 ..]`, and the blocks before `i`
are final.  A merge keeps `i` (and absorbs `blocks[i+1]` into `cur`), otherwise
`i` advances. -/
def mergeFrom (cur : MemoryBlock) : List MemoryBlock → List MemoryBlock
  | [] => [cur]
  | nxt :: rest =>
    if cur.status = .free ∧ nxt.status = .free then
      mergeFrom { cur with size := cur.size + nxt.size } rest
    else
      cur :: mergeFrom nxt rest

/-- Block list after `mergeAdjacentFreeBlocks`.  The source reads `blocks[0]`
of an empty vector (its bound `blocks.size() - 1` wraps around); the empty list
is left as it is here and no statement below relies on that case. -/
def mergeBlocks : List MemoryBlock → List MemoryBlock
  | [] => []
  | b :: rest => mergeFrom b rest

/-- Member `mergeAdjacentFreeBlocks`. -/
def mergeAdjacentFreeBlocks (m : MemoryManager) : MemoryManager :=
  { m with blocks := mergeBlocks m.blocks }

/-! ## Placement into a free block -/

/-- Index of the first block that is free and has `size` units or more: the
scan `for i ... if (blocks[i].status == "free" && blocks[i].size >= size)`. -/
def firstFitIndex : List MemoryBlock → Int → Option Nat
  | [], _ => none
  | b :: rest, size =>
    if b.status = .free ∧ b.size ≥ size then some 0
    else (firstFitIndex rest size).map (· + 1)

/-- The block update shared by first-fit, best-fit, worst-fit, segmentation and
the admission retry: `blocks[i]` gets the requested size, status allocated and
the owner `id`; if `remainingSize > 0` a free block for the rest is inserted at
`i + 1`. -/
def placeAt : List MemoryBlock → Nat → Int → Int → List MemoryBlock
  | [], _, _, _ => []
  | b :: rest, 0, size, id =>
    { b with size := size, status := .allocated, id := id } ::
      (if b.size - size > 0 then ⟨0, b.start + size, b.size - size, .free⟩ :: rest
       else rest)
  | b :: rest, i + 1, size, id => b :: placeAt rest i size id

/-- Member `tryAllocateWaitingProcesses`: only the head of the queue is tried,
first-fit, under the id stored in the queue. -/
def tryAllocateWaitingProcesses (m : MemoryManager) : MemoryManager :=
  match m.processQueue with
  | [] => m
  | waitingProcess :: waiting =>
    match firstFitIndex m.blocks waitingProcess.size with
    | some i =>
      updateMemoryStats
        { m with
          blocks := placeAt m.blocks i waitingProcess.size waitingProcess.id
          processQueue := waiting }
    | none => m

/-! ## Paging view -/

/-- Owner of frame `i`: the key of the first page-table entry (in iteration
order) whose frame vector contains `i`. -/
def frameOwner (pageTable : List (Int × List Nat)) (i : Nat) : Option Int :=
  (pageTable.find? (fun entry => entry.2.contains i)).map (·.1)

/-- Block of frame `i` in the regenerated view. -/
def frameBlock (pageTable : List (Int × List Nat)) (pageSize : Int) (i : Nat) :
    MemoryBlock :=
  match frameOwner pageTable i with
  | some p => ⟨p, (i : Int) * pageSize, pageSize, .allocated⟩
  | none => ⟨0, (i : Int) * pageSize, pageSize, .free⟩

/-- The block list rebuilt from the frames ("Update blocks for visualization"
in `allocatePaging` and `deallocateById`). -/
def framesToBlocks (pageTable : List (Int × List Nat)) (pageSize : Int)
    (frameCount : Nat) : List MemoryBlock :=
  (List.range frameCount).map (frameBlock pageTable pageSize)

/-! ## Deallocation -/

/-- The loop `for (auto& block : blocks)` of `deallocateById`. -/
def freeOwned (processId : Int) (blocks : List MemoryBlock) : List MemoryBlock :=
  blocks.map fun b =>
    if b.status = .allocated ∧ b.id = processId then
      { b with status := .free, id := 0 }
    else b

/-- Value of `found` after that loop. -/
def ownsBlock (processId : Int) (blocks : List MemoryBlock) : Bool :=
  blocks.any fun b => decide (b.status = .allocated ∧ b.id = processId)

/-- Member `deallocateById`.  `pageTable.erase(it)` removes the entry of the key;
with one pair per key that is the filter below. -/
def deallocateById (m : MemoryManager) (processId : Int) : Bool × MemoryManager :=
  match m.pageTable.lookup processId with
  | some frames =>
    let frameAllocation := frames.foldl (fun fa f => fa.set f false) m.frameAllocation
    let pageTable := m.pageTable.filter (fun entry => entry.1 ≠ processId)
    let m1 : MemoryManager :=
      { m with
        frameAllocation := frameAllocation
        pageTable := pageTable
        blocks := framesToBlocks pageTable m.pageSize frameAllocation.length }
    (true, updateMemoryStats (tryAllocateWaitingProcesses (mergeAdjacentFreeBlocks m1)))
  | none =>
    let m1 : MemoryManager := { m with blocks := freeOwned processId m.blocks }
    if ownsBlock processId m.blocks then
      (true, updateMemoryStats (tryAllocateWaitingProcesses (mergeAdjacentFreeBlocks m1)))
    else
      (false, m1)

/-! ## Strategies -/

/-- Constant `partitionSize` of `allocateFixedPartitioning`. -/
def partitionSize : Int := 256

/-- The loop "Find a free partition": the first block that is free and has
exactly the partition size is handed to `id`. -/
def takeFreePartition (id : Int) : List MemoryBlock → Option (List MemoryBlock)
  | [] => none
  | b :: rest =>
    if b.status = .free ∧ b.size = partitionSize then
      some ({ b with status := .allocated, id := id } :: rest)
    else (takeFreePartition id rest).map (b :: ·)

/-- The loop "Create fixed partitions": `numPartitions` blocks of the partition
size, the first one allocated to `id`. -/
def fixedPartitions (numPartitions : Nat) (id : Int) : List MemoryBlock :=
  (List.range numPartitions).map fun i =>
    if i = 0 then ⟨id, (i : Int) * partitionSize, partitionSize, .allocated⟩
    else ⟨0, (i : Int) * partitionSize, partitionSize, .free⟩

/-- Member `allocateFixedPartitioning`.  The id counter moves in the slicing
branch only when partition `0` is created. -/
def allocateFixedPartitioning (m : MemoryManager) (size : Int) : Bool × MemoryManager :=
  if size > partitionSize then (false, m)
  else
    match takeFreePartition m.nextProcessId m.blocks with
    | some blocks =>
      (true, updateMemoryStats
        { m with blocks := blocks, nextProcessId := m.nextProcessId + 1 })
    | none =>
      match m.blocks with
      | [b] =>
        if b.status = .free ∧ b.size = m.totalMemory then
          let numPartitions := (m.totalMemory.tdiv partitionSize).toNat
          (true, updateMemoryStats
            { m with
              blocks := fixedPartitions numPartitions m.nextProcessId
              nextProcessId :=
                if numPartitions = 0 then m.nextProcessId else m.nextProcessId + 1 })
        else (false, m)
      | _ => (false, m)

/-- Member `allocateFirstFit`. -/
def allocateFirstFit (m : MemoryManager) (size : Int) : Bool × MemoryManager :=
  match firstFitIndex m.blocks size with
  | some i =>
    (true, updateMemoryStats
      { m with
        blocks := placeAt m.blocks i size m.nextProcessId
        nextProcessId := m.nextProcessId + 1 })
  | none => (false, m)

/-- Selection loop of `allocateBestFit`, standing at index `i` with the current
`bestFitIndex` and `minExtraSpace`. -/
def bestFitLoop : List MemoryBlock → Nat → Int → Option Nat → Int → Option Nat
  | [], _, _, bestFitIndex, _ => bestFitIndex
  | b :: rest, i, size, bestFitIndex, minExtraSpace =>
    if b.status = .free ∧ b.size ≥ size then
      if b.size - size < minExtraSpace then
        bestFitLoop rest (i + 1) size (some i) (b.size - size)
      else bestFitLoop rest (i + 1) size bestFitIndex minExtraSpace
    else bestFitLoop rest (i + 1) size bestFitIndex minExtraSpace

/-- Member `allocateBestFit`.

The initial bound `totalMemory + 1` is computed in `int` by the source, so this
function is the source only for `totalMemory < 2147483647`, where the sum does
not overflow; statements about it at an arbitrary capacity carry that bound as a
hypothesis. -/
def allocateBestFit (m : MemoryManager) (size : Int) : Bool × MemoryManager :=
  match bestFitLoop m.blocks 0 size none (m.totalMemory + 1) with
  | some bestFitIndex =>
    (true, updateMemoryStats
      { m with
        blocks := placeAt m.blocks bestFitIndex size m.nextProcessId
        nextProcessId := m.nextProcessId + 1 })
  | none => (false, m)

/-- Selection loop of `allocateWorstFit`, standing at index `i` with the current
`worstFitIndex` and `maxExtraSpace`. -/
def worstFitLoop : List MemoryBlock → Nat → Int → Option Nat → Int → Option Nat
  | [], _, _, worstFitIndex, _ => worstFitIndex
  | b :: rest, i, size, worstFitIndex, maxExtraSpace =>
    if b.status = .free ∧ b.size ≥ size then
      if b.size - size > maxExtraSpace then
        worstFitLoop rest (i + 1) size (some i) (b.size - size)
      else worstFitLoop rest (i + 1) size worstFitIndex maxExtraSpace
    else worstFitLoop rest (i + 1) size worstFitIndex maxExtraSpace

/-- Member `allocateWorstFit`. -/
def allocateWorstFit (m : MemoryManager) (size : Int) : Bool × MemoryManager :=
  match worstFitLoop m.blocks 0 size none (-1) with
  | some worstFitIndex =>
    (true, updateMemoryStats
      { m with
        blocks := placeAt m.blocks worstFitIndex size m.nextProcessId
        nextProcessId := m.nextProcessId + 1 })
  | none => (false, m)

/-- The loop "Allocate frames" of `allocatePaging`, standing at frame `i` with
`need` frames still to claim: the frame table after the loop and the claimed
indices in ascending order. -/
def claimFrames : List Bool → Nat → Nat → List Bool × List Nat
  | [], _, _ => ([], [])
  | f :: rest, i, need =>
    if need = 0 then (f :: rest, [])
    else if f = false then
      ((true :: (claimFrames rest (i + 1) (need - 1)).1),
        (i :: (claimFrames rest (i + 1) (need - 1)).2))
    else
      ((f :: (claimFrames rest (i + 1) need).1), (claimFrames rest (i + 1) need).2)

/-- Assignment `pageTable[key] = frames`: replaces the vector of an existing key,
otherwise adds a pair. -/
def pageTableAssign (pageTable : List (Int × List Nat)) (key : Int) (frames : List Nat) :
    List (Int × List Nat) :=
  if (pageTable.lookup key).isSome then
    pageTable.map fun entry => if entry.1 = key then (key, frames) else entry
  else pageTable ++ [(key, frames)]

/-- Member `allocatePaging`.  `pagesNeeded` is at least `1` whenever the size
and the page size are positive, which is where `allocate` calls it. -/
def allocatePaging (m : MemoryManager) (size : Int) : Bool × MemoryManager :=
  let pagesNeeded := (size + m.pageSize - 1).tdiv m.pageSize
  let freeFrames : Int := (m.frameAllocation.count false : Nat)
  if freeFrames < pagesNeeded then (false, m)
  else
    let claimed := claimFrames m.frameAllocation 0 pagesNeeded.toNat
    let pageTable := pageTableAssign m.pageTable m.nextProcessId claimed.2
    (true, updateMemoryStats
      { m with
        frameAllocation := claimed.1
        pageTable := pageTable
        blocks := framesToBlocks pageTable m.pageSize claimed.1.length
        nextProcessId := m.nextProcessId + 1 })

/-- One of the three "Find space for ... segment" loops of
`allocateSegmentation`: a first-fit placement under `id`, with the flag that
tells whether the segment was placed. -/
def placeSegment (blocks : List MemoryBlock) (segmentSize id : Int) :
    Bool × List MemoryBlock :=
  match firstFitIndex blocks segmentSize with
  | some i => (true, placeAt blocks i segmentSize id)
  | none => (false, blocks)

/-- Member `allocateSegmentation`. -/
def allocateSegmentation (m : MemoryManager) (size : Int) : Bool × MemoryManager :=
  let codeSegmentSize := size.tdiv 3
  let dataSegmentSize := size.tdiv 3
  let stackSegmentSize := size - codeSegmentSize - dataSegmentSize
  let code := placeSegment m.blocks codeSegmentSize m.nextProcessId
  let data := placeSegment code.2 dataSegmentSize m.nextProcessId
  let stack := placeSegment data.2 stackSegmentSize m.nextProcessId
  let m1 : MemoryManager := { m with blocks := stack.2 }
  if code.1 ∧ data.1 ∧ stack.1 then
    (true, updateMemoryStats { m1 with nextProcessId := m.nextProcessId + 1 })
  else if code.1 then
    (false, (deallocateById m1 m.nextProcessId).2)
  else
    (false, m1)

/-- The rounding loop `while (allocSize < size) allocSize *= 2`, with a bound on
the number of iterations. -/
def roundUpLoop : Nat → Int → Int → Int
  | 0, allocSize, _ => allocSize
  | n + 1, allocSize, size =>
    if allocSize < size then roundUpLoop n (allocSize * 2) size else allocSize

/-- Value of `allocSize` in `allocateBuddySystem`: the loop started at `1`.
It needs at most `size` iterations (`roundUpPow2_ge`). -/
def roundUpPow2 (size : Int) : Int := roundUpLoop size.toNat 1 size

/-- The test `(blockSize & (blockSize - 1)) == 0`. -/
def powerOfTwoTest (blockSize : Int) : Bool :=
  Int.land blockSize (blockSize - 1) == 0

/-- Index of the first free block whose size passes the power-of-two test and
is at least `allocSize`. -/
def buddyFitIndex : List MemoryBlock → Int → Option Nat
  | [], _ => none
  | b :: rest, allocSize =>
    if b.status = .free ∧ powerOfTwoTest b.size = true ∧ b.size ≥ allocSize then some 0
    else (buddyFitIndex rest allocSize).map (· + 1)

/-- The loop `while (blockSize > allocSize)` on the block with start address
`start`: the final `blockSize` and the buddies inserted so far, in list order
(each new buddy is inserted right after the block, before the older ones). -/
def splitLoop : Nat → Int → Int → Int → List MemoryBlock → Int × List MemoryBlock
  | 0, _, blockSize, _, buddies => (blockSize, buddies)
  | n + 1, start, blockSize, allocSize, buddies =>
    if blockSize > allocSize then
      splitLoop n start (blockSize.tdiv 2) allocSize
        (⟨0, start + blockSize.tdiv 2, blockSize.tdiv 2, .free⟩ :: buddies)
    else (blockSize, buddies)

/-- Split `blocks[i]` down to `allocSize` and allocate it to `id`.  The split
loop halves a size of at least `2`, so `blockSize` iterations are enough
(`splitLoop_exit`). -/
def buddyPlaceAt : List MemoryBlock → Nat → Int → Int → List MemoryBlock
  | [], _, _, _ => []
  | b :: rest, 0, allocSize, id =>
    { b with
      size := (splitLoop b.size.toNat b.start b.size allocSize []).1
      status := .allocated
      id := id } ::
      ((splitLoop b.size.toNat b.start b.size allocSize []).2 ++ rest)
  | b :: rest, i + 1, allocSize, id => b :: buddyPlaceAt rest i allocSize id

/-- Outcome of one `for` scan of the buddy merge. -/
inductive MergeScan where
  | divisionByZero
  | unchanged
  | merged (blocks : List MemoryBlock)
  deriving DecidableEq, Repr

/-- One `for` scan of the buddy merge from index `i` (`cur` is `blocks[i]`):
the first adjacent free pair of equal size whose first block is aligned to an
even multiple of the size and ends where the second starts is merged and the
scan stops.  Two adjacent free blocks of size `0` divide by zero. -/
def buddyScanFrom (cur : MemoryBlock) : List MemoryBlock → MergeScan
  | [] => .unchanged
  | nxt :: rest =>
    if cur.status = .free ∧ nxt.status = .free ∧ cur.size = nxt.size then
      if cur.size = 0 then .divisionByZero
      else if (cur.start.tdiv cur.size).tmod 2 = 0 ∧ cur.start + cur.size = nxt.start then
        .merged ({ cur with size := cur.size * 2 } :: rest)
      else
        match buddyScanFrom nxt rest with
        | .merged blocks => .merged (cur :: blocks)
        | r => r
    else
      match buddyScanFrom nxt rest with
      | .merged blocks => .merged (cur :: blocks)
      | r => r

/-- One `for` scan of the buddy merge over the whole list (empty list: see
`mergeBlocks`). -/
def buddyScan : List MemoryBlock → MergeScan
  | [] => .unchanged
  | b :: rest => buddyScanFrom b rest

/-- The `do ... while (merged)` loop.  Every merge removes a block, so
`blocks.size()` rounds are enough (`buddyMergeLoop_exit`); `none` is a division
by zero. -/
def buddyMergeLoop : Nat → List MemoryBlock → Option (List MemoryBlock)
  | 0, blocks => some blocks
  | n + 1, blocks =>
    match buddyScan blocks with
    | .divisionByZero => none
    | .unchanged => some blocks
    | .merged blocks1 => buddyMergeLoop n blocks1

/-- Member `allocateBuddySystem`; `fuel` bounds the depth of the recursive
retries and `none` means that the call has not returned. -/
def allocateBuddySystem : Nat → MemoryManager → Int → Option (Bool × MemoryManager)
  | 0, _, _ => none
  | fuel + 1, m, size =>
    match buddyFitIndex m.blocks (roundUpPow2 size) with
    | some i =>
      some (true, updateMemoryStats
        { m with
          blocks := buddyPlaceAt m.blocks i (roundUpPow2 size) m.nextProcessId
          nextProcessId := m.nextProcessId + 1 })
    | none =>
      match buddyMergeLoop m.blocks.length m.blocks with
      | none => none
      | some blocks => allocateBuddySystem fuel { m with blocks := blocks } size

/-- The strategy call selected by `allocate`. -/
def runStrategy (fuel : Nat) (m : MemoryManager) (size : Int) (algorithm : String) :
    Option (Bool × MemoryManager) :=
  if algorithm = "fixed-partitioning" then some (allocateFixedPartitioning m size)
  else if algorithm = "first-fit" then some (allocateFirstFit m size)
  else if algorithm = "best-fit" then some (allocateBestFit m size)
  else if algorithm = "worst-fit" then some (allocateWorstFit m size)
  else if algorithm = "paging" then some (allocatePaging m size)
  else if algorithm = "segmentation" then some (allocateSegmentation m size)
  else if algorithm = "buddy-system" then allocateBuddySystem fuel m size
  else some (allocateFirstFit m size)

/-- The tail of `allocate`: a request that was not placed is queued under the
next owner id. -/
def enqueueIfFailed (size : Int) (r : Bool × MemoryManager) : Bool × MemoryManager :=
  if r.1 = false then
    (false,
      { r.2 with
        processQueue := r.2.processQueue ++ [⟨r.2.nextProcessId, size⟩]
        nextProcessId := r.2.nextProcessId + 1 })
  else (true, r.2)

/-- Member `allocate`. -/
def allocate (fuel : Nat) (m : MemoryManager) (size : Int) (algorithm : String) :
    Option (Bool × MemoryManager) :=
  if size ≤ 0 ∨ size > m.totalMemory then some (false, m)
  else (runStrategy fuel m size algorithm).map (enqueueIfFailed size)

/-! ## Reachable states -/

/-- States of the default manager reachable by calls of `allocate` that return
and calls of `deallocateById`. -/
inductive Reachable : MemoryManager → Prop where
  | init : Reachable MemoryManager.default
  | allocate {m m1 : MemoryManager} {fuel : Nat} {size : Int} {algorithm : String}
      {result : Bool} :
      Reachable m → allocate fuel m size algorithm = some (result, m1) → Reachable m1
  | deallocate {m : MemoryManager} (processId : Int) :
      Reachable m → Reachable (deallocateById m processId).2

/-! ## Concrete states used as instances -/

/-- State after `allocate(1024, "first-fit")` and `allocate(30, "first-fit")` on
the default manager: owner `1` holds the whole space and request `2` is queued. -/
def queuedState : MemoryManager :=
  { totalMemory := 1024
    usedMemory := 1024
    freeMemory := 0
    fragmentedMemory := 0
    blocks := [⟨1, 0, 1024, .allocated⟩]
    processQueue := [⟨2, 30⟩]
    nextProcessId := 3
    pageTable := []
    pageSize := 4
    frameAllocation := List.replicate 256 false }

/-- State after `allocate(200, "fixed-partitioning")` on the default manager. -/
def fixedSliced : MemoryManager :=
  { totalMemory := 1024
    usedMemory := 256
    freeMemory := 768
    fragmentedMemory := 0
    blocks := [⟨1, 0, 256, .allocated⟩, ⟨0, 256, 256, .free⟩, ⟨0, 512, 256, .free⟩,
      ⟨0, 768, 256, .free⟩]
    processQueue := []
    nextProcessId := 2
    pageTable := []
    pageSize := 4
    frameAllocation := List.replicate 256 false }

/-! ## Predicates on states -/

/-- The statistics agree with the block list: `usedMemory` is the sum of the
sizes of the allocated blocks, `usedMemory + freeMemory` is the capacity, and
the fragmented total is the sum of the sizes of the fragmented blocks. -/
def StatsConsistent (m : MemoryManager) : Prop :=
  m.usedMemory = sizeWithStatus .allocated m.blocks ∧
    m.usedMemory + m.freeMemory = m.totalMemory ∧
    m.fragmentedMemory = sizeWithStatus .fragmented m.blocks

/-- The blocks tile the range from `a` to `e`: the first block starts at `a`,
every block has a non-negative size and starts where the one before it ends,
and the last block ends at `e`. -/
def Contiguous : Int → List MemoryBlock → Int → Prop
  | a, [], e => a = e
  | a, b :: rest, e => b.start = a ∧ 0 ≤ b.size ∧ Contiguous (a + b.size) rest e

/-- Block `i` exists, is free and has at least `size` units. -/
def FitsAt (blocks : List MemoryBlock) (i : Nat) (size : Int) : Prop :=
  ∃ b, blocks[i]? = some b ∧ b.status = .free ∧ size ≤ b.size

/-- Shape of the states of the default manager: capacity 1024, frame size 4,
256 frames, blocks tiling `[0, 1024)`, and only non-negative sizes queued. -/
def Geometry (m : MemoryManager) : Prop :=
  m.totalMemory = 1024 ∧ m.pageSize = 4 ∧ m.frameAllocation.length = 256 ∧
    Contiguous 0 m.blocks 1024 ∧ ∀ p ∈ m.processQueue, 0 ≤ p.size

/-- State with free blocks of sizes 100, 50 and 30 at increasing addresses,
separated by allocated blocks (first-fit requests of 100, 10, 50, 10, 30 and 824
on the default manager, then owners 1, 3 and 5 deallocated). -/
def threeHoles : MemoryManager :=
  { totalMemory := 1024
    usedMemory := 844
    freeMemory := 180
    fragmentedMemory := 0
    blocks := [⟨0, 0, 100, .free⟩, ⟨2, 100, 10, .allocated⟩, ⟨0, 110, 50, .free⟩,
      ⟨4, 160, 10, .allocated⟩, ⟨0, 170, 30, .free⟩, ⟨6, 200, 824, .allocated⟩]
    processQueue := []
    nextProcessId := 7
    pageTable := []
    pageSize := 4
    frameAllocation := List.replicate 256 false }

/-- Every owner id stored in the state (blocks, page-table keys, queue entries)
is below the id counter, and the counter is positive. -/
def IdsBelow (m : MemoryManager) : Prop :=
  0 < m.nextProcessId ∧ (∀ b ∈ m.blocks, b.id < m.nextProcessId) ∧
    (∀ entry ∈ m.pageTable, entry.1 < m.nextProcessId) ∧
    (∀ p ∈ m.processQueue, p.id < m.nextProcessId)

/-- State after `allocate(200, "fixed-partitioning")` and `allocate(300, "first-fit")`
on the default manager: three free partitions of 256 lie side by side, unmerged,
and request `2` of size 300 is queued. -/
def slicedQueued : MemoryManager :=
  { totalMemory := 1024
    usedMemory := 256
    freeMemory := 768
    fragmentedMemory := 0
    blocks := [⟨1, 0, 256, .allocated⟩, ⟨0, 256, 256, .free⟩, ⟨0, 512, 256, .free⟩,
      ⟨0, 768, 256, .free⟩]
    processQueue := [⟨2, 300⟩]
    nextProcessId := 3
    pageTable := []
    pageSize := 4
    frameAllocation := List.replicate 256 false }

/-- State after first-fit requests of 20, 1004, 40 and 10 on the default
manager: owners 1 and 2 hold the whole space, requests 3 (size 40) and 4
(size 10) are queued in that order. -/
def headBlocked : MemoryManager :=
  { totalMemory := 1024
    usedMemory := 1024
    freeMemory := 0
    fragmentedMemory := 0
    blocks := [⟨1, 0, 20, .allocated⟩, ⟨2, 20, 1004, .allocated⟩]
    processQueue := [⟨3, 40⟩, ⟨4, 10⟩]
    nextProcessId := 5
    pageTable := []
    pageSize := 4
    frameAllocation := List.replicate 256 false }

/-- State after `allocate(100, "first-fit")` on the default manager: 924 units
are free, in one block whose size is not a power of two. -/
def oddHole : MemoryManager :=
  { totalMemory := 1024
    usedMemory := 100
    freeMemory := 924
    fragmentedMemory := 0
    blocks := [⟨1, 0, 100, .allocated⟩, ⟨0, 100, 924, .free⟩]
    processQueue := []
    nextProcessId := 2
    pageTable := []
    pageSize := 4
    frameAllocation := List.replicate 256 false }

/-- State after `allocate(1024, "buddy-system")` on the default manager: owner 1
holds the whole space. -/
def fullBuddy : MemoryManager :=
  { totalMemory := 1024
    usedMemory := 1024
    freeMemory := 0
    fragmentedMemory := 0
    blocks := [⟨1, 0, 1024, .allocated⟩]
    processQueue := []
    nextProcessId := 2
    pageTable := []
    pageSize := 4
    frameAllocation := List.replicate 256 false }

/-- States reached from the default manager by a first fixed-partitioning
request that succeeds (it slices the space), followed by fixed-partitioning
requests only (placed or queued) and by deallocations that find nothing. -/
inductive FixedOnly : MemoryManager → Prop where
  | sliced {m1 : MemoryManager} (fuel : Nat) (size : Int) :
      allocate fuel MemoryManager.default size "fixed-partitioning" = some (true, m1) →
      FixedOnly m1
  | allocate {m m1 : MemoryManager} (fuel : Nat) (size : Int) (result : Bool) :
      FixedOnly m → allocate fuel m size "fixed-partitioning" = some (result, m1) →
      FixedOnly m1
  | deallocateNotFound {m : MemoryManager} (processId : Int) :
      FixedOnly m → (deallocateById m processId).1 = false →
      FixedOnly (deallocateById m processId).2

/-- State after two fixed-partitioning requests (sizes 200 and 100) on the
default manager: owners 1 and 2 hold the first two partitions. -/
def slicedTwice : MemoryManager :=
  { totalMemory := 1024
    usedMemory := 512
    freeMemory := 512
    fragmentedMemory := 0
    blocks := [⟨1, 0, 256, .allocated⟩, ⟨2, 256, 256, .allocated⟩, ⟨0, 512, 256, .free⟩,
      ⟨0, 768, 256, .free⟩]
    processQueue := []
    nextProcessId := 3
    pageTable := []
    pageSize := 4
    frameAllocation := List.replicate 256 false }

/-- The merge pass as the specification describes its result: every maximal run
of consecutive free blocks becomes one block that keeps the first block of the
run except for its size, which is the sum of the sizes of the run; a block that
is not free is kept as it is. -/
def mergeRunsSpec : List MemoryBlock → List MemoryBlock
  | [] => []
  | b :: rest =>
    if b.status = .free then
      { b with
        size := b.size + ((rest.takeWhile (fun c => c.status = .free)).map (·.size)).sum } ::
        mergeRunsSpec (rest.dropWhile (fun c => c.status = .free))
    else b :: mergeRunsSpec rest
termination_by blocks => blocks.length
decreasing_by
  · simp only [List.length_cons]
    exact Nat.lt_succ_of_le (List.dropWhile_sublist _).length_le
  · simp only [List.length_cons]
    exact Nat.lt_succ_self _

/-- Indices of the free frames of a frame table, in index order; `k` is the
index of the first entry of the list. -/
def freeIndicesFrom : List Bool → Nat → List Nat
  | [], _ => []
  | f :: rest, k =>
    if f = false then k :: freeIndicesFrom rest (k + 1) else freeIndicesFrom rest (k + 1)

/-- State after `allocate(6, "paging")`, `allocate(4, "paging")` and
`deallocate(1)` on the default manager: frame 2 is held by owner 2 and every
other frame is free. -/
def pagedGap : MemoryManager :=
  (deallocateById
    (allocatePaging (allocatePaging MemoryManager.default 6).2 4).2 1).2

/-- A block with this id and status is not an allocated block of a queued
request. -/
def NotQueued (queue : List Process) (id : Int) (status : Status) : Prop :=
  status = .allocated → ∀ p ∈ queue, id ≠ p.id

/-- The queue holds pairwise distinct owner ids, and no allocated block and no
page-table entry carries the id of a queued request. -/
def QueueApart (m : MemoryManager) : Prop :=
  (m.processQueue.map (·.id)).Nodup ∧
    (∀ b ∈ m.blocks, NotQueued m.processQueue b.id b.status) ∧
    (∀ entry ∈ m.pageTable, ∀ p ∈ m.processQueue, entry.1 ≠ p.id)

/-- State after `allocate(9, "segmentation")` on the default manager: owner 1
holds three blocks of size 3. -/
def segmented : MemoryManager :=
  { totalMemory := 1024
    usedMemory := 9
    freeMemory := 1015
    fragmentedMemory := 0
    blocks := [⟨1, 0, 3, .allocated⟩, ⟨1, 3, 3, .allocated⟩, ⟨1, 6, 3, .allocated⟩,
      ⟨0, 9, 1015, .free⟩]
    processQueue := []
    nextProcessId := 2
    pageTable := []
    pageSize := 4
    frameAllocation := List.replicate 256 false }

/-- Page table and frame table agree: the keys of the page table are pairwise
distinct, no entry lists a frame twice, no two entries share a frame, and a
frame is occupied exactly when some entry lists it. -/
def PagingConsistent (pageTable : List (Int × List Nat)) (frameAllocation : List Bool) :
    Prop :=
  (pageTable.map (·.1)).Nodup ∧ (∀ entry ∈ pageTable, entry.2.Nodup) ∧
    pageTable.Pairwise (fun e1 e2 => ∀ i ∈ e1.2, i ∉ e2.2) ∧
    ∀ i : Nat, frameAllocation[i]? = some true ↔ ∃ entry ∈ pageTable, i ∈ entry.2

/-- State after `allocate(6, "paging")` and `allocate(4, "paging")` on the
default manager: owner 1 holds frames 0 and 1, owner 2 holds frame 2. -/
def pagedTwo : MemoryManager :=
  (allocatePaging (allocatePaging MemoryManager.default 6).2 4).2

/-! # Properties of the embedding -/

/-! ## Rejected requests and unknown owners -/

theorem lookup_none_of_keys {pageTable : List (Int × List Nat)} {key : Int}
    (h : ∀ entry ∈ pageTable, entry.1 ≠ key) : pageTable.lookup key = none := by
  induction pageTable with
  | nil => rfl
  | cons e rest ih =>
    obtain ⟨k, v⟩ := e
    have hk : k ≠ key := h (k, v) (List.mem_cons_self _ _)
    have hkb : (key == k) = false := by
      simp only [beq_eq_false_iff_ne, ne_eq]
      exact fun hh => hk hh.symm
    simp only [List.lookup, hkb]
    exact ih (fun entry he => h entry (List.mem_cons_of_mem _ he))

theorem freeOwned_of_not_owner {processId : Int} {blocks : List MemoryBlock}
    (h : ∀ b ∈ blocks, b.status = .allocated → b.id ≠ processId) :
    freeOwned processId blocks = blocks := by
  unfold freeOwned
  induction blocks with
  | nil => rfl
  | cons b rest ih =>
    have hb : ¬ (b.status = .allocated ∧ b.id = processId) :=
      fun hh => h b (List.mem_cons_self _ _) hh.1 hh.2
    rw [List.map_cons, if_neg hb, ih (fun c hc => h c (List.mem_cons_of_mem _ hc))]

theorem ownsBlock_of_not_owner {processId : Int} {blocks : List MemoryBlock}
    (h : ∀ b ∈ blocks, b.status = .allocated → b.id ≠ processId) :
    ownsBlock processId blocks = false := by
  unfold ownsBlock
  rw [List.any_eq_false]
  intro b hb
  simp only [decide_eq_true_eq]
  exact fun hh => h b hb hh.1 hh.2

/-- C2: for every strategy name and every size with `size ≤ 0` or
`size > capacity`, `allocate` returns failure and the state after the call is the
state before it (blocks, frame table, page table, queue, id counter and
statistics), whatever the state and the recursion budget. -/
theorem allocate_invalid_size_unchanged (fuel : Nat) (m : MemoryManager) (size : Int)
    (algorithm : String) (h : size ≤ 0 ∨ size > m.totalMemory) :
    allocate fuel m size algorithm = some (false, m) := by
  unfold allocate
  rw [if_pos h]

theorem allocate_invalid_size_unchanged_witness :
    ((-5 : Int) ≤ 0 ∨ (-5 : Int) > MemoryManager.default.totalMemory) ∧
      allocate 0 MemoryManager.default (-5) "buddy-system" =
        some (false, MemoryManager.default) :=
  ⟨by decide, allocate_invalid_size_unchanged 0 MemoryManager.default (-5) "buddy-system"
    (by decide)⟩

/-- C4: for every owner id that is not a key of the page table and not the id of
an allocated block, `deallocateById` returns not-found and the state after the
call is the state before it. -/
theorem deallocate_unknown_unchanged (m : MemoryManager) (processId : Int)
    (hpage : ∀ entry ∈ m.pageTable, entry.1 ≠ processId)
    (hblock : ∀ b ∈ m.blocks, b.status = .allocated → b.id ≠ processId) :
    deallocateById m processId = (false, m) := by
  unfold deallocateById
  rw [lookup_none_of_keys hpage]
  simp only [ownsBlock_of_not_owner hblock, freeOwned_of_not_owner hblock]
  rfl

theorem deallocate_unknown_unchanged_witness :
    (∀ entry ∈ queuedState.pageTable, entry.1 ≠ 2) ∧
      (∀ b ∈ queuedState.blocks, b.status = .allocated → b.id ≠ 2) ∧
      queuedState.processQueue = [⟨2, 30⟩] ∧
      deallocateById queuedState 2 = (false, queuedState) ∧
      deallocateById queuedState 0 = (false, queuedState) :=
  ⟨by decide, by decide, rfl,
    deallocate_unknown_unchanged queuedState 2 (by decide) (by decide),
    deallocate_unknown_unchanged queuedState 0 (by decide) (by decide)⟩

/-! ## Merge pass -/

theorem mergeFrom_head (cur : MemoryBlock) (rest : List MemoryBlock) :
    ∃ h t, mergeFrom cur rest = h :: t ∧ h.status = cur.status ∧ h.start = cur.start ∧
      h.id = cur.id := by
  induction rest generalizing cur with
  | nil => exact ⟨cur, [], rfl, rfl, rfl, rfl⟩
  | cons nxt rest ih =>
    unfold mergeFrom
    split
    · obtain ⟨h, t, e, hs, hst, hid⟩ := ih { cur with size := cur.size + nxt.size }
      exact ⟨h, t, e, hs, hst, hid⟩
    · exact ⟨cur, _, rfl, rfl, rfl, rfl⟩

theorem mergeBlocks_mergeFrom (cur : MemoryBlock) (rest : List MemoryBlock) :
    mergeBlocks (mergeFrom cur rest) = mergeFrom cur rest := by
  induction rest generalizing cur with
  | nil => rfl
  | cons nxt rest ih =>
    unfold mergeFrom
    split
    · exact ih _
    · rename_i hfree
      obtain ⟨h, t, e, hs, -, -⟩ := mergeFrom_head nxt rest
      have ih1 := ih nxt
      rw [e] at ih1 ⊢
      have hne : ¬ (cur.status = .free ∧ h.status = .free) := by rwa [hs]
      show mergeFrom cur (h :: t) = cur :: h :: t
      rw [mergeFrom, if_neg hne]
      exact congrArg (cur :: ·) ih1

/-- C7: for every non-empty block list the merge pass run twice gives exactly the
block sequence it gives when run once. -/
theorem mergeBlocks_idempotent (blocks : List MemoryBlock) (hne : blocks ≠ []) :
    mergeBlocks (mergeBlocks blocks) = mergeBlocks blocks := by
  cases blocks with
  | nil => exact absurd rfl hne
  | cons b rest => exact mergeBlocks_mergeFrom b rest

theorem mergeBlocks_idempotent_witness :
    mergeBlocks [⟨0, 0, 8, .free⟩, ⟨0, 8, 8, .free⟩, ⟨4, 16, 8, .allocated⟩, ⟨0, 24, 0, .free⟩,
        ⟨0, 24, 8, .free⟩] =
      [⟨0, 0, 16, .free⟩, ⟨4, 16, 8, .allocated⟩, ⟨0, 24, 8, .free⟩] ∧
    mergeBlocks (mergeBlocks [⟨0, 0, 8, .free⟩, ⟨0, 8, 8, .free⟩, ⟨4, 16, 8, .allocated⟩,
        ⟨0, 24, 0, .free⟩, ⟨0, 24, 8, .free⟩]) =
      mergeBlocks [⟨0, 0, 8, .free⟩, ⟨0, 8, 8, .free⟩, ⟨4, 16, 8, .allocated⟩,
        ⟨0, 24, 0, .free⟩, ⟨0, 24, 8, .free⟩] :=
  ⟨by decide, mergeBlocks_idempotent _ (by simp)⟩

/-! ## First-fit round trip -/

/-- C5: for `int` constructor arguments with a positive page size (the
arguments for which the constructor builds a manager with `capacity ≥ 1`), the
initial state is one free block of size `capacity` at `0`, an empty queue and
`capacity / pageSize` frames; from it a first-fit `allocate(S)` with
`1 ≤ S ≤ capacity` succeeds and gives a block of size `S` to the id it issues;
deallocating that id reports found and leaves one free, unowned block of size
`capacity` at address `0`, with `usedMemory = 0`. -/
theorem firstFit_roundtrip (fuel : Nat) (capacity pageSize S : Int) (h1 : 1 ≤ S)
    (h2 : S ≤ capacity) (hp : 0 < pageSize) (hcap : capacity ≤ 2147483647)
    (hps : pageSize ≤ 2147483647) :
    (MemoryManager.new capacity pageSize).blocks = [⟨0, 0, capacity, .free⟩] ∧
    (MemoryManager.new capacity pageSize).processQueue = [] ∧
    ((MemoryManager.new capacity pageSize).frameAllocation.length : Int) =
      capacity.tdiv pageSize ∧
    0 ≤ capacity.tdiv pageSize ∧ capacity.tdiv pageSize ≤ 2147483647 ∧
    ∃ m1, allocate fuel (MemoryManager.new capacity pageSize) S "first-fit" = some (true, m1) ∧
      (∃ b ∈ m1.blocks, b.id = (MemoryManager.new capacity pageSize).nextProcessId ∧
        b.status = .allocated ∧ b.size = S) ∧
      (deallocateById m1 (MemoryManager.new capacity pageSize).nextProcessId).1 = true ∧
      (deallocateById m1 (MemoryManager.new capacity pageSize).nextProcessId).2.blocks =
        [⟨0, 0, capacity, .free⟩] ∧
      (deallocateById m1 (MemoryManager.new capacity pageSize).nextProcessId).2.processQueue
        = [] ∧
      (deallocateById m1 (MemoryManager.new capacity pageSize).nextProcessId).2.usedMemory
        = 0 := by
  have hq0 : 0 ≤ capacity.tdiv pageSize := Int.tdiv_nonneg (by omega) (by omega)
  have hq1 : capacity.tdiv pageSize ≤ capacity := by
    rw [Int.tdiv_eq_ediv (by omega : 0 ≤ capacity) (by omega : 0 ≤ pageSize)]
    exact Int.ediv_le_self _ (by omega)
  refine ⟨rfl, rfl, ?_, hq0, by omega, ?_⟩
  · simp only [MemoryManager.new, List.length_replicate]
    exact Int.toNat_of_nonneg hq0
  have hv : ¬ (S ≤ 0 ∨ S > capacity) := by omega
  have hfit : firstFitIndex [(⟨0, 0, capacity, .free⟩ : MemoryBlock)] S = some 0 := by
    simp [firstFitIndex, h2]
  have hrun : allocate fuel (MemoryManager.new capacity pageSize) S "first-fit" =
      some (true, updateMemoryStats
        { MemoryManager.new capacity pageSize with
          blocks := placeAt [⟨0, 0, capacity, .free⟩] 0 S 1
          nextProcessId := 1 + 1 }) := by
    simp only [allocate, MemoryManager.new, if_neg hv, runStrategy, allocateFirstFit, hfit]
    rfl
  refine ⟨_, hrun, ?_⟩
  by_cases hrem : capacity - S > 0
  · simp [deallocateById, updateMemoryStats, List.lookup, ownsBlock, freeOwned,
      mergeAdjacentFreeBlocks, mergeBlocks, mergeFrom, tryAllocateWaitingProcesses,
      sizeWithStatus, placeAt, MemoryManager.new, hrem]
  · have hS : S = capacity := by omega
    subst hS
    simp [deallocateById, updateMemoryStats, List.lookup, ownsBlock, freeOwned,
      mergeAdjacentFreeBlocks, mergeBlocks, mergeFrom, tryAllocateWaitingProcesses,
      sizeWithStatus, placeAt, MemoryManager.new]

theorem firstFit_roundtrip_witness :
    (1 : Int) ≤ 100 ∧ (100 : Int) ≤ 1024 ∧ (0 : Int) < 4 ∧
    (MemoryManager.new 1024 4).blocks = [⟨0, 0, 1024, .free⟩] ∧
    (MemoryManager.new 1024 4).processQueue = [] ∧
    ((MemoryManager.new 1024 4).frameAllocation.length : Int) = (1024 : Int).tdiv 4 ∧
    0 ≤ (1024 : Int).tdiv 4 ∧ (1024 : Int).tdiv 4 ≤ 2147483647 ∧
    ∃ m1, allocate 0 (MemoryManager.new 1024 4) 100 "first-fit" = some (true, m1) ∧
      (∃ b ∈ m1.blocks, b.id = (MemoryManager.new 1024 4).nextProcessId ∧
        b.status = .allocated ∧ b.size = 100) ∧
      (deallocateById m1 (MemoryManager.new 1024 4).nextProcessId).1 = true ∧
      (deallocateById m1 (MemoryManager.new 1024 4).nextProcessId).2.blocks =
        [⟨0, 0, 1024, .free⟩] ∧
      (deallocateById m1 (MemoryManager.new 1024 4).nextProcessId).2.processQueue = [] ∧
      (deallocateById m1 (MemoryManager.new 1024 4).nextProcessId).2.usedMemory = 0 :=
  ⟨by decide, by decide, by decide,
    firstFit_roundtrip 0 1024 4 100 (by decide) (by decide) (by decide) (by decide)
      (by decide)⟩

/-! ## Fixed partitioning on a fresh manager -/

/-- State after the first fixed-partitioning request on the default manager. -/
theorem fixed_first_state (size : Int) (h : size ≤ 256) :
    allocateFixedPartitioning MemoryManager.default size = (true, fixedSliced) := by
  have h1 : ¬ size > partitionSize := by simp only [partitionSize]; omega
  simp only [allocateFixedPartitioning, if_neg h1]
  rfl

theorem fixed_second_state (size : Int) (h : 256 < size) :
    allocateFixedPartitioning fixedSliced size = (false, fixedSliced) := by
  have h1 : size > partitionSize := by simp only [partitionSize]; omega
  simp only [allocateFixedPartitioning, if_pos h1]

/-- C9: on the default manager (capacity 1024) a fixed-partitioning request of
any size from 1 to 256 succeeds and leaves exactly the four blocks of size 256
at 0, 256, 512, 768, the first allocated to the newly issued id 1 and the others
free; a following fixed-partitioning request of any size from 257 to 1024
returns failure, leaves the blocks as they are and is appended to the queue. -/
theorem fixed_partitioning_scenario (fuel : Nat) (size1 size2 : Int)
    (h1 : 1 ≤ size1) (h2 : size1 ≤ 256) (h3 : 257 ≤ size2) (h4 : size2 ≤ 1024) :
    ∃ m1 m2,
      allocate fuel MemoryManager.default size1 "fixed-partitioning" = some (true, m1) ∧
      m1.blocks = [⟨MemoryManager.default.nextProcessId, 0, 256, .allocated⟩,
        ⟨0, 256, 256, .free⟩, ⟨0, 512, 256, .free⟩, ⟨0, 768, 256, .free⟩] ∧
      m1.processQueue = [] ∧
      allocate fuel m1 size2 "fixed-partitioning" = some (false, m2) ∧
      m2.blocks = m1.blocks ∧
      m2.processQueue = m1.processQueue ++ [⟨m1.nextProcessId, size2⟩] := by
  have hv1 : ¬ (size1 ≤ 0 ∨ size1 > MemoryManager.default.totalMemory) := by
    simp only [MemoryManager.default, MemoryManager.new]; omega
  have hv2 : ¬ (size2 ≤ 0 ∨ size2 > fixedSliced.totalMemory) := by
    simp only [fixedSliced]; omega
  refine ⟨fixedSliced, (enqueueIfFailed size2 (false, fixedSliced)).2, ?_, rfl, rfl, ?_, ?_, ?_⟩
  · simp only [allocate, if_neg hv1, runStrategy, fixed_first_state size1 h2]
    rfl
  · simp only [allocate, if_neg hv2, runStrategy, fixed_second_state size2 (by omega)]
    rfl
  · rfl
  · rfl

theorem fixed_partitioning_scenario_witness :
    ∃ m1 m2,
      allocate 0 MemoryManager.default 200 "fixed-partitioning" = some (true, m1) ∧
      m1.blocks = [⟨MemoryManager.default.nextProcessId, 0, 256, .allocated⟩,
        ⟨0, 256, 256, .free⟩, ⟨0, 512, 256, .free⟩, ⟨0, 768, 256, .free⟩] ∧
      m1.processQueue = [] ∧
      allocate 0 m1 300 "fixed-partitioning" = some (false, m2) ∧
      m2.blocks = m1.blocks ∧
      m2.processQueue = m1.processQueue ++ [⟨m1.nextProcessId, 300⟩] :=
  fixed_partitioning_scenario 0 200 300 (by decide) (by decide) (by decide) (by decide)

/-! ## Buddy system on a fresh manager -/

theorem roundUpLoop_spec (n : Nat) (a size : Int) (ha : 0 < a) (hn : size - a ≤ n) :
    size ≤ roundUpLoop n a size ∧ (∃ j : Nat, roundUpLoop n a size = a * 2 ^ j) ∧
      (roundUpLoop n a size = a ∨ roundUpLoop n a size < 2 * size) := by
  induction n generalizing a with
  | zero =>
    have h0 : size - a ≤ 0 := by simpa using hn
    exact ⟨by simp only [roundUpLoop]; omega, ⟨0, by simp [roundUpLoop]⟩, Or.inl rfl⟩
  | succ n ih =>
    simp only [roundUpLoop]
    split
    · rename_i hlt
      obtain ⟨h1, ⟨j, h2⟩, h3⟩ := ih (a * 2) (by omega) (by push_cast at hn; omega)
      refine ⟨h1, ⟨j + 1, by rw [h2]; ring⟩, Or.inr ?_⟩
      rcases h3 with h3 | h3
      · rw [h3]; omega
      · exact h3
    · rename_i hge
      exact ⟨by omega, ⟨0, by simp⟩, Or.inl rfl⟩

/-- The rounding loop leaves by its condition: its result is a power of two that
is at least `size`, and the least such one. -/
theorem roundUpPow2_spec (size : Int) :
    size ≤ roundUpPow2 size ∧ (∃ j : Nat, roundUpPow2 size = 2 ^ j) ∧
      (roundUpPow2 size = 1 ∨ roundUpPow2 size < 2 * size) := by
  obtain ⟨h1, ⟨j, h2⟩, h3⟩ := roundUpLoop_spec size.toNat 1 size (by omega) (by omega)
  exact ⟨h1, ⟨j, by rw [roundUpPow2, h2]; ring⟩, h3⟩

theorem roundUpPow2_ge (size : Int) : size ≤ roundUpPow2 size := (roundUpPow2_spec size).1

theorem buddy_fresh_state (fuel : Nat) (size : Int) (k : Nat) (hk : k ≤ 10)
    (hr : roundUpPow2 size = 2 ^ k) :
    allocateBuddySystem (fuel + 1) MemoryManager.default size =
      some (true, updateMemoryStats
        { MemoryManager.default with
          blocks := ⟨1, 0, 2 ^ k, .allocated⟩ ::
            (List.range (10 - k)).map fun i => ⟨0, 2 ^ (k + i), 2 ^ (k + i), .free⟩
          nextProcessId := 2 }) := by
  interval_cases k <;> simp only [allocateBuddySystem, hr] <;> rfl

theorem buddy_rest_sum (k : Nat) (hk : k ≤ 10) :
    (((List.range (10 - k)).map fun i =>
      (⟨0, 2 ^ (k + i), 2 ^ (k + i), .free⟩ : MemoryBlock)).map (·.size)).sum =
      1024 - 2 ^ k := by
  interval_cases k <;> rfl

theorem buddy_used (k : Nat) (hk : k ≤ 10) :
    sizeWithStatus .allocated (⟨1, 0, 2 ^ k, .allocated⟩ ::
      (List.range (10 - k)).map fun i =>
        (⟨0, 2 ^ (k + i), 2 ^ (k + i), .free⟩ : MemoryBlock)) = 2 ^ k := by
  interval_cases k <;> rfl

/-- C10: on the default manager (capacity 1024), for every size from 1 to 1024 a
buddy-system `allocate` returns success; afterwards the first block is allocated
to the newly issued id at address 0 with size the least power of two that is at
least the request, every other block is free with a power-of-two size, and the
free sizes sum to 1024 minus the allocated size. -/
theorem buddy_fresh_allocation (fuel : Nat) (size : Int) (h1 : 1 ≤ size)
    (h2 : size ≤ 1024) :
    ∃ m1 k rest,
      allocate (fuel + 1) MemoryManager.default size "buddy-system" = some (true, m1) ∧
      m1.blocks = ⟨MemoryManager.default.nextProcessId, 0, 2 ^ k, .allocated⟩ :: rest ∧
      size ≤ 2 ^ k ∧ (∀ j : Nat, size ≤ 2 ^ j → (2 : Int) ^ k ≤ 2 ^ j) ∧
      (∀ b ∈ rest, b.status = .free ∧ ∃ j : Nat, b.size = 2 ^ j) ∧
      (rest.map (·.size)).sum = 1024 - 2 ^ k ∧
      m1.usedMemory = 2 ^ k := by
  obtain ⟨hge, ⟨k, hk⟩, hmin⟩ := roundUpPow2_spec size
  have hlt : (2 : Int) ^ k < 2 ^ 11 := by
    rcases hmin with h | h
    · rw [← hk, h]; norm_num
    · rw [← hk]; omega
  have hk10 : k ≤ 10 := by
    have := (pow_lt_pow_iff_right₀ (by norm_num : (1 : Int) < 2)).1 hlt
    omega
  have hv : ¬ (size ≤ 0 ∨ size > MemoryManager.default.totalMemory) := by
    simp only [MemoryManager.default, MemoryManager.new]; omega
  refine ⟨updateMemoryStats
      { MemoryManager.default with
        blocks := ⟨1, 0, 2 ^ k, .allocated⟩ ::
          (List.range (10 - k)).map fun i => ⟨0, 2 ^ (k + i), 2 ^ (k + i), .free⟩
        nextProcessId := 2 }, k, _, ?_, rfl, by rw [← hk]; exact hge, ?_, ?_,
      buddy_rest_sum k hk10, buddy_used k hk10⟩
  · simp only [allocate, if_neg hv, runStrategy, buddy_fresh_state fuel size k hk10 hk]
    rfl
  · intro j hj
    rcases hmin with h | h
    · rw [← hk, h]; exact one_le_pow₀ (by norm_num)
    · have h3 : (2 : Int) ^ k < 2 ^ (j + 1) := by rw [← hk, pow_succ]; omega
      have := (pow_lt_pow_iff_right₀ (by norm_num : (1 : Int) < 2)).1 h3
      exact pow_le_pow_right₀ (by norm_num) (by omega)
  · intro b hb
    obtain ⟨i, -, rfl⟩ := List.mem_map.1 hb
    exact ⟨rfl, k + i, rfl⟩

theorem buddy_fresh_allocation_witness :
    ∃ m1,
      allocate 1 MemoryManager.default 100 "buddy-system" = some (true, m1) ∧
      m1.blocks = [⟨1, 0, 128, .allocated⟩, ⟨0, 128, 128, .free⟩, ⟨0, 256, 256, .free⟩,
        ⟨0, 512, 512, .free⟩] ∧
      (128 : Int) + 256 + 512 = 896 ∧
      ∃ m0 k rest,
      allocate (0 + 1) MemoryManager.default 100 "buddy-system" = some (true, m0) ∧
      m0.blocks = ⟨MemoryManager.default.nextProcessId, 0, 2 ^ k, .allocated⟩ :: rest ∧
      (100 : Int) ≤ 2 ^ k ∧ (∀ j : Nat, (100 : Int) ≤ 2 ^ j → (2 : Int) ^ k ≤ 2 ^ j) ∧
      (∀ b ∈ rest, b.status = .free ∧ ∃ j : Nat, b.size = 2 ^ j) ∧
      (rest.map (·.size)).sum = 1024 - 2 ^ k ∧
      m0.usedMemory = 2 ^ k :=
  ⟨_, rfl, rfl, by decide, buddy_fresh_allocation 0 100 (by decide) (by decide)⟩

/-! ## Statistics after every call -/

theorem stats_updateMemoryStats (m : MemoryManager) : StatsConsistent (updateMemoryStats m) := by
  refine ⟨rfl, ?_, rfl⟩
  show sizeWithStatus .allocated m.blocks + (m.totalMemory - sizeWithStatus .allocated m.blocks)
    = m.totalMemory
  omega

theorem freeOwned_of_not_found {processId : Int} {blocks : List MemoryBlock}
    (h : ownsBlock processId blocks = false) : freeOwned processId blocks = blocks := by
  apply freeOwned_of_not_owner
  intro b hb hs hid
  unfold ownsBlock at h
  rw [List.any_eq_false] at h
  exact h b hb (by simp [hs, hid])

theorem deallocate_not_found {m : MemoryManager} {processId : Int}
    (h : (deallocateById m processId).1 = false) : (deallocateById m processId).2 = m := by
  unfold deallocateById at h ⊢
  split
  · rename_i frames hl
    simp [hl] at h
  · rename_i hl
    simp only [hl] at h ⊢
    by_cases ho : ownsBlock processId m.blocks = true
    · simp [ho] at h
    · have ho1 : ownsBlock processId m.blocks = false := by simpa using ho
      simp only [ho1, freeOwned_of_not_found ho1]
      rfl

theorem deallocate_found {m : MemoryManager} {processId : Int}
    (h : (deallocateById m processId).1 = true) :
    ∃ m1, (deallocateById m processId).2 = updateMemoryStats m1 := by
  unfold deallocateById at h ⊢
  split
  · exact ⟨_, rfl⟩
  · rename_i hl
    simp only [hl] at h ⊢
    by_cases ho : ownsBlock processId m.blocks = true
    · simp only [ho]
      exact ⟨_, rfl⟩
    · have ho1 : ownsBlock processId m.blocks = false := by simpa using ho
      simp [ho1] at h

theorem stats_deallocate {m : MemoryManager} (h : StatsConsistent m) (processId : Int) :
    StatsConsistent (deallocateById m processId).2 := by
  cases hf : (deallocateById m processId).1
  · rw [deallocate_not_found hf]; exact h
  · obtain ⟨m1, e⟩ := deallocate_found hf
    rw [e]; exact stats_updateMemoryStats m1

theorem firstFitIndex_none_mono {blocks : List MemoryBlock} {c d : Int} (hcd : c ≤ d)
    (h : firstFitIndex blocks c = none) : firstFitIndex blocks d = none := by
  induction blocks with
  | nil => rfl
  | cons b rest ih =>
    simp only [firstFitIndex] at h ⊢
    split at h
    · simp at h
    · rename_i hb
      have hb1 : ¬ (b.status = .free ∧ b.size ≥ d) := fun hh => hb ⟨hh.1, by omega⟩
      rw [if_neg hb1]
      simp only [Option.map_eq_none'] at h ⊢
      exact ih h

theorem placeSegment_fail {blocks : List MemoryBlock} {c id : Int}
    (h : (placeSegment blocks c id).1 = false) :
    firstFitIndex blocks c = none ∧ (placeSegment blocks c id).2 = blocks := by
  unfold placeSegment at h ⊢
  cases hf : firstFitIndex blocks c with
  | none => exact ⟨rfl, rfl⟩
  | some i => simp [hf] at h

theorem segment_sizes {size : Int} (h : 0 ≤ size) :
    0 ≤ size.tdiv 3 ∧ size.tdiv 3 ≤ size - size.tdiv 3 - size.tdiv 3 := by
  rw [Int.tdiv_eq_ediv h (by norm_num)]
  omega

/-- A segmentation request of non-negative size whose code segment is not placed
places no segment at all. -/
theorem segmentation_code_fail {blocks : List MemoryBlock} {size id : Int} (h : 0 ≤ size)
    (hc : (placeSegment blocks (size.tdiv 3) id).1 = false) :
    (placeSegment (placeSegment (placeSegment blocks (size.tdiv 3) id).2 (size.tdiv 3) id).2
      (size - size.tdiv 3 - size.tdiv 3) id).2 = blocks := by
  obtain ⟨hn, e1⟩ := placeSegment_fail hc
  rw [e1, e1]
  have hs := firstFitIndex_none_mono (segment_sizes h).2 hn
  simp only [placeSegment, hs]

theorem deallocate_found_of_owns {m : MemoryManager} {processId : Int}
    (h : ownsBlock processId m.blocks = true) : (deallocateById m processId).1 = true := by
  unfold deallocateById
  split
  · rfl
  · simp only [h]
    rfl

theorem ownsBlock_iff {processId : Int} {blocks : List MemoryBlock} :
    ownsBlock processId blocks = true ↔
      ∃ b ∈ blocks, b.status = .allocated ∧ b.id = processId := by
  simp [ownsBlock]

theorem placeAt_keeps_allocated {blocks : List MemoryBlock} {c id : Int} {i : Nat}
    (hi : firstFitIndex blocks c = some i) {b : MemoryBlock} (hb : b ∈ blocks)
    (hs : b.status = .allocated) : b ∈ placeAt blocks i c id := by
  induction blocks generalizing i with
  | nil => cases hb
  | cons a rest ih =>
    simp only [firstFitIndex] at hi
    split at hi
    · rename_i ha
      cases hi
      have hne : b ≠ a := by
        intro e; rw [e, ha.1] at hs; cases hs
      rcases List.mem_cons.1 hb with e | hm
      · exact absurd e hne
      · simp only [placeAt]
        split
        · exact List.mem_cons_of_mem _ (List.mem_cons_of_mem _ hm)
        · exact List.mem_cons_of_mem _ hm
    · cases hr : firstFitIndex rest c with
      | none => simp [hr] at hi
      | some j =>
        simp only [hr, Option.map_some', Option.some.injEq] at hi
        subst hi
        simp only [placeAt]
        rcases List.mem_cons.1 hb with e | hm
        · rw [e]; exact List.mem_cons_self _ _
        · exact List.mem_cons_of_mem _ (ih hr hm)

theorem placeAt_owner {blocks : List MemoryBlock} {c : Int} (id : Int) {i : Nat}
    (hi : firstFitIndex blocks c = some i) :
    ∃ b ∈ placeAt blocks i c id, b.status = .allocated ∧ b.id = id ∧ b.size = c := by
  induction blocks generalizing i with
  | nil => simp [firstFitIndex] at hi
  | cons a rest ih =>
    simp only [firstFitIndex] at hi
    split at hi
    · cases hi
      exact ⟨_, List.mem_cons_self _ _, rfl, rfl, rfl⟩
    · cases hr : firstFitIndex rest c with
      | none => simp [hr] at hi
      | some j =>
        simp only [hr, Option.map_some', Option.some.injEq] at hi
        subst hi
        obtain ⟨b, hb, h1⟩ := ih hr
        exact ⟨b, List.mem_cons_of_mem _ hb, h1⟩

theorem placeSegment_keeps_owner {blocks : List MemoryBlock} (c id : Int) {pid : Int}
    (h : ownsBlock pid blocks = true) : ownsBlock pid (placeSegment blocks c id).2 = true := by
  rw [ownsBlock_iff] at h ⊢
  obtain ⟨b, hb, hs, hid⟩ := h
  unfold placeSegment
  cases hf : firstFitIndex blocks c with
  | none => exact ⟨b, hb, hs, hid⟩
  | some i => exact ⟨b, placeAt_keeps_allocated hf hb hs, hs, hid⟩

theorem placeSegment_owner {blocks : List MemoryBlock} {c id : Int}
    (h : (placeSegment blocks c id).1 = true) :
    ownsBlock id (placeSegment blocks c id).2 = true := by
  rw [ownsBlock_iff]
  unfold placeSegment at h ⊢
  cases hf : firstFitIndex blocks c with
  | none => simp [hf] at h
  | some i =>
    obtain ⟨b, hb, h1, h2, -⟩ := placeAt_owner id hf
    exact ⟨b, hb, h1, h2⟩

theorem stats_segmentation {m : MemoryManager} {size : Int} (h : StatsConsistent m)
    (hs : 0 ≤ size) : StatsConsistent (allocateSegmentation m size).2 := by
  unfold allocateSegmentation
  simp only
  split
  · exact stats_updateMemoryStats _
  · split
    · rename_i hc
      have hown := placeSegment_keeps_owner (size - size.tdiv 3 - size.tdiv 3)
        m.nextProcessId (placeSegment_keeps_owner (size.tdiv 3)
        m.nextProcessId (placeSegment_owner hc))
      obtain ⟨m1, e⟩ := deallocate_found (deallocate_found_of_owns
        (m := { m with blocks := (placeSegment (placeSegment (placeSegment m.blocks
          (size.tdiv 3) m.nextProcessId).2 (size.tdiv 3) m.nextProcessId).2
          (size - size.tdiv 3 - size.tdiv 3) m.nextProcessId).2 }) hown)
      rw [e]
      exact stats_updateMemoryStats m1
    · rename_i hc
      have hc1 : (placeSegment m.blocks (size.tdiv 3) m.nextProcessId).1 = false := by
        simpa using hc
      rw [segmentation_code_fail hs hc1]
      exact h

theorem stats_fixed {m : MemoryManager} (size : Int) (h : StatsConsistent m) :
    StatsConsistent (allocateFixedPartitioning m size).2 := by
  unfold allocateFixedPartitioning
  split
  · exact h
  · split
    · exact stats_updateMemoryStats _
    · split
      · split
        · exact stats_updateMemoryStats _
        · exact h
      · exact h

theorem stats_firstFit {m : MemoryManager} (size : Int) (h : StatsConsistent m) :
    StatsConsistent (allocateFirstFit m size).2 := by
  unfold allocateFirstFit
  split
  · exact stats_updateMemoryStats _
  · exact h

theorem stats_bestFit {m : MemoryManager} (size : Int) (h : StatsConsistent m) :
    StatsConsistent (allocateBestFit m size).2 := by
  unfold allocateBestFit
  split
  · exact stats_updateMemoryStats _
  · exact h

theorem stats_worstFit {m : MemoryManager} (size : Int) (h : StatsConsistent m) :
    StatsConsistent (allocateWorstFit m size).2 := by
  unfold allocateWorstFit
  split
  · exact stats_updateMemoryStats _
  · exact h

theorem stats_paging {m : MemoryManager} (size : Int) (h : StatsConsistent m) :
    StatsConsistent (allocatePaging m size).2 := by
  unfold allocatePaging
  simp only
  split
  · exact h
  · exact stats_updateMemoryStats _

/-- A buddy-system call that returns has placed the request and refreshed the
statistics; it never returns failure. -/
theorem buddy_returns {fuel : Nat} {m : MemoryManager} {size : Int} {r : Bool}
    {m1 : MemoryManager} (h : allocateBuddySystem fuel m size = some (r, m1)) :
    r = true ∧ ∃ m0, m1 = updateMemoryStats m0 := by
  induction fuel generalizing m with
  | zero => simp [allocateBuddySystem] at h
  | succ fuel ih =>
    simp only [allocateBuddySystem] at h
    split at h
    · simp only [Option.some.injEq, Prod.mk.injEq] at h
      exact ⟨h.1.symm, _, h.2.symm⟩
    · split at h
      · cases h
      · exact ih h

/-- The strategy call behind a result of `runStrategy`. -/
theorem runStrategy_cases {fuel : Nat} {m : MemoryManager} {size : Int} {algorithm : String}
    {r : Bool} {m1 : MemoryManager} (hr : runStrategy fuel m size algorithm = some (r, m1)) :
    allocateFixedPartitioning m size = (r, m1) ∨ allocateFirstFit m size = (r, m1) ∨
      allocateBestFit m size = (r, m1) ∨ allocateWorstFit m size = (r, m1) ∨
      allocatePaging m size = (r, m1) ∨
      (algorithm = "segmentation" ∧ allocateSegmentation m size = (r, m1)) ∨
      allocateBuddySystem fuel m size = some (r, m1) := by
  unfold runStrategy at hr
  split_ifs at hr with h1 h2 h3 h4 h5 h6 h7
  · exact Or.inl (Option.some.inj hr)
  · exact Or.inr (Or.inl (Option.some.inj hr))
  · exact Or.inr (Or.inr (Or.inl (Option.some.inj hr)))
  · exact Or.inr (Or.inr (Or.inr (Or.inl (Option.some.inj hr))))
  · exact Or.inr (Or.inr (Or.inr (Or.inr (Or.inl (Option.some.inj hr)))))
  · exact Or.inr (Or.inr (Or.inr (Or.inr (Or.inr (Or.inl ⟨h6, Option.some.inj hr⟩)))))
  · exact Or.inr (Or.inr (Or.inr (Or.inr (Or.inr (Or.inr hr)))))
  · exact Or.inr (Or.inl (Option.some.inj hr))

theorem stats_runStrategy {fuel : Nat} {m : MemoryManager} {size : Int} {algorithm : String}
    {r : Bool} {m1 : MemoryManager} (h : StatsConsistent m) (hs : 0 ≤ size)
    (hr : runStrategy fuel m size algorithm = some (r, m1)) : StatsConsistent m1 := by
  rcases runStrategy_cases hr with e | e | e | e | e | ⟨-, e⟩ | e
  · have := stats_fixed size h; rwa [e] at this
  · have := stats_firstFit size h; rwa [e] at this
  · have := stats_bestFit size h; rwa [e] at this
  · have := stats_worstFit size h; rwa [e] at this
  · have := stats_paging size h; rwa [e] at this
  · have := stats_segmentation h hs; rwa [e] at this
  · obtain ⟨-, m0, e1⟩ := buddy_returns e
    rw [e1]; exact stats_updateMemoryStats m0

theorem stats_enqueue {m : MemoryManager} (size : Int) (r : Bool) (h : StatsConsistent m) :
    StatsConsistent (enqueueIfFailed size (r, m)).2 := by
  unfold enqueueIfFailed
  split
  · exact h
  · exact h

/-- What `allocate` returns, in terms of the strategy outcome. -/
theorem allocate_cases {fuel : Nat} {m : MemoryManager} {size : Int} {algorithm : String}
    {r : Bool} {m1 : MemoryManager} (h : allocate fuel m size algorithm = some (r, m1)) :
    ((size ≤ 0 ∨ size > m.totalMemory) ∧ r = false ∧ m1 = m) ∨
      (0 < size ∧ size ≤ m.totalMemory ∧ ∃ r0 m0,
        runStrategy fuel m size algorithm = some (r0, m0) ∧
          (r, m1) = enqueueIfFailed size (r0, m0)) := by
  unfold allocate at h
  split at h
  · rename_i hv
    simp only [Option.some.injEq, Prod.mk.injEq] at h
    exact Or.inl ⟨hv, h.1.symm, h.2.symm⟩
  · rename_i hv
    right
    refine ⟨by omega, by omega, ?_⟩
    cases hrun : runStrategy fuel m size algorithm with
    | none => simp [hrun] at h
    | some p =>
      obtain ⟨r0, m0⟩ := p
      simp only [hrun, Option.map_some', Option.some.injEq] at h
      exact ⟨r0, m0, rfl, h.symm⟩

theorem stats_allocate {fuel : Nat} {m : MemoryManager} {size : Int} {algorithm : String}
    {r : Bool} {m1 : MemoryManager} (h : StatsConsistent m)
    (ha : allocate fuel m size algorithm = some (r, m1)) : StatsConsistent m1 := by
  rcases allocate_cases ha with ⟨-, -, e⟩ | ⟨hs, -, r0, m0, hrun, e⟩
  · rw [e]; exact h
  · have h0 := stats_runStrategy h (by omega) hrun
    have h1 := stats_enqueue size r0 h0
    rw [← e] at h1
    exact h1

theorem stats_reachable {m : MemoryManager} (h : Reachable m) : StatsConsistent m := by
  induction h with
  | init => exact ⟨rfl, rfl, rfl⟩
  | allocate _ ha ih => exact stats_allocate ih ha
  | deallocate pid _ ih => exact stats_deallocate ih pid

/-- C6: after every `allocate` call that returns and every `deallocateById`
call, made in any state the default manager can reach and whatever the call
returns, `usedMemory` is the sum of the sizes of the allocated blocks and
`usedMemory + freeMemory` is the capacity (and the fragmented total is the sum
over the fragmented blocks): no call leaves the statistics stale. -/
theorem stats_consistent_after_call (m : MemoryManager) (h : Reachable m) :
    (∀ (fuel : Nat) (size : Int) (algorithm : String) (r : Bool) (m1 : MemoryManager),
      allocate fuel m size algorithm = some (r, m1) →
        m1.usedMemory = sizeWithStatus .allocated m1.blocks ∧
          m1.usedMemory + m1.freeMemory = m1.totalMemory ∧
          m1.fragmentedMemory = sizeWithStatus .fragmented m1.blocks) ∧
    (∀ processId : Int, StatsConsistent (deallocateById m processId).2) :=
  ⟨fun _ _ _ _ _ ha => stats_allocate (stats_reachable h) ha,
    fun pid => stats_deallocate (stats_reachable h) pid⟩

theorem stats_consistent_after_call_witness :
    Reachable MemoryManager.default ∧
    (∀ (fuel : Nat) (size : Int) (algorithm : String) (r : Bool) (m1 : MemoryManager),
      allocate fuel MemoryManager.default size algorithm = some (r, m1) →
        m1.usedMemory = sizeWithStatus .allocated m1.blocks ∧
          m1.usedMemory + m1.freeMemory = m1.totalMemory ∧
          m1.fragmentedMemory = sizeWithStatus .fragmented m1.blocks) ∧
    (∀ processId : Int, StatsConsistent (deallocateById MemoryManager.default processId).2) :=
  ⟨Reachable.init, stats_consistent_after_call MemoryManager.default Reachable.init⟩

/-! ## The partition invariant -/

theorem contiguous_append {a mid e : Int} {xs ys : List MemoryBlock}
    (hx : Contiguous a xs mid) (hy : Contiguous mid ys e) : Contiguous a (xs ++ ys) e := by
  induction xs generalizing a with
  | nil =>
    simp only [Contiguous] at hx
    subst hx
    exact hy
  | cons b rest ih =>
    obtain ⟨h1, h2, h3⟩ := hx
    exact ⟨h1, h2, ih h3⟩

theorem contiguous_map {a e : Int} {blocks : List MemoryBlock} (f : MemoryBlock → MemoryBlock)
    (hf : ∀ b, (f b).start = b.start ∧ (f b).size = b.size)
    (h : Contiguous a blocks e) : Contiguous a (blocks.map f) e := by
  induction blocks generalizing a with
  | nil => exact h
  | cons b rest ih =>
    obtain ⟨h1, h2, h3⟩ := h
    refine ⟨by rw [(hf b).1]; exact h1, by rw [(hf b).2]; exact h2, ?_⟩
    rw [(hf b).2]
    exact ih h3

theorem contiguous_size_le {a e : Int} {blocks : List MemoryBlock}
    (h : Contiguous a blocks e) : a ≤ e ∧ ∀ b ∈ blocks, a ≤ b.start ∧ b.start + b.size ≤ e := by
  induction blocks generalizing a with
  | nil =>
    simp only [Contiguous] at h
    exact ⟨by omega, fun b hb => by cases hb⟩
  | cons c rest ih =>
    obtain ⟨h1, h2, h3⟩ := h
    obtain ⟨i1, i2⟩ := ih h3
    refine ⟨by omega, fun b hb => ?_⟩
    rcases List.mem_cons.1 hb with e1 | hm
    · subst e1; omega
    · have := i2 b hm; omega

theorem firstFitIndex_fits {blocks : List MemoryBlock} {size : Int} {i : Nat}
    (h : firstFitIndex blocks size = some i) : FitsAt blocks i size := by
  induction blocks generalizing i with
  | nil => simp [firstFitIndex] at h
  | cons b rest ih =>
    simp only [firstFitIndex] at h
    split at h
    · rename_i hb
      cases h
      exact ⟨b, by simp, hb.1, hb.2⟩
    · cases hr : firstFitIndex rest size with
      | none => simp [hr] at h
      | some j =>
        simp only [hr, Option.map_some', Option.some.injEq] at h
        subst h
        obtain ⟨c, hc, h1⟩ := ih hr
        exact ⟨c, by simpa using hc, h1⟩

theorem contiguous_placeAt {a e : Int} {blocks : List MemoryBlock} {i : Nat} {size : Int}
    (id : Int) (h : Contiguous a blocks e) (hfit : FitsAt blocks i size) (hs : 0 ≤ size) :
    Contiguous a (placeAt blocks i size id) e := by
  induction blocks generalizing a i with
  | nil => exact h
  | cons b rest ih =>
    obtain ⟨h1, h2, h3⟩ := h
    obtain ⟨c, hc, hfree, hle⟩ := hfit
    cases i with
    | zero =>
      simp only [List.getElem?_cons_zero, Option.some.injEq] at hc
      subst hc
      simp only [placeAt]
      split
      · refine ⟨h1, hs, by rw [h1], by show 0 ≤ b.size - size; omega, ?_⟩
        have e1 : a + size + (b.size - size) = a + b.size := by omega
        show Contiguous (a + size + (b.size - size)) rest e
        rw [e1]; exact h3
      · refine ⟨h1, hs, ?_⟩
        have e1 : size = b.size := by omega
        show Contiguous (a + size) rest e
        rw [e1]; exact h3
    | succ j =>
      simp only [List.getElem?_cons_succ] at hc
      exact ⟨h1, h2, ih h3 ⟨c, hc, hfree, hle⟩⟩

theorem contiguous_mergeFrom {a e : Int} {cur : MemoryBlock} {rest : List MemoryBlock}
    (h : Contiguous a (cur :: rest) e) : Contiguous a (mergeFrom cur rest) e := by
  induction rest generalizing a cur with
  | nil => exact h
  | cons nxt rest ih =>
    obtain ⟨h1, h2, h3, h4, h5⟩ := h
    unfold mergeFrom
    split
    · apply ih
      refine ⟨h1, by show 0 ≤ cur.size + nxt.size; omega, ?_⟩
      show Contiguous (a + (cur.size + nxt.size)) rest e
      rw [← Int.add_assoc]; exact h5
    · exact ⟨h1, h2, ih ⟨h3, h4, h5⟩⟩

theorem contiguous_mergeBlocks {a e : Int} {blocks : List MemoryBlock}
    (h : Contiguous a blocks e) : Contiguous a (mergeBlocks blocks) e := by
  cases blocks with
  | nil => exact h
  | cons b rest => exact contiguous_mergeFrom h

theorem contiguous_freeOwned {a e : Int} {blocks : List MemoryBlock} (processId : Int)
    (h : Contiguous a blocks e) : Contiguous a (freeOwned processId blocks) e := by
  apply contiguous_map _ _ h
  intro b
  split <;> exact ⟨rfl, rfl⟩

theorem contiguous_framesToBlocks (pageTable : List (Int × List Nat)) (pageSize : Int)
    (hp : 0 ≤ pageSize) (n : Nat) :
    Contiguous 0 (framesToBlocks pageTable pageSize n) (n * pageSize) := by
  induction n with
  | zero => simp [framesToBlocks, Contiguous]
  | succ n ih =>
    unfold framesToBlocks at ih ⊢
    rw [List.range_succ, List.map_append]
    apply contiguous_append ih
    have hb : (frameBlock pageTable pageSize n).start = n * pageSize ∧
        (frameBlock pageTable pageSize n).size = pageSize := by
      unfold frameBlock; split <;> exact ⟨rfl, rfl⟩
    refine ⟨hb.1, by rw [hb.2]; exact hp, ?_⟩
    show (n : Int) * pageSize + (frameBlock pageTable pageSize n).size = _
    rw [hb.2]; push_cast; ring

/-! ## Selection loops of best-fit and worst-fit -/

/-- Outcome of the best-fit loop started at index `k` with a current candidate:
either no block of the list improves on `minExtraSpace` and the candidate
stays, or the loop ends on the block of least size among the fitting free
blocks of the list, the first one among equals, and that block improves on
`minExtraSpace`. -/
theorem bestFitLoop_spec (blocks : List MemoryBlock) (k : Nat) (size : Int)
    (best : Option Nat) (minExtra : Int) :
    ((∀ (j : Nat) (c : MemoryBlock), blocks[j]? = some c → c.status = .free → size ≤ c.size →
        minExtra ≤ c.size - size) ∧
      bestFitLoop blocks k size best minExtra = best) ∨
    (∃ i b, bestFitLoop blocks k size best minExtra = some (k + i) ∧
      blocks[i]? = some b ∧ b.status = .free ∧ size ≤ b.size ∧ b.size - size < minExtra ∧
      ∀ (j : Nat) (c : MemoryBlock), blocks[j]? = some c → c.status = .free → size ≤ c.size →
        b.size ≤ c.size ∧ (c.size = b.size → i ≤ j)) := by
  induction blocks generalizing k best minExtra with
  | nil =>
    left
    exact ⟨fun j c hc => by simp at hc, rfl⟩
  | cons a rest ih =>
    simp only [bestFitLoop]
    by_cases hfit : a.status = .free ∧ a.size ≥ size
    · rw [if_pos hfit]
      by_cases hlt : a.size - size < minExtra
      · rw [if_pos hlt]
        right
        rcases ih (k + 1) (some k) (a.size - size) with ⟨hno, hres⟩ | ⟨i, b, hres, hb, hf, hs, hl, hmin⟩
        · refine ⟨0, a, by rw [hres]; rfl, by simp, hfit.1, hfit.2, hlt, ?_⟩
          intro j c hc hcf hcs
          cases j with
          | zero =>
            simp only [List.getElem?_cons_zero, Option.some.injEq] at hc
            subst hc
            exact ⟨le_refl _, fun _ => le_refl _⟩
          | succ j =>
            simp only [List.getElem?_cons_succ] at hc
            have := hno j c hc hcf hcs
            exact ⟨by omega, fun _ => Nat.zero_le _⟩
        · refine ⟨i + 1, b, by rw [hres]; congr 1; omega, by simpa using hb, hf, hs,
            by omega, ?_⟩
          intro j c hc hcf hcs
          cases j with
          | zero =>
            simp only [List.getElem?_cons_zero, Option.some.injEq] at hc
            subst hc
            exact ⟨by omega, fun e => by omega⟩
          | succ j =>
            simp only [List.getElem?_cons_succ] at hc
            have := hmin j c hc hcf hcs
            exact ⟨this.1, fun e => by have := this.2 e; omega⟩
      · rw [if_neg hlt]
        rcases ih (k + 1) best minExtra with ⟨hno, hres⟩ | ⟨i, b, hres, hb, hf, hs, hl, hmin⟩
        · left
          refine ⟨?_, hres⟩
          intro j c hc hcf hcs
          cases j with
          | zero =>
            simp only [List.getElem?_cons_zero, Option.some.injEq] at hc
            subst hc
            omega
          | succ j =>
            simp only [List.getElem?_cons_succ] at hc
            exact hno j c hc hcf hcs
        · right
          refine ⟨i + 1, b, by rw [hres]; congr 1; omega, by simpa using hb, hf, hs, hl, ?_⟩
          intro j c hc hcf hcs
          cases j with
          | zero =>
            simp only [List.getElem?_cons_zero, Option.some.injEq] at hc
            subst hc
            exact ⟨by omega, fun e => by omega⟩
          | succ j =>
            simp only [List.getElem?_cons_succ] at hc
            have := hmin j c hc hcf hcs
            exact ⟨this.1, fun e => by have := this.2 e; omega⟩
    · rw [if_neg hfit]
      rcases ih (k + 1) best minExtra with ⟨hno, hres⟩ | ⟨i, b, hres, hb, hf, hs, hl, hmin⟩
      · left
        refine ⟨?_, hres⟩
        intro j c hc hcf hcs
        cases j with
        | zero =>
          simp only [List.getElem?_cons_zero, Option.some.injEq] at hc
          subst hc
          exact absurd ⟨hcf, hcs⟩ hfit
        | succ j =>
          simp only [List.getElem?_cons_succ] at hc
          exact hno j c hc hcf hcs
      · right
        refine ⟨i + 1, b, by rw [hres]; congr 1; omega, by simpa using hb, hf, hs, hl, ?_⟩
        intro j c hc hcf hcs
        cases j with
        | zero =>
          simp only [List.getElem?_cons_zero, Option.some.injEq] at hc
          subst hc
          exact absurd ⟨hcf, hcs⟩ hfit
        | succ j =>
          simp only [List.getElem?_cons_succ] at hc
          have := hmin j c hc hcf hcs
          exact ⟨this.1, fun e => by have := this.2 e; omega⟩

/-- Outcome of the worst-fit loop, as for `bestFitLoop_spec` with the order of
the sizes reversed. -/
theorem worstFitLoop_spec (blocks : List MemoryBlock) (k : Nat) (size : Int)
    (worst : Option Nat) (maxExtra : Int) :
    ((∀ (j : Nat) (c : MemoryBlock), blocks[j]? = some c → c.status = .free → size ≤ c.size →
        c.size - size ≤ maxExtra) ∧
      worstFitLoop blocks k size worst maxExtra = worst) ∨
    (∃ i b, worstFitLoop blocks k size worst maxExtra = some (k + i) ∧
      blocks[i]? = some b ∧ b.status = .free ∧ size ≤ b.size ∧ maxExtra < b.size - size ∧
      ∀ (j : Nat) (c : MemoryBlock), blocks[j]? = some c → c.status = .free → size ≤ c.size →
        c.size ≤ b.size ∧ (c.size = b.size → i ≤ j)) := by
  induction blocks generalizing k worst maxExtra with
  | nil =>
    left
    exact ⟨fun j c hc => by simp at hc, rfl⟩
  | cons a rest ih =>
    simp only [worstFitLoop]
    by_cases hfit : a.status = .free ∧ a.size ≥ size
    · rw [if_pos hfit]
      by_cases hlt : a.size - size > maxExtra
      · rw [if_pos hlt]
        right
        rcases ih (k + 1) (some k) (a.size - size) with ⟨hno, hres⟩ | ⟨i, b, hres, hb, hf, hs, hl, hmin⟩
        · refine ⟨0, a, by rw [hres]; rfl, by simp, hfit.1, hfit.2, hlt, ?_⟩
          intro j c hc hcf hcs
          cases j with
          | zero =>
            simp only [List.getElem?_cons_zero, Option.some.injEq] at hc
            subst hc
            exact ⟨le_refl _, fun _ => le_refl _⟩
          | succ j =>
            simp only [List.getElem?_cons_succ] at hc
            have := hno j c hc hcf hcs
            exact ⟨by omega, fun _ => Nat.zero_le _⟩
        · refine ⟨i + 1, b, by rw [hres]; congr 1; omega, by simpa using hb, hf, hs,
            by omega, ?_⟩
          intro j c hc hcf hcs
          cases j with
          | zero =>
            simp only [List.getElem?_cons_zero, Option.some.injEq] at hc
            subst hc
            exact ⟨by omega, fun e => by omega⟩
          | succ j =>
            simp only [List.getElem?_cons_succ] at hc
            have := hmin j c hc hcf hcs
            exact ⟨this.1, fun e => by have := this.2 e; omega⟩
      · rw [if_neg hlt]
        rcases ih (k + 1) worst maxExtra with ⟨hno, hres⟩ | ⟨i, b, hres, hb, hf, hs, hl, hmin⟩
        · left
          refine ⟨?_, hres⟩
          intro j c hc hcf hcs
          cases j with
          | zero =>
            simp only [List.getElem?_cons_zero, Option.some.injEq] at hc
            subst hc
            omega
          | succ j =>
            simp only [List.getElem?_cons_succ] at hc
            exact hno j c hc hcf hcs
        · right
          refine ⟨i + 1, b, by rw [hres]; congr 1; omega, by simpa using hb, hf, hs, hl, ?_⟩
          intro j c hc hcf hcs
          cases j with
          | zero =>
            simp only [List.getElem?_cons_zero, Option.some.injEq] at hc
            subst hc
            exact ⟨by omega, fun e => by omega⟩
          | succ j =>
            simp only [List.getElem?_cons_succ] at hc
            have := hmin j c hc hcf hcs
            exact ⟨this.1, fun e => by have := this.2 e; omega⟩
    · rw [if_neg hfit]
      rcases ih (k + 1) worst maxExtra with ⟨hno, hres⟩ | ⟨i, b, hres, hb, hf, hs, hl, hmin⟩
      · left
        refine ⟨?_, hres⟩
        intro j c hc hcf hcs
        cases j with
        | zero =>
          simp only [List.getElem?_cons_zero, Option.some.injEq] at hc
          subst hc
          exact absurd ⟨hcf, hcs⟩ hfit
        | succ j =>
          simp only [List.getElem?_cons_succ] at hc
          exact hno j c hc hcf hcs
      · right
        refine ⟨i + 1, b, by rw [hres]; congr 1; omega, by simpa using hb, hf, hs, hl, ?_⟩
        intro j c hc hcf hcs
        cases j with
        | zero =>
          simp only [List.getElem?_cons_zero, Option.some.injEq] at hc
          subst hc
          exact absurd ⟨hcf, hcs⟩ hfit
        | succ j =>
          simp only [List.getElem?_cons_succ] at hc
          have := hmin j c hc hcf hcs
          exact ⟨this.1, fun e => by have := this.2 e; omega⟩

theorem bestFitLoop_fits {blocks : List MemoryBlock} {size minExtra : Int} {i : Nat}
    (h : bestFitLoop blocks 0 size none minExtra = some i) : FitsAt blocks i size := by
  rcases bestFitLoop_spec blocks 0 size none minExtra with ⟨-, hres⟩ | ⟨j, b, hres, hb, hf, hs, -⟩
  · rw [hres] at h; cases h
  · rw [hres] at h
    simp only [Nat.zero_add, Option.some.injEq] at h
    subst h
    exact ⟨b, hb, hf, hs⟩

theorem worstFitLoop_fits {blocks : List MemoryBlock} {size maxExtra : Int} {i : Nat}
    (h : worstFitLoop blocks 0 size none maxExtra = some i) : FitsAt blocks i size := by
  rcases worstFitLoop_spec blocks 0 size none maxExtra with ⟨-, hres⟩ | ⟨j, b, hres, hb, hf, hs, -⟩
  · rw [hres] at h; cases h
  · rw [hres] at h
    simp only [Nat.zero_add, Option.some.injEq] at h
    subst h
    exact ⟨b, hb, hf, hs⟩

/-! ## Geometry of the remaining block updates -/

theorem contiguous_takeFreePartition {a e id : Int} {blocks blocks1 : List MemoryBlock}
    (h : Contiguous a blocks e) (ht : takeFreePartition id blocks = some blocks1) :
    Contiguous a blocks1 e := by
  induction blocks generalizing a blocks1 with
  | nil => simp [takeFreePartition] at ht
  | cons b rest ih =>
    obtain ⟨h1, h2, h3⟩ := h
    simp only [takeFreePartition] at ht
    split at ht
    · cases ht
      exact ⟨h1, h2, h3⟩
    · cases hr : takeFreePartition id rest with
      | none => simp [hr] at ht
      | some bs =>
        simp only [hr, Option.map_some', Option.some.injEq] at ht
        subst ht
        exact ⟨h1, h2, ih h3 hr⟩

theorem contiguous_fixedPartitions (id : Int) :
    Contiguous 0 (fixedPartitions ((1024 : Int).tdiv partitionSize).toNat id) 1024 := by
  have e : ((1024 : Int).tdiv partitionSize).toNat = 4 := by decide
  rw [e]
  simp [fixedPartitions, List.range_succ, Contiguous, partitionSize]

/-- The bit test on a number of at least `2`: the number is even and its half
passes the test too. -/
theorem powerOfTwoTest_half {n : Int} (h : powerOfTwoTest n = true) (h2 : 2 ≤ n) :
    n.tdiv 2 + n.tdiv 2 = n ∧ powerOfTwoTest (n.tdiv 2) = true ∧ 1 ≤ n.tdiv 2 := by
  obtain ⟨k, rfl⟩ := Int.eq_ofNat_of_zero_le (by omega : 0 ≤ n)
  have hk : 2 ≤ k := by omega
  have e1 : ((k : Int) - 1) = ((k - 1 : Nat) : Int) := by omega
  have hland : k &&& (k - 1) = 0 := by
    simp only [powerOfTwoTest, e1, beq_iff_eq] at h
    have : Int.land (k : Int) ((k - 1 : Nat) : Int) = ((k &&& (k - 1) : Nat) : Int) := rfl
    rw [this] at h
    exact_mod_cast h
  have hdiv : k / 2 &&& (k - 1) / 2 = 0 := by
    rw [← Nat.and_div_two, hland]
  have heven : k % 2 = 0 := by
    by_contra hodd
    have e2 : (k - 1) / 2 = k / 2 := by omega
    rw [e2, Nat.and_self] at hdiv
    omega
  have e3 : (k - 1) / 2 = k / 2 - 1 := by omega
  rw [e3] at hdiv
  rw [Int.tdiv_eq_ediv (by omega) (by norm_num)]
  refine ⟨by omega, ?_, by omega⟩
  have e4 : ((k : Int) / 2) = ((k / 2 : Nat) : Int) := by omega
  have e5 : ((k / 2 : Nat) : Int) - 1 = ((k / 2 - 1 : Nat) : Int) := by omega
  simp only [powerOfTwoTest, e4, e5, beq_iff_eq]
  have : Int.land ((k / 2 : Nat) : Int) ((k / 2 - 1 : Nat) : Int) =
      ((k / 2 &&& (k / 2 - 1) : Nat) : Int) := rfl
  rw [this, hdiv]
  rfl

theorem splitLoop_contiguous (n : Nat) (start blockSize allocSize : Int)
    (buddies : List MemoryBlock) (e : Int) (ht : powerOfTwoTest blockSize = true)
    (hb : 1 ≤ blockSize) (ha : 1 ≤ allocSize)
    (hc : Contiguous (start + blockSize) buddies e) :
    1 ≤ (splitLoop n start blockSize allocSize buddies).1 ∧
      Contiguous (start + (splitLoop n start blockSize allocSize buddies).1)
        (splitLoop n start blockSize allocSize buddies).2 e := by
  induction n generalizing blockSize buddies with
  | zero => exact ⟨hb, hc⟩
  | succ n ih =>
    simp only [splitLoop]
    split
    · rename_i hgt
      obtain ⟨h1, h2, h3⟩ := powerOfTwoTest_half ht (by omega)
      apply ih _ _ h2 h3
      refine ⟨rfl, by show 0 ≤ blockSize.tdiv 2; omega, ?_⟩
      show Contiguous (start + blockSize.tdiv 2 + blockSize.tdiv 2) buddies e
      have e1 : start + blockSize.tdiv 2 + blockSize.tdiv 2 = start + blockSize := by omega
      rw [e1]; exact hc
    · exact ⟨hb, hc⟩

theorem roundUpPow2_pos (size : Int) : 1 ≤ roundUpPow2 size := by
  obtain ⟨-, ⟨j, hj⟩, -⟩ := roundUpPow2_spec size
  rw [hj]
  exact one_le_pow₀ (by norm_num)

theorem contiguous_buddyPlaceAt {a e : Int} {blocks : List MemoryBlock} {i : Nat}
    {allocSize : Int} (id : Int) (ha : 1 ≤ allocSize) (h : Contiguous a blocks e)
    (hi : buddyFitIndex blocks allocSize = some i) :
    Contiguous a (buddyPlaceAt blocks i allocSize id) e := by
  induction blocks generalizing a i with
  | nil => exact h
  | cons b rest ih =>
    obtain ⟨h1, h2, h3⟩ := h
    simp only [buddyFitIndex] at hi
    split at hi
    · rename_i hb
      cases hi
      simp only [buddyPlaceAt]
      have hrest : Contiguous (b.start + b.size) ([] ++ rest) e := by
        rw [h1]; exact h3
      obtain ⟨s1, s2⟩ := splitLoop_contiguous b.size.toNat b.start b.size allocSize []
        (b.start + b.size) hb.2.1 (by omega) ha rfl
      refine ⟨h1, by show 0 ≤ (splitLoop b.size.toNat b.start b.size allocSize []).1; omega,
        ?_⟩
      show Contiguous (a + (splitLoop b.size.toNat b.start b.size allocSize []).1)
        ((splitLoop b.size.toNat b.start b.size allocSize []).2 ++ rest) e
      rw [← h1]
      exact contiguous_append s2 (by rw [h1]; exact h3)
    · cases hr : buddyFitIndex rest allocSize with
      | none => simp [hr] at hi
      | some j =>
        simp only [hr, Option.map_some', Option.some.injEq] at hi
        subst hi
        exact ⟨h1, h2, ih h3 hr⟩

theorem contiguous_buddyScanFrom {a e : Int} {cur : MemoryBlock} {rest blocks1 : List MemoryBlock}
    (h : Contiguous a (cur :: rest) e) (hs : buddyScanFrom cur rest = .merged blocks1) :
    Contiguous a blocks1 e ∧ blocks1.length = rest.length := by
  induction rest generalizing a cur blocks1 with
  | nil => simp [buddyScanFrom] at hs
  | cons nxt rest ih =>
    obtain ⟨h1, h2, h3, h4, h5⟩ := h
    have hrec : ∀ bs, (match buddyScanFrom nxt rest with
        | .merged blocks => MergeScan.merged (cur :: blocks)
        | r => r) = .merged bs → Contiguous a bs e ∧ bs.length = (nxt :: rest).length := by
      intro bs hbs
      cases hr : buddyScanFrom nxt rest with
      | divisionByZero => simp [hr] at hbs
      | unchanged => simp [hr] at hbs
      | merged bs1 =>
        simp only [hr, MergeScan.merged.injEq] at hbs
        subst hbs
        obtain ⟨i1, i2⟩ := ih ⟨h3, h4, h5⟩ hr
        exact ⟨⟨h1, h2, i1⟩, by simp [i2]⟩
    simp only [buddyScanFrom] at hs
    split at hs
    · rename_i hpair
      split at hs
      · cases hs
      · split at hs
        · rename_i hal
          simp only [MergeScan.merged.injEq] at hs
          subst hs
          refine ⟨⟨h1, by show 0 ≤ cur.size * 2; omega, ?_⟩, rfl⟩
          show Contiguous (a + cur.size * 2) rest e
          have e1 : a + cur.size * 2 = a + cur.size + nxt.size := by
            have := hpair.2.2; omega
          rw [e1]; exact h5
        · exact hrec _ hs
    · exact hrec _ hs

theorem contiguous_buddyMergeLoop {a e : Int} (n : Nat) {blocks blocks1 : List MemoryBlock}
    (h : Contiguous a blocks e) (hs : buddyMergeLoop n blocks = some blocks1) :
    Contiguous a blocks1 e := by
  induction n generalizing blocks with
  | zero =>
    simp only [buddyMergeLoop, Option.some.injEq] at hs
    subst hs; exact h
  | succ n ih =>
    simp only [buddyMergeLoop] at hs
    cases hb : buddyScan blocks with
    | divisionByZero => simp [hb] at hs
    | unchanged =>
      simp only [hb, Option.some.injEq] at hs
      subst hs; exact h
    | merged bs =>
      simp only [hb] at hs
      cases blocks with
      | nil => simp [buddyScan] at hb
      | cons b rest => exact ih (contiguous_buddyScanFrom h hb).1 hs

theorem claimFrames_length (frames : List Bool) (i need : Nat) :
    (claimFrames frames i need).1.length = frames.length := by
  induction frames generalizing i need with
  | nil => rfl
  | cons f rest ih =>
    simp only [claimFrames]
    split
    · rfl
    · split <;> simp [ih]

theorem releaseFrames_length (frames : List Nat) (table : List Bool) :
    (frames.foldl (fun fa f => fa.set f false) table).length = table.length := by
  induction frames generalizing table with
  | nil => rfl
  | cons f rest ih => simp [List.foldl_cons, ih]

/-! ## The partition invariant in every reachable state -/

theorem geometry_updateMemoryStats {m : MemoryManager} (h : Geometry m) :
    Geometry (updateMemoryStats m) := h

theorem geometry_tryAllocate {m : MemoryManager} (h : Geometry m) :
    Geometry (tryAllocateWaitingProcesses m) := by
  obtain ⟨h1, h2, h3, h4, h5⟩ := h
  unfold tryAllocateWaitingProcesses
  split
  · exact ⟨h1, h2, h3, h4, h5⟩
  · rename_i p waiting hq
    have hp : 0 ≤ p.size := h5 p (by rw [hq]; exact List.mem_cons_self _ _)
    split
    · rename_i i hi
      exact ⟨h1, h2, h3, contiguous_placeAt _ h4 (firstFitIndex_fits hi) hp,
        fun q hq1 => h5 q (by rw [hq]; exact List.mem_cons_of_mem _ hq1)⟩
    · exact ⟨h1, h2, h3, h4, h5⟩

theorem geometry_deallocate {m : MemoryManager} (h : Geometry m) (processId : Int) :
    Geometry (deallocateById m processId).2 := by
  obtain ⟨h1, h2, h3, h4, h5⟩ := h
  unfold deallocateById
  split
  · rename_i frames hl
    apply geometry_updateMemoryStats
    apply geometry_tryAllocate
    refine ⟨h1, h2, ?_, ?_, h5⟩
    · show (frames.foldl (fun fa f => fa.set f false) m.frameAllocation).length = 256
      rw [releaseFrames_length, h3]
    · show Contiguous 0 (mergeBlocks (framesToBlocks _ m.pageSize
        (frames.foldl (fun fa f => fa.set f false) m.frameAllocation).length)) 1024
      apply contiguous_mergeBlocks
      rw [releaseFrames_length, h3, h2]
      exact contiguous_framesToBlocks _ 4 (by norm_num) 256
  · simp only
    split
    · apply geometry_updateMemoryStats
      apply geometry_tryAllocate
      exact ⟨h1, h2, h3, contiguous_mergeBlocks (contiguous_freeOwned _ h4), h5⟩
    · exact ⟨h1, h2, h3, contiguous_freeOwned _ h4, h5⟩

theorem geometry_fixed {m : MemoryManager} (h : Geometry m) (size : Int) :
    Geometry (allocateFixedPartitioning m size).2 := by
  obtain ⟨h1, h2, h3, h4, h5⟩ := h
  unfold allocateFixedPartitioning
  split
  · exact ⟨h1, h2, h3, h4, h5⟩
  · split
    · rename_i bs hbs
      exact ⟨h1, h2, h3, contiguous_takeFreePartition h4 hbs, h5⟩
    · split
      · split
        · refine ⟨h1, h2, h3, ?_, h5⟩
          show Contiguous 0 (fixedPartitions (m.totalMemory.tdiv partitionSize).toNat _) 1024
          rw [h1]
          exact contiguous_fixedPartitions _
        · exact ⟨h1, h2, h3, h4, h5⟩
      · exact ⟨h1, h2, h3, h4, h5⟩

theorem geometry_firstFit {m : MemoryManager} (h : Geometry m) {size : Int} (hs : 0 ≤ size) :
    Geometry (allocateFirstFit m size).2 := by
  obtain ⟨h1, h2, h3, h4, h5⟩ := h
  unfold allocateFirstFit
  split
  · rename_i i hi
    exact ⟨h1, h2, h3, contiguous_placeAt _ h4 (firstFitIndex_fits hi) hs, h5⟩
  · exact ⟨h1, h2, h3, h4, h5⟩

theorem geometry_bestFit {m : MemoryManager} (h : Geometry m) {size : Int} (hs : 0 ≤ size) :
    Geometry (allocateBestFit m size).2 := by
  obtain ⟨h1, h2, h3, h4, h5⟩ := h
  unfold allocateBestFit
  split
  · rename_i i hi
    exact ⟨h1, h2, h3, contiguous_placeAt _ h4 (bestFitLoop_fits hi) hs, h5⟩
  · exact ⟨h1, h2, h3, h4, h5⟩

theorem geometry_worstFit {m : MemoryManager} (h : Geometry m) {size : Int} (hs : 0 ≤ size) :
    Geometry (allocateWorstFit m size).2 := by
  obtain ⟨h1, h2, h3, h4, h5⟩ := h
  unfold allocateWorstFit
  split
  · rename_i i hi
    exact ⟨h1, h2, h3, contiguous_placeAt _ h4 (worstFitLoop_fits hi) hs, h5⟩
  · exact ⟨h1, h2, h3, h4, h5⟩

theorem geometry_paging {m : MemoryManager} (h : Geometry m) (size : Int) :
    Geometry (allocatePaging m size).2 := by
  obtain ⟨h1, h2, h3, h4, h5⟩ := h
  unfold allocatePaging
  simp only
  split
  · exact ⟨h1, h2, h3, h4, h5⟩
  · refine ⟨h1, h2, ?_, ?_, h5⟩
    · show (claimFrames m.frameAllocation 0 _).1.length = 256
      rw [claimFrames_length, h3]
    · show Contiguous 0 (framesToBlocks _ m.pageSize (claimFrames m.frameAllocation 0 _).1.length)
        1024
      rw [claimFrames_length, h3, h2]
      exact contiguous_framesToBlocks _ 4 (by norm_num) 256

theorem contiguous_placeSegment {a e : Int} {blocks : List MemoryBlock} {c : Int} (id : Int)
    (h : Contiguous a blocks e) (hc : 0 ≤ c) : Contiguous a (placeSegment blocks c id).2 e := by
  unfold placeSegment
  split
  · rename_i i hi
    exact contiguous_placeAt _ h (firstFitIndex_fits hi) hc
  · exact h

theorem geometry_segmentation {m : MemoryManager} (h : Geometry m) {size : Int}
    (hs : 0 ≤ size) : Geometry (allocateSegmentation m size).2 := by
  obtain ⟨h1, h2, h3, h4, h5⟩ := h
  have hseg := segment_sizes hs
  have hc := contiguous_placeSegment m.nextProcessId
    (contiguous_placeSegment m.nextProcessId
      (contiguous_placeSegment m.nextProcessId h4 hseg.1) hseg.1)
    (by omega : 0 ≤ size - size.tdiv 3 - size.tdiv 3)
  have hg : Geometry { m with blocks := (placeSegment (placeSegment (placeSegment m.blocks
      (size.tdiv 3) m.nextProcessId).2 (size.tdiv 3) m.nextProcessId).2
      (size - size.tdiv 3 - size.tdiv 3) m.nextProcessId).2 } := ⟨h1, h2, h3, hc, h5⟩
  unfold allocateSegmentation
  simp only
  split
  · exact hg
  · split
    · exact geometry_deallocate hg _
    · exact hg

theorem geometry_buddy {fuel : Nat} {m m1 : MemoryManager} {size : Int} {r : Bool}
    (h : Geometry m) (hr : allocateBuddySystem fuel m size = some (r, m1)) : Geometry m1 := by
  induction fuel generalizing m with
  | zero => simp [allocateBuddySystem] at hr
  | succ fuel ih =>
    obtain ⟨h1, h2, h3, h4, h5⟩ := h
    simp only [allocateBuddySystem] at hr
    split at hr
    · rename_i i hi
      simp only [Option.some.injEq, Prod.mk.injEq] at hr
      rw [← hr.2]
      exact ⟨h1, h2, h3, contiguous_buddyPlaceAt _ (roundUpPow2_pos size) h4 hi, h5⟩
    · split at hr
      · cases hr
      · rename_i bs hbs
        exact ih (m := { m with blocks := bs })
          ⟨h1, h2, h3, contiguous_buddyMergeLoop _ h4 hbs, h5⟩ hr

theorem geometry_runStrategy {fuel : Nat} {m : MemoryManager} {size : Int} {algorithm : String}
    {r : Bool} {m1 : MemoryManager} (h : Geometry m) (hs : 0 ≤ size)
    (hr : runStrategy fuel m size algorithm = some (r, m1)) : Geometry m1 := by
  rcases runStrategy_cases hr with e | e | e | e | e | ⟨-, e⟩ | e
  · have := geometry_fixed h size; rwa [e] at this
  · have := geometry_firstFit h hs; rwa [e] at this
  · have := geometry_bestFit h hs; rwa [e] at this
  · have := geometry_worstFit h hs; rwa [e] at this
  · have := geometry_paging h size; rwa [e] at this
  · have := geometry_segmentation h hs; rwa [e] at this
  · exact geometry_buddy h e

theorem geometry_enqueue {m : MemoryManager} {size : Int} (r : Bool) (h : Geometry m)
    (hs : 0 ≤ size) : Geometry (enqueueIfFailed size (r, m)).2 := by
  obtain ⟨h1, h2, h3, h4, h5⟩ := h
  unfold enqueueIfFailed
  split
  · refine ⟨h1, h2, h3, h4, ?_⟩
    intro p hp
    rcases List.mem_append.1 hp with hp1 | hp1
    · exact h5 p hp1
    · simp only [List.mem_singleton] at hp1
      subst hp1; exact hs
  · exact ⟨h1, h2, h3, h4, h5⟩

theorem geometry_allocate {fuel : Nat} {m : MemoryManager} {size : Int} {algorithm : String}
    {r : Bool} {m1 : MemoryManager} (h : Geometry m)
    (ha : allocate fuel m size algorithm = some (r, m1)) : Geometry m1 := by
  rcases allocate_cases ha with ⟨-, -, e⟩ | ⟨hs, -, r0, m0, hrun, e⟩
  · rw [e]; exact h
  · have h0 := geometry_runStrategy h (by omega) hrun
    have h1 := geometry_enqueue r0 h0 (by omega : 0 ≤ size)
    rw [← e] at h1
    exact h1

theorem geometry_reachable {m : MemoryManager} (h : Reachable m) : Geometry m := by
  induction h with
  | init =>
    refine ⟨rfl, rfl, List.length_replicate _ _, ?_, fun p hp => by cases hp⟩
    exact ⟨rfl, by decide, rfl⟩
  | allocate _ ha ih => exact geometry_allocate ih ha
  | deallocate pid _ ih => exact geometry_deallocate ih pid

theorem contiguous_pairwise {a e : Int} {blocks : List MemoryBlock}
    (h : Contiguous a blocks e) :
    blocks.Pairwise (fun x y => x.start + x.size ≤ y.start) := by
  induction blocks generalizing a with
  | nil => exact List.Pairwise.nil
  | cons b rest ih =>
    obtain ⟨h1, h2, h3⟩ := h
    refine List.Pairwise.cons ?_ (ih h3)
    intro c hc
    have := (contiguous_size_le h3).2 c hc
    omega

theorem contiguous_sorted {a e : Int} {blocks : List MemoryBlock}
    (h : Contiguous a blocks e) :
    blocks.Pairwise (fun x y => x.start ≤ y.start) ∧ ∀ b ∈ blocks, 0 ≤ b.size := by
  induction blocks generalizing a with
  | nil => exact ⟨List.Pairwise.nil, fun b hb => by cases hb⟩
  | cons b rest ih =>
    obtain ⟨h1, h2, h3⟩ := h
    obtain ⟨i1, i2⟩ := ih h3
    refine ⟨List.Pairwise.cons ?_ i1, ?_⟩
    · intro c hc
      have := (contiguous_size_le h3).2 c hc
      omega
    · intro c hc
      rcases List.mem_cons.1 hc with e1 | hm
      · subst e1; exact h2
      · exact i2 c hm

theorem contiguous_chain {a e : Int} {blocks : List MemoryBlock}
    (h : Contiguous a blocks e) :
    blocks.Chain' (fun x y => y.start = x.start + x.size) := by
  induction blocks generalizing a with
  | nil => exact List.chain'_nil
  | cons b rest ih =>
    obtain ⟨h1, h2, h3⟩ := h
    cases rest with
    | nil => exact List.chain'_singleton _
    | cons c rest1 =>
      refine List.chain'_cons.2 ⟨?_, ih h3⟩
      rw [h3.1, h1]

theorem contiguous_sum {a e : Int} {blocks : List MemoryBlock}
    (h : Contiguous a blocks e) : a + (blocks.map (·.size)).sum = e := by
  induction blocks generalizing a with
  | nil => simpa [Contiguous] using h
  | cons b rest ih =>
    obtain ⟨h1, h2, h3⟩ := h
    have := ih h3
    simp only [List.map_cons, List.sum_cons]
    omega

/-- C1: in every state the default manager (capacity 1024, frame size 4) reaches
by `allocate` calls that return (any strategy name, any size) and
`deallocateById` calls, the blocks are sorted by start address, no two blocks
overlap (a block ends at or before the start of every later block, and sizes
are non-negative), each block starts where the previous one ends, and the sizes
sum to the capacity. -/
theorem partition_invariant (m : MemoryManager) (h : Reachable m) :
    m.blocks.Pairwise (fun x y => x.start ≤ y.start) ∧
    m.blocks.Pairwise (fun x y => x.start + x.size ≤ y.start) ∧
    (∀ b ∈ m.blocks, 0 ≤ b.size) ∧
    m.blocks.Chain' (fun x y => y.start = x.start + x.size) ∧
    (m.blocks.map (·.size)).sum = m.totalMemory ∧ m.totalMemory = 1024 := by
  obtain ⟨h1, -, -, h4, -⟩ := geometry_reachable h
  have hs := contiguous_sorted h4
  refine ⟨hs.1, contiguous_pairwise h4, hs.2, contiguous_chain h4, ?_, h1⟩
  have := contiguous_sum h4
  omega

theorem partition_invariant_witness :
    Reachable fixedSliced ∧
    fixedSliced.blocks.Pairwise (fun x y => x.start ≤ y.start) ∧
    fixedSliced.blocks.Pairwise (fun x y => x.start + x.size ≤ y.start) ∧
    (∀ b ∈ fixedSliced.blocks, 0 ≤ b.size) ∧
    fixedSliced.blocks.Chain' (fun x y => y.start = x.start + x.size) ∧
    (fixedSliced.blocks.map (·.size)).sum = fixedSliced.totalMemory ∧
    fixedSliced.totalMemory = 1024 :=
  have hr : Reachable fixedSliced :=
    Reachable.allocate Reachable.init
      (by rfl : allocate 0 MemoryManager.default 200 "fixed-partitioning" =
        some (true, fixedSliced))
  ⟨hr, partition_invariant fixedSliced hr⟩

/-! ## Choice of best-fit and worst-fit -/

theorem contiguous_start_mono {a e : Int} {blocks : List MemoryBlock}
    (h : Contiguous a blocks e) {i j : Nat} {b c : MemoryBlock} (hb : blocks[i]? = some b)
    (hc : blocks[j]? = some c) (hij : i ≤ j) : b.start ≤ c.start := by
  induction blocks generalizing a i j with
  | nil => simp at hb
  | cons x rest ih =>
    obtain ⟨h1, h2, h3⟩ := h
    cases i with
    | zero =>
      simp only [List.getElem?_cons_zero, Option.some.injEq] at hb
      subst hb
      cases j with
      | zero =>
        simp only [List.getElem?_cons_zero, Option.some.injEq] at hc
        subst hc; exact le_refl _
      | succ j =>
        simp only [List.getElem?_cons_succ] at hc
        have := (contiguous_size_le h3).2 c (List.getElem?_mem hc)
        omega
    | succ i =>
      cases j with
      | zero => omega
      | succ j =>
        simp only [List.getElem?_cons_succ] at hb hc
        exact ih h3 hb hc (by omega)

/-- C8: on a partition that tiles `[0, capacity)`, with the capacity and the
id counter below the largest `int` (so that neither `totalMemory + 1` nor the
increment of the counter overflows in the source), and for a positive size that
some free block can hold (such a size is at most the capacity), best-fit
allocates, by the shared block update, from the free block with the smallest
leftover and worst-fit from the free block with the largest leftover, each
taking among the blocks of equal leftover the one of lowest index and lowest
address. -/
theorem bestFit_worstFit_choice (m : MemoryManager) (size : Int)
    (hinv : Contiguous 0 m.blocks m.totalMemory) (hcap : m.totalMemory < 2147483647)
    (hid : m.nextProcessId < 2147483647) (h1 : 0 < size)
    (hex : ∃ b ∈ m.blocks, b.status = .free ∧ size ≤ b.size) :
    (0 < m.totalMemory + 1 ∧ m.totalMemory + 1 ≤ 2147483647 ∧
      m.nextProcessId + 1 ≤ 2147483647 ∧ size ≤ m.totalMemory) ∧
    (∃ i b, m.blocks[i]? = some b ∧ b.status = .free ∧ size ≤ b.size ∧
      (∀ (j : Nat) (c : MemoryBlock), m.blocks[j]? = some c → c.status = .free →
        size ≤ c.size →
          b.size - size ≤ c.size - size ∧
            (c.size - size = b.size - size → i ≤ j ∧ b.start ≤ c.start)) ∧
      allocateBestFit m size = (true, updateMemoryStats
        { m with
          blocks := placeAt m.blocks i size m.nextProcessId
          nextProcessId := m.nextProcessId + 1 })) ∧
    (∃ i b, m.blocks[i]? = some b ∧ b.status = .free ∧ size ≤ b.size ∧
      (∀ (j : Nat) (c : MemoryBlock), m.blocks[j]? = some c → c.status = .free →
        size ≤ c.size →
          c.size - size ≤ b.size - size ∧
            (c.size - size = b.size - size → i ≤ j ∧ b.start ≤ c.start)) ∧
      allocateWorstFit m size = (true, updateMemoryStats
        { m with
          blocks := placeAt m.blocks i size m.nextProcessId
          nextProcessId := m.nextProcessId + 1 })) := by
  obtain ⟨w, hw, hwf, hws⟩ := hex
  obtain ⟨jw, hjw⟩ := List.getElem?_of_mem hw
  have hbound := (contiguous_size_le hinv).2 w hw
  refine ⟨⟨by omega, by omega, by omega, by omega⟩, ?_, ?_⟩
  · rcases bestFitLoop_spec m.blocks 0 size none (m.totalMemory + 1) with
      ⟨hno, -⟩ | ⟨i, b, hres, hb, hf, hs, -, hmin⟩
    · have := hno jw w hjw hwf hws
      omega
    · refine ⟨i, b, hb, hf, hs, ?_, ?_⟩
      · intro j c hc hcf hcs
        have := hmin j c hc hcf hcs
        refine ⟨by omega, fun e => ?_⟩
        have hij := this.2 (by omega)
        exact ⟨hij, contiguous_start_mono hinv hb hc hij⟩
      · simp only [allocateBestFit, hres, Nat.zero_add]
  · rcases worstFitLoop_spec m.blocks 0 size none (-1) with
      ⟨hno, -⟩ | ⟨i, b, hres, hb, hf, hs, -, hmax⟩
    · have := hno jw w hjw hwf hws
      omega
    · refine ⟨i, b, hb, hf, hs, ?_, ?_⟩
      · intro j c hc hcf hcs
        have := hmax j c hc hcf hcs
        refine ⟨by omega, fun e => ?_⟩
        have hij := this.2 (by omega)
        exact ⟨hij, contiguous_start_mono hinv hb hc hij⟩
      · simp only [allocateWorstFit, hres, Nat.zero_add]

theorem bestFit_worstFit_choice_witness :
    (allocateBestFit threeHoles 40).2.blocks =
      [⟨0, 0, 100, .free⟩, ⟨2, 100, 10, .allocated⟩, ⟨7, 110, 40, .allocated⟩,
        ⟨0, 150, 10, .free⟩, ⟨4, 160, 10, .allocated⟩, ⟨0, 170, 30, .free⟩,
        ⟨6, 200, 824, .allocated⟩] ∧
    (allocateWorstFit threeHoles 40).2.blocks =
      [⟨7, 0, 40, .allocated⟩, ⟨0, 40, 60, .free⟩, ⟨2, 100, 10, .allocated⟩,
        ⟨0, 110, 50, .free⟩, ⟨4, 160, 10, .allocated⟩, ⟨0, 170, 30, .free⟩,
        ⟨6, 200, 824, .allocated⟩] ∧
    threeHoles.totalMemory < 2147483647 ∧ threeHoles.nextProcessId < 2147483647 ∧
    ((0 < threeHoles.totalMemory + 1 ∧ threeHoles.totalMemory + 1 ≤ 2147483647 ∧
      threeHoles.nextProcessId + 1 ≤ 2147483647 ∧ (40 : Int) ≤ threeHoles.totalMemory) ∧
    (∃ i b, threeHoles.blocks[i]? = some b ∧ b.status = .free ∧ (40 : Int) ≤ b.size ∧
      (∀ (j : Nat) (c : MemoryBlock), threeHoles.blocks[j]? = some c → c.status = .free →
        (40 : Int) ≤ c.size →
          b.size - 40 ≤ c.size - 40 ∧
            (c.size - 40 = b.size - 40 → i ≤ j ∧ b.start ≤ c.start)) ∧
      allocateBestFit threeHoles 40 = (true, updateMemoryStats
        { threeHoles with
          blocks := placeAt threeHoles.blocks i 40 threeHoles.nextProcessId
          nextProcessId := threeHoles.nextProcessId + 1 })) ∧
    (∃ i b, threeHoles.blocks[i]? = some b ∧ b.status = .free ∧ (40 : Int) ≤ b.size ∧
      (∀ (j : Nat) (c : MemoryBlock), threeHoles.blocks[j]? = some c → c.status = .free →
        (40 : Int) ≤ c.size →
          c.size - 40 ≤ b.size - 40 ∧
            (c.size - 40 = b.size - 40 → i ≤ j ∧ b.start ≤ c.start)) ∧
      allocateWorstFit threeHoles 40 = (true, updateMemoryStats
        { threeHoles with
          blocks := placeAt threeHoles.blocks i 40 threeHoles.nextProcessId
          nextProcessId := threeHoles.nextProcessId + 1 }))) :=
  ⟨by decide, by decide, by decide, by decide,
    bestFit_worstFit_choice threeHoles 40
      ⟨rfl, by decide, rfl, by decide, rfl, by decide, rfl, by decide, rfl, by decide, rfl,
        by decide, rfl⟩
      (by decide) (by decide) (by decide) ⟨⟨0, 0, 100, .free⟩, by decide, rfl, by decide⟩⟩

/-! ## Owner ids stay below the counter -/

theorem placeAt_forall (P : Int → Status → Prop) {blocks : List MemoryBlock} (i : Nat)
    (size id : Int) (h : ∀ b ∈ blocks, P b.id b.status) (hnew : P id .allocated)
    (hfree : P 0 .free) : ∀ b ∈ placeAt blocks i size id, P b.id b.status := by
  induction blocks generalizing i with
  | nil => intro b hb; cases hb
  | cons a rest ih =>
    have hrest : ∀ b ∈ rest, P b.id b.status := fun b hb => h b (List.mem_cons_of_mem _ hb)
    cases i with
    | zero =>
      simp only [placeAt]
      intro b hb
      rcases List.mem_cons.1 hb with e | hb1
      · subst e; exact hnew
      · split at hb1
        · rcases List.mem_cons.1 hb1 with e | hb2
          · subst e; exact hfree
          · exact hrest b hb2
        · exact hrest b hb1
    | succ j =>
      simp only [placeAt]
      intro b hb
      rcases List.mem_cons.1 hb with e | hb1
      · subst e; exact h _ (List.mem_cons_self _ _)
      · exact ih j hrest b hb1

theorem mergeFrom_forall (P : Int → Status → Prop) {cur : MemoryBlock}
    {rest : List MemoryBlock} (h : ∀ b ∈ cur :: rest, P b.id b.status) :
    ∀ b ∈ mergeFrom cur rest, P b.id b.status := by
  induction rest generalizing cur with
  | nil => exact h
  | cons nxt rest ih =>
    unfold mergeFrom
    split
    · apply ih
      intro b hb
      rcases List.mem_cons.1 hb with e | hb1
      · subst e; exact h cur (List.mem_cons_self _ _)
      · exact h b (List.mem_cons_of_mem _ (List.mem_cons_of_mem _ hb1))
    · intro b hb
      rcases List.mem_cons.1 hb with e | hb1
      · subst e; exact h _ (List.mem_cons_self _ _)
      · exact ih (fun c hc => h c (List.mem_cons_of_mem _ hc)) b hb1

theorem mergeBlocks_forall (P : Int → Status → Prop) {blocks : List MemoryBlock}
    (h : ∀ b ∈ blocks, P b.id b.status) : ∀ b ∈ mergeBlocks blocks, P b.id b.status := by
  cases blocks with
  | nil => exact h
  | cons b rest => exact mergeFrom_forall P h

theorem framesToBlocks_ids {pageTable : List (Int × List Nat)} {pageSize : Int} {n : Nat}
    {bound : Int} (h0 : 0 < bound) (h : ∀ entry ∈ pageTable, entry.1 < bound) :
    ∀ b ∈ framesToBlocks pageTable pageSize n, b.id < bound := by
  intro b hb
  obtain ⟨i, -, rfl⟩ := List.mem_map.1 hb
  unfold frameBlock frameOwner
  cases hf : pageTable.find? (fun entry => entry.2.contains i) with
  | none => exact h0
  | some entry => exact h entry (List.mem_of_find?_eq_some hf)

theorem ids_tryAllocate {m : MemoryManager} (h : IdsBelow m) :
    IdsBelow (tryAllocateWaitingProcesses m) := by
  obtain ⟨h1, h2, h3, h4⟩ := h
  unfold tryAllocateWaitingProcesses
  split
  · exact ⟨h1, h2, h3, h4⟩
  · rename_i p waiting hq
    split
    · refine ⟨h1, ?_, h3, fun q hq1 => h4 q (by rw [hq]; exact List.mem_cons_of_mem _ hq1)⟩
      exact placeAt_forall (fun i _ => i < m.nextProcessId) _ _ _ h2
        (h4 p (by rw [hq]; exact List.mem_cons_self _ _)) h1
    · exact ⟨h1, h2, h3, h4⟩

theorem freeOwned_ids {blocks : List MemoryBlock} {bound : Int} (h0 : 0 < bound)
    (h : ∀ b ∈ blocks, b.id < bound ∨ (b.id = bound ∧ b.status = .allocated)) :
    ∀ b ∈ freeOwned bound blocks, b.id < bound := by
  intro b hb
  obtain ⟨c, hc, rfl⟩ := List.mem_map.1 hb
  split
  · exact h0
  · rename_i hn
    rcases h c hc with h1 | h1
    · exact h1
    · exact absurd ⟨h1.2, h1.1⟩ hn

theorem freeOwned_ids_any {blocks : List MemoryBlock} {bound : Int} (processId : Int)
    (h0 : 0 < bound) (h : ∀ b ∈ blocks, b.id < bound) :
    ∀ b ∈ freeOwned processId blocks, b.id < bound := by
  intro b hb
  obtain ⟨c, hc, rfl⟩ := List.mem_map.1 hb
  split
  · exact h0
  · exact h c hc

theorem ids_deallocate {m : MemoryManager} (h : IdsBelow m) (processId : Int) :
    IdsBelow (deallocateById m processId).2 := by
  obtain ⟨h1, h2, h3, h4⟩ := h
  unfold deallocateById
  split
  · apply ids_tryAllocate (m := mergeAdjacentFreeBlocks _)
    have hk : ∀ entry ∈ m.pageTable.filter (fun entry => entry.1 ≠ processId),
        entry.1 < m.nextProcessId := fun entry he => h3 entry (List.mem_filter.1 he).1
    refine ⟨h1, ?_, hk, h4⟩
    exact mergeBlocks_forall (fun i _ => i < m.nextProcessId) (framesToBlocks_ids h1 hk)
  · simp only
    split
    · apply ids_tryAllocate (m := mergeAdjacentFreeBlocks _)
      refine ⟨h1, ?_, h3, h4⟩
      exact mergeBlocks_forall (fun i _ => i < m.nextProcessId)
        (freeOwned_ids_any processId h1 h2)
    · exact ⟨h1, freeOwned_ids_any processId h1 h2, h3, h4⟩

/-- Rollback of a failed segmentation: blocks may carry the id that is being
issued, all of them allocated; after `deallocateById` of that id none is left. -/
theorem ids_rollback {m : MemoryManager} (h1 : 0 < m.nextProcessId)
    (h2 : ∀ b ∈ m.blocks, b.id < m.nextProcessId ∨
      (b.id = m.nextProcessId ∧ b.status = .allocated))
    (h3 : ∀ entry ∈ m.pageTable, entry.1 < m.nextProcessId)
    (h4 : ∀ p ∈ m.processQueue, p.id < m.nextProcessId) :
    IdsBelow (deallocateById m m.nextProcessId).2 := by
  have hl : m.pageTable.lookup m.nextProcessId = none :=
    lookup_none_of_keys (fun entry he => by have := h3 entry he; omega)
  unfold deallocateById
  simp only [hl]
  split
  · apply ids_tryAllocate (m := mergeAdjacentFreeBlocks _)
    refine ⟨h1, ?_, h3, h4⟩
    exact mergeBlocks_forall (fun i _ => i < m.nextProcessId) (freeOwned_ids h1 h2)
  · exact ⟨h1, freeOwned_ids h1 h2, h3, h4⟩

theorem placeSegment_forall (P : Int → Status → Prop) {blocks : List MemoryBlock}
    (c id : Int) (h : ∀ b ∈ blocks, P b.id b.status) (hnew : P id .allocated)
    (hfree : P 0 .free) : ∀ b ∈ (placeSegment blocks c id).2, P b.id b.status := by
  unfold placeSegment
  split
  · exact placeAt_forall P _ _ _ h hnew hfree
  · exact h

theorem takeFreePartition_ids {blocks blocks1 : List MemoryBlock} {id bound : Int}
    (hid : id < bound) (h : ∀ b ∈ blocks, b.id < bound)
    (ht : takeFreePartition id blocks = some blocks1) : ∀ b ∈ blocks1, b.id < bound := by
  induction blocks generalizing blocks1 with
  | nil => simp [takeFreePartition] at ht
  | cons a rest ih =>
    have hrest : ∀ b ∈ rest, b.id < bound := fun b hb => h b (List.mem_cons_of_mem _ hb)
    simp only [takeFreePartition] at ht
    split at ht
    · cases ht
      intro b hb
      rcases List.mem_cons.1 hb with e | hb1
      · subst e; exact hid
      · exact hrest b hb1
    · cases hr : takeFreePartition id rest with
      | none => simp [hr] at ht
      | some bs =>
        simp only [hr, Option.map_some', Option.some.injEq] at ht
        subst ht
        intro b hb
        rcases List.mem_cons.1 hb with e | hb1
        · subst e; exact h _ (List.mem_cons_self _ _)
        · exact ih hrest hr b hb1

theorem fixedPartitions_ids (n : Nat) {id bound : Int} (hid : id < bound) (h0 : 0 < bound) :
    ∀ b ∈ fixedPartitions n id, b.id < bound := by
  intro b hb
  obtain ⟨i, -, rfl⟩ := List.mem_map.1 hb
  split
  · exact hid
  · exact h0

theorem ids_fixed {m : MemoryManager} (h : IdsBelow m) (size : Int) :
    IdsBelow (allocateFixedPartitioning m size).2 := by
  obtain ⟨h1, h2, h3, h4⟩ := h
  unfold allocateFixedPartitioning
  split
  · exact ⟨h1, h2, h3, h4⟩
  · split
    · rename_i bs hbs
      refine ⟨by show 0 < m.nextProcessId + 1; omega, ?_, ?_, ?_⟩
      · show ∀ b ∈ bs, b.id < m.nextProcessId + 1
        exact takeFreePartition_ids (by omega) (fun b hb => by have := h2 b hb; omega) hbs
      · exact fun entry he => by have := h3 entry he; show entry.1 < m.nextProcessId + 1; omega
      · exact fun p hp => by have := h4 p hp; show p.id < m.nextProcessId + 1; omega
    · split
      · split
        · by_cases hn : (m.totalMemory.tdiv partitionSize).toNat = 0
          · simp only [hn, if_true]
            refine ⟨h1, ?_, h3, h4⟩
            intro b hb
            simp [updateMemoryStats, fixedPartitions] at hb
          · simp only [hn, if_false]
            refine ⟨by show 0 < m.nextProcessId + 1; omega, ?_, ?_, ?_⟩
            · show ∀ b ∈ fixedPartitions _ m.nextProcessId, b.id < m.nextProcessId + 1
              exact fixedPartitions_ids _ (by omega) (by omega)
            · exact fun entry he => by
                have := h3 entry he; show entry.1 < m.nextProcessId + 1; omega
            · exact fun p hp => by have := h4 p hp; show p.id < m.nextProcessId + 1; omega
        · exact ⟨h1, h2, h3, h4⟩
      · exact ⟨h1, h2, h3, h4⟩

/-- The state after a placement under the next id, with the counter advanced. -/
theorem ids_place {m : MemoryManager} (h : IdsBelow m) (i : Nat) (size : Int) :
    IdsBelow (updateMemoryStats
      { m with
        blocks := placeAt m.blocks i size m.nextProcessId
        nextProcessId := m.nextProcessId + 1 }) := by
  obtain ⟨h1, h2, h3, h4⟩ := h
  refine ⟨by show 0 < m.nextProcessId + 1; omega, ?_, ?_, ?_⟩
  · exact placeAt_forall (fun i _ => i < m.nextProcessId + 1) _ _ _
      (fun b hb => by have := h2 b hb; omega) (by omega) (by omega)
  · exact fun entry he => by have := h3 entry he; show entry.1 < m.nextProcessId + 1; omega
  · exact fun p hp => by have := h4 p hp; show p.id < m.nextProcessId + 1; omega

theorem ids_firstFit {m : MemoryManager} (h : IdsBelow m) (size : Int) :
    IdsBelow (allocateFirstFit m size).2 := by
  unfold allocateFirstFit
  split
  · exact ids_place h _ _
  · exact h

theorem ids_bestFit {m : MemoryManager} (h : IdsBelow m) (size : Int) :
    IdsBelow (allocateBestFit m size).2 := by
  unfold allocateBestFit
  split
  · exact ids_place h _ _
  · exact h

theorem ids_worstFit {m : MemoryManager} (h : IdsBelow m) (size : Int) :
    IdsBelow (allocateWorstFit m size).2 := by
  unfold allocateWorstFit
  split
  · exact ids_place h _ _
  · exact h

theorem pageTableAssign_keys {pageTable : List (Int × List Nat)} {key bound : Int}
    (frames : List Nat) (hk : key < bound) (h : ∀ entry ∈ pageTable, entry.1 < bound) :
    ∀ entry ∈ pageTableAssign pageTable key frames, entry.1 < bound := by
  unfold pageTableAssign
  split
  · intro entry he
    obtain ⟨e0, he0, rfl⟩ := List.mem_map.1 he
    split
    · exact hk
    · exact h e0 he0
  · intro entry he
    rcases List.mem_append.1 he with h1 | h1
    · exact h entry h1
    · simp only [List.mem_singleton] at h1
      subst h1; exact hk

theorem ids_paging {m : MemoryManager} (h : IdsBelow m) (size : Int) :
    IdsBelow (allocatePaging m size).2 := by
  obtain ⟨h1, h2, h3, h4⟩ := h
  unfold allocatePaging
  simp only
  split
  · exact ⟨h1, h2, h3, h4⟩
  · have hk := pageTableAssign_keys
      (claimFrames m.frameAllocation 0 ((size + m.pageSize - 1).tdiv m.pageSize).toNat).2
      (by omega : m.nextProcessId < m.nextProcessId + 1)
      (fun entry he => by have := h3 entry he; omega)
    refine ⟨by show 0 < m.nextProcessId + 1; omega, ?_, hk, ?_⟩
    · show ∀ b ∈ framesToBlocks _ _ _, b.id < m.nextProcessId + 1
      exact framesToBlocks_ids (by omega) hk
    · exact fun p hp => by have := h4 p hp; show p.id < m.nextProcessId + 1; omega

theorem ids_segmentation {m : MemoryManager} (h : IdsBelow m) {size : Int} (hs : 0 ≤ size) :
    IdsBelow (allocateSegmentation m size).2 := by
  obtain ⟨h1, h2, h3, h4⟩ := h
  unfold allocateSegmentation
  simp only
  split
  · refine ⟨by show 0 < m.nextProcessId + 1; omega, ?_, ?_, ?_⟩
    · apply placeSegment_forall (fun i _ => i < m.nextProcessId + 1) _ _ _ (by omega) (by omega)
      apply placeSegment_forall (fun i _ => i < m.nextProcessId + 1) _ _ _ (by omega) (by omega)
      apply placeSegment_forall (fun i _ => i < m.nextProcessId + 1) _ _ _ (by omega) (by omega)
      exact fun b hb => by have := h2 b hb; omega
    · exact fun entry he => by have := h3 entry he; show entry.1 < m.nextProcessId + 1; omega
    · exact fun p hp => by have := h4 p hp; show p.id < m.nextProcessId + 1; omega
  · split
    · have hb : ∀ b ∈ (placeSegment (placeSegment (placeSegment m.blocks (size.tdiv 3)
          m.nextProcessId).2 (size.tdiv 3) m.nextProcessId).2
          (size - size.tdiv 3 - size.tdiv 3) m.nextProcessId).2,
          b.id < m.nextProcessId ∨ (b.id = m.nextProcessId ∧ b.status = .allocated) := by
        apply placeSegment_forall
          (fun i s => i < m.nextProcessId ∨ (i = m.nextProcessId ∧ s = .allocated)) _ _ _
          (Or.inr ⟨rfl, rfl⟩) (Or.inl h1)
        apply placeSegment_forall
          (fun i s => i < m.nextProcessId ∨ (i = m.nextProcessId ∧ s = .allocated)) _ _ _
          (Or.inr ⟨rfl, rfl⟩) (Or.inl h1)
        apply placeSegment_forall
          (fun i s => i < m.nextProcessId ∨ (i = m.nextProcessId ∧ s = .allocated)) _ _ _
          (Or.inr ⟨rfl, rfl⟩) (Or.inl h1)
        exact fun b hb => Or.inl (h2 b hb)
      exact ids_rollback (m := { m with blocks := (placeSegment (placeSegment (placeSegment
        m.blocks (size.tdiv 3) m.nextProcessId).2 (size.tdiv 3) m.nextProcessId).2
        (size - size.tdiv 3 - size.tdiv 3) m.nextProcessId).2 }) h1 hb h3 h4
    · rename_i hc
      have hc1 : (placeSegment m.blocks (size.tdiv 3) m.nextProcessId).1 = false := by
        simpa using hc
      rw [segmentation_code_fail hs hc1]
      exact ⟨h1, h2, h3, h4⟩

theorem splitLoop_ids (n : Nat) (start blockSize allocSize : Int) (buddies : List MemoryBlock)
    {bound : Int} (h0 : 0 < bound) (h : ∀ b ∈ buddies, b.id < bound) :
    ∀ b ∈ (splitLoop n start blockSize allocSize buddies).2, b.id < bound := by
  induction n generalizing blockSize buddies with
  | zero => exact h
  | succ n ih =>
    simp only [splitLoop]
    split
    · apply ih
      intro b hb
      rcases List.mem_cons.1 hb with e | hb1
      · subst e; exact h0
      · exact h b hb1
    · exact h

theorem buddyPlaceAt_ids {blocks : List MemoryBlock} (i : Nat) (allocSize : Int)
    {id bound : Int} (hid : id < bound) (h0 : 0 < bound) (h : ∀ b ∈ blocks, b.id < bound) :
    ∀ b ∈ buddyPlaceAt blocks i allocSize id, b.id < bound := by
  induction blocks generalizing i with
  | nil => intro b hb; cases hb
  | cons a rest ih =>
    have hrest : ∀ b ∈ rest, b.id < bound := fun b hb => h b (List.mem_cons_of_mem _ hb)
    cases i with
    | zero =>
      simp only [buddyPlaceAt]
      intro b hb
      rcases List.mem_cons.1 hb with e | hb1
      · subst e; exact hid
      · rcases List.mem_append.1 hb1 with hb2 | hb2
        · exact splitLoop_ids _ _ _ _ _ h0 (fun c hc => by cases hc) b hb2
        · exact hrest b hb2
    | succ j =>
      simp only [buddyPlaceAt]
      intro b hb
      rcases List.mem_cons.1 hb with e | hb1
      · subst e; exact h _ (List.mem_cons_self _ _)
      · exact ih j hrest b hb1

theorem buddyScanFrom_ids {cur : MemoryBlock} {rest blocks1 : List MemoryBlock} {bound : Int}
    (h : ∀ b ∈ cur :: rest, b.id < bound) (hs : buddyScanFrom cur rest = .merged blocks1) :
    ∀ b ∈ blocks1, b.id < bound := by
  induction rest generalizing cur blocks1 with
  | nil => simp [buddyScanFrom] at hs
  | cons nxt rest ih =>
    have hrec : ∀ bs, (match buddyScanFrom nxt rest with
        | .merged blocks => MergeScan.merged (cur :: blocks)
        | r => r) = .merged bs → ∀ b ∈ bs, b.id < bound := by
      intro bs hbs
      cases hr : buddyScanFrom nxt rest with
      | divisionByZero => simp [hr] at hbs
      | unchanged => simp [hr] at hbs
      | merged bs1 =>
        simp only [hr, MergeScan.merged.injEq] at hbs
        subst hbs
        intro b hb
        rcases List.mem_cons.1 hb with e | hb1
        · subst e; exact h _ (List.mem_cons_self _ _)
        · exact ih (fun c hc => h c (List.mem_cons_of_mem _ hc)) hr b hb1
    simp only [buddyScanFrom] at hs
    split at hs
    · split at hs
      · cases hs
      · split at hs
        · simp only [MergeScan.merged.injEq] at hs
          subst hs
          intro b hb
          rcases List.mem_cons.1 hb with e | hb1
          · subst e; exact h cur (List.mem_cons_self _ _)
          · exact h b (List.mem_cons_of_mem _ (List.mem_cons_of_mem _ hb1))
        · exact hrec _ hs
    · exact hrec _ hs

theorem buddyMergeLoop_ids (n : Nat) {blocks blocks1 : List MemoryBlock} {bound : Int}
    (h : ∀ b ∈ blocks, b.id < bound) (hs : buddyMergeLoop n blocks = some blocks1) :
    ∀ b ∈ blocks1, b.id < bound := by
  induction n generalizing blocks with
  | zero =>
    simp only [buddyMergeLoop, Option.some.injEq] at hs
    subst hs; exact h
  | succ n ih =>
    simp only [buddyMergeLoop] at hs
    cases hb : buddyScan blocks with
    | divisionByZero => simp [hb] at hs
    | unchanged =>
      simp only [hb, Option.some.injEq] at hs
      subst hs; exact h
    | merged bs =>
      simp only [hb] at hs
      cases blocks with
      | nil => simp [buddyScan] at hb
      | cons b rest => exact ih (buddyScanFrom_ids h hb) hs

theorem ids_buddy {fuel : Nat} {m m1 : MemoryManager} {size : Int} {r : Bool}
    (h : IdsBelow m) (hr : allocateBuddySystem fuel m size = some (r, m1)) : IdsBelow m1 := by
  induction fuel generalizing m with
  | zero => simp [allocateBuddySystem] at hr
  | succ fuel ih =>
    obtain ⟨h1, h2, h3, h4⟩ := h
    simp only [allocateBuddySystem] at hr
    split at hr
    · simp only [Option.some.injEq, Prod.mk.injEq] at hr
      rw [← hr.2]
      refine ⟨by show 0 < m.nextProcessId + 1; omega, ?_, ?_, ?_⟩
      · show ∀ b ∈ buddyPlaceAt _ _ _ m.nextProcessId, b.id < m.nextProcessId + 1
        exact buddyPlaceAt_ids _ _ (by omega) (by omega)
          (fun b hb => by have := h2 b hb; omega)
      · exact fun entry he => by have := h3 entry he; show entry.1 < m.nextProcessId + 1; omega
      · exact fun p hp => by have := h4 p hp; show p.id < m.nextProcessId + 1; omega
    · split at hr
      · cases hr
      · rename_i bs hbs
        exact ih (m := { m with blocks := bs }) ⟨h1, buddyMergeLoop_ids _ h2 hbs, h3, h4⟩ hr

theorem ids_runStrategy {fuel : Nat} {m : MemoryManager} {size : Int} {algorithm : String}
    {r : Bool} {m1 : MemoryManager} (h : IdsBelow m) (hs : 0 ≤ size)
    (hr : runStrategy fuel m size algorithm = some (r, m1)) : IdsBelow m1 := by
  rcases runStrategy_cases hr with e | e | e | e | e | ⟨-, e⟩ | e
  · have := ids_fixed h size; rwa [e] at this
  · have := ids_firstFit h size; rwa [e] at this
  · have := ids_bestFit h size; rwa [e] at this
  · have := ids_worstFit h size; rwa [e] at this
  · have := ids_paging h size; rwa [e] at this
  · have := ids_segmentation h hs; rwa [e] at this
  · exact ids_buddy h e

theorem ids_enqueue {m : MemoryManager} (size : Int) (r : Bool) (h : IdsBelow m) :
    IdsBelow (enqueueIfFailed size (r, m)).2 := by
  obtain ⟨h1, h2, h3, h4⟩ := h
  unfold enqueueIfFailed
  split
  · refine ⟨by show 0 < m.nextProcessId + 1; omega, ?_, ?_, ?_⟩
    · exact fun b hb => by have := h2 b hb; show b.id < m.nextProcessId + 1; omega
    · exact fun entry he => by have := h3 entry he; show entry.1 < m.nextProcessId + 1; omega
    · intro p hp
      show p.id < m.nextProcessId + 1
      rcases List.mem_append.1 hp with hp1 | hp1
      · have := h4 p hp1; omega
      · simp only [List.mem_singleton] at hp1
        subst hp1
        show m.nextProcessId < m.nextProcessId + 1
        omega
  · exact ⟨h1, h2, h3, h4⟩

theorem ids_allocate {fuel : Nat} {m : MemoryManager} {size : Int} {algorithm : String}
    {r : Bool} {m1 : MemoryManager} (h : IdsBelow m)
    (ha : allocate fuel m size algorithm = some (r, m1)) : IdsBelow m1 := by
  rcases allocate_cases ha with ⟨-, -, e⟩ | ⟨hs, -, r0, m0, hrun, e⟩
  · rw [e]; exact h
  · have h0 := ids_runStrategy h (by omega) hrun
    have h1 := ids_enqueue size r0 h0
    rw [← e] at h1
    exact h1

theorem ids_reachable {m : MemoryManager} (h : Reachable m) : IdsBelow m := by
  induction h with
  | init =>
    refine ⟨by decide, ?_, ?_, ?_⟩
    · intro b hb
      simp only [MemoryManager.default, MemoryManager.new, List.mem_singleton] at hb
      subst hb
      decide
    · intro entry he; cases he
    · intro p hp; cases hp
  | allocate _ ha ih => exact ids_allocate ih ha
  | deallocate pid _ ih => exact ids_deallocate ih pid

/-! ## The admission queue after `allocate` -/

theorem tryAllocate_queue (m : MemoryManager) :
    ((tryAllocateWaitingProcesses m).processQueue = m.processQueue ∨
      (tryAllocateWaitingProcesses m).processQueue = m.processQueue.tail) ∧
    (tryAllocateWaitingProcesses m).nextProcessId = m.nextProcessId := by
  unfold tryAllocateWaitingProcesses
  split
  · exact ⟨Or.inl rfl, rfl⟩
  · rename_i p waiting hq
    split
    · exact ⟨Or.inr (by rw [hq]; rfl), rfl⟩
    · exact ⟨Or.inl rfl, rfl⟩

theorem deallocate_queue (m : MemoryManager) (processId : Int) :
    ((deallocateById m processId).2.processQueue = m.processQueue ∨
      (deallocateById m processId).2.processQueue = m.processQueue.tail) ∧
    (deallocateById m processId).2.nextProcessId = m.nextProcessId := by
  unfold deallocateById
  split
  · exact tryAllocate_queue (mergeAdjacentFreeBlocks _)
  · simp only
    split
    · exact tryAllocate_queue (mergeAdjacentFreeBlocks _)
    · exact ⟨Or.inl rfl, rfl⟩

theorem fixed_queue (m : MemoryManager) (size : Int) :
    (allocateFixedPartitioning m size).2.processQueue = m.processQueue ∧
      ((allocateFixedPartitioning m size).1 = false →
        (allocateFixedPartitioning m size).2 = m) := by
  unfold allocateFixedPartitioning
  split
  · exact ⟨rfl, fun _ => rfl⟩
  · split
    · exact ⟨rfl, fun h => by cases h⟩
    · split
      · split
        · exact ⟨rfl, fun h => by cases h⟩
        · exact ⟨rfl, fun _ => rfl⟩
      · exact ⟨rfl, fun _ => rfl⟩

theorem firstFit_queue (m : MemoryManager) (size : Int) :
    (allocateFirstFit m size).2.processQueue = m.processQueue ∧
      ((allocateFirstFit m size).1 = false → (allocateFirstFit m size).2 = m) := by
  unfold allocateFirstFit
  split
  · exact ⟨rfl, fun h => by cases h⟩
  · exact ⟨rfl, fun _ => rfl⟩

theorem bestFit_queue (m : MemoryManager) (size : Int) :
    (allocateBestFit m size).2.processQueue = m.processQueue ∧
      ((allocateBestFit m size).1 = false → (allocateBestFit m size).2 = m) := by
  unfold allocateBestFit
  split
  · exact ⟨rfl, fun h => by cases h⟩
  · exact ⟨rfl, fun _ => rfl⟩

theorem worstFit_queue (m : MemoryManager) (size : Int) :
    (allocateWorstFit m size).2.processQueue = m.processQueue ∧
      ((allocateWorstFit m size).1 = false → (allocateWorstFit m size).2 = m) := by
  unfold allocateWorstFit
  split
  · exact ⟨rfl, fun h => by cases h⟩
  · exact ⟨rfl, fun _ => rfl⟩

theorem paging_queue (m : MemoryManager) (size : Int) :
    (allocatePaging m size).2.processQueue = m.processQueue ∧
      ((allocatePaging m size).1 = false → (allocatePaging m size).2 = m) := by
  unfold allocatePaging
  simp only
  split
  · exact ⟨rfl, fun _ => rfl⟩
  · exact ⟨rfl, fun h => by cases h⟩

theorem segmentation_queue (m : MemoryManager) (size : Int) :
    ((allocateSegmentation m size).1 = true →
      (allocateSegmentation m size).2.processQueue = m.processQueue) ∧
    ((allocateSegmentation m size).1 = false →
      ((allocateSegmentation m size).2.processQueue = m.processQueue ∨
        (allocateSegmentation m size).2.processQueue = m.processQueue.tail) ∧
      (allocateSegmentation m size).2.nextProcessId = m.nextProcessId) := by
  unfold allocateSegmentation
  simp only
  split
  · exact ⟨fun _ => rfl, fun h => by cases h⟩
  · split
    · exact ⟨fun h => (by cases h), fun _ => deallocate_queue _ _⟩
    · exact ⟨fun h => (by cases h), fun _ => ⟨Or.inl rfl, rfl⟩⟩

theorem buddy_queue {fuel : Nat} {m m1 : MemoryManager} {size : Int} {r : Bool}
    (hr : allocateBuddySystem fuel m size = some (r, m1)) :
    m1.processQueue = m.processQueue := by
  induction fuel generalizing m with
  | zero => simp [allocateBuddySystem] at hr
  | succ fuel ih =>
    simp only [allocateBuddySystem] at hr
    split at hr
    · simp only [Option.some.injEq, Prod.mk.injEq] at hr
      rw [← hr.2]; rfl
    · split at hr
      · cases hr
      · rename_i bs hbs
        exact ih (m := { m with blocks := bs }) hr

/-- Queue and id counter after a strategy call, by outcome. -/
theorem runStrategy_queue {fuel : Nat} {m : MemoryManager} {size : Int} {algorithm : String}
    {r : Bool} {m1 : MemoryManager} (hr : runStrategy fuel m size algorithm = some (r, m1)) :
    (r = true → m1.processQueue = m.processQueue) ∧
    (r = false →
      (m1.processQueue = m.processQueue ∨
        (algorithm = "segmentation" ∧ m1.processQueue = m.processQueue.tail)) ∧
      m1.nextProcessId = m.nextProcessId) := by
  have simple : ∀ p : Bool × MemoryManager, p = (r, m1) →
      (p.2.processQueue = m.processQueue ∧ (p.1 = false → p.2 = m)) →
      (r = true → m1.processQueue = m.processQueue) ∧
      (r = false →
        (m1.processQueue = m.processQueue ∨
          (algorithm = "segmentation" ∧ m1.processQueue = m.processQueue.tail)) ∧
        m1.nextProcessId = m.nextProcessId) := by
    intro p hp hq
    subst hp
    exact ⟨fun _ => hq.1,
      fun hf => ⟨Or.inl hq.1, congrArg MemoryManager.nextProcessId (hq.2 hf)⟩⟩
  rcases runStrategy_cases hr with e | e | e | e | e | ⟨ha, e⟩ | e
  · exact simple _ e (fixed_queue m size)
  · exact simple _ e (firstFit_queue m size)
  · exact simple _ e (bestFit_queue m size)
  · exact simple _ e (worstFit_queue m size)
  · exact simple _ e (paging_queue m size)
  · have hq := segmentation_queue m size
    rw [e] at hq
    refine ⟨hq.1, fun hf => ?_⟩
    obtain ⟨h1, h2⟩ := hq.2 hf
    refine ⟨?_, h2⟩
    rcases h1 with h1 | h1
    · exact Or.inl h1
    · exact Or.inr ⟨ha, h1⟩
  · exact ⟨fun _ => buddy_queue e, fun hf => by rw [(buddy_returns e).1] at hf; cases hf⟩

/-- C3 (as amended): in every reachable state and for every size with
`0 < size ≤ capacity`: when the chosen strategy reports that it cannot place the
request, `allocate` returns failure and appends one entry at the end of the
queue, holding the requested size and the newly issued owner id, which no block,
no page-table entry and no other queue entry carries; the entries before it are
the queue as it was, or, after a failed segmentation request only, the queue as
it was without its head.  When the strategy places the request, `allocate`
returns success and the queue is unchanged. -/
theorem allocate_queue_effect (m : MemoryManager) (h : Reachable m) (fuel : Nat) (size : Int)
    (algorithm : String) (r : Bool) (m1 : MemoryManager) (hs : 0 < size)
    (hc : size ≤ m.totalMemory)
    (hrun : runStrategy fuel m size algorithm = some (r, m1)) :
    (r = true → allocate fuel m size algorithm = some (true, m1) ∧
      m1.processQueue = m.processQueue) ∧
    (r = false → ∃ m2, allocate fuel m size algorithm = some (false, m2) ∧
      m2.processQueue = m1.processQueue ++ [⟨m.nextProcessId, size⟩] ∧
      (m1.processQueue = m.processQueue ∨
        (algorithm = "segmentation" ∧ m1.processQueue = m.processQueue.tail)) ∧
      m2.nextProcessId = m.nextProcessId + 1 ∧
      (∀ b ∈ m2.blocks, b.id ≠ m.nextProcessId) ∧
      (∀ entry ∈ m2.pageTable, entry.1 ≠ m.nextProcessId) ∧
      (∀ p ∈ m1.processQueue, p.id ≠ m.nextProcessId)) := by
  have hv : ¬ (size ≤ 0 ∨ size > m.totalMemory) := by omega
  have hq := runStrategy_queue hrun
  have hids := ids_runStrategy (ids_reachable h) (by omega : 0 ≤ size) hrun
  constructor
  · intro hr
    subst hr
    refine ⟨?_, hq.1 rfl⟩
    simp only [allocate, if_neg hv, hrun, Option.map_some', enqueueIfFailed]
    rfl
  · intro hr
    subst hr
    obtain ⟨hq1, hn⟩ := hq.2 rfl
    obtain ⟨-, i2, i3, i4⟩ := hids
    rw [hn] at i2 i3 i4
    refine ⟨(enqueueIfFailed size (false, m1)).2, ?_, ?_, hq1, ?_, ?_, ?_, ?_⟩
    · simp only [allocate, if_neg hv, hrun, Option.map_some', enqueueIfFailed]
      rfl
    · show m1.processQueue ++ [⟨m1.nextProcessId, size⟩] = _
      rw [hn]
    · show m1.nextProcessId + 1 = _
      rw [hn]
    · exact fun b hb => by have := i2 b hb; omega
    · exact fun entry he => by have := i3 entry he; omega
    · exact fun p hp => by have := i4 p hp; omega

theorem slicedQueued_reachable : Reachable slicedQueued :=
  Reachable.allocate
    (Reachable.allocate Reachable.init
      (by rfl : allocate 0 MemoryManager.default 200 "fixed-partitioning" =
        some (true, fixedSliced)))
    (by rfl : allocate 0 fixedSliced 300 "first-fit" = some (false, slicedQueued))

theorem allocate_queue_effect_witness :
    slicedQueued.processQueue = [⟨2, 300⟩] ∧
    ∃ m1, runStrategy 0 slicedQueued 770 "segmentation" = some (false, m1) ∧
      m1.processQueue = slicedQueued.processQueue.tail ∧
      ((false = true → allocate 0 slicedQueued 770 "segmentation" = some (true, m1) ∧
        m1.processQueue = slicedQueued.processQueue) ∧
      (false = false → ∃ m2, allocate 0 slicedQueued 770 "segmentation" = some (false, m2) ∧
        m2.processQueue = m1.processQueue ++ [⟨slicedQueued.nextProcessId, 770⟩] ∧
        (m1.processQueue = slicedQueued.processQueue ∨
          ("segmentation" = "segmentation" ∧
            m1.processQueue = slicedQueued.processQueue.tail)) ∧
        m2.nextProcessId = slicedQueued.nextProcessId + 1 ∧
        (∀ b ∈ m2.blocks, b.id ≠ slicedQueued.nextProcessId) ∧
        (∀ entry ∈ m2.pageTable, entry.1 ≠ slicedQueued.nextProcessId) ∧
        (∀ p ∈ m1.processQueue, p.id ≠ slicedQueued.nextProcessId))) :=
  ⟨rfl, (allocateSegmentation slicedQueued 770).2, by rfl, by rfl,
    allocate_queue_effect slicedQueued slicedQueued_reachable 0 770 "segmentation" false
      (allocateSegmentation slicedQueued 770).2 (by decide) (by decide) (by rfl)⟩

/-- C3 (as stated) fails: in the reachable state `slicedQueued` the queue holds
request 2 of size 300; a segmentation request of 770 places its code and data
segments and fails on the stack segment, the rollback merges the free blocks and
admits request 2, and `allocate` then queues the new request: the queue goes
from `[(2, 300)]` to `[(3, 770)]` and has not grown. -/
theorem queue_growth_counterexample :
    Reachable slicedQueued ∧ slicedQueued.processQueue = [⟨2, 300⟩] ∧
    (0 : Int) < 770 ∧ (770 : Int) ≤ slicedQueued.totalMemory ∧
    (runStrategy 0 slicedQueued 770 "segmentation").map (·.1) = some false ∧
    ∃ m2, allocate 0 slicedQueued 770 "segmentation" = some (false, m2) ∧
      m2.processQueue = [⟨3, 770⟩] ∧
      m2.processQueue.length ≠ slicedQueued.processQueue.length + 1 ∧
      ¬ ∃ p, m2.processQueue = slicedQueued.processQueue ++ [p] :=
  ⟨slicedQueued_reachable, rfl, by decide, by decide, by rfl,
    (enqueueIfFailed 770 (allocateSegmentation slicedQueued 770)).2, by rfl, by rfl,
    by decide, by
      rintro ⟨p, hp⟩
      have h1 : (enqueueIfFailed 770 (allocateSegmentation slicedQueued 770)).2.processQueue
          = [⟨3, 770⟩] := by rfl
      have h2 : slicedQueued.processQueue = [⟨2, 300⟩] := rfl
      rw [h1, h2] at hp
      simp at hp⟩

/-! ## The loop bounds of the embedding are never the reason a loop stops -/

/-- The split loop leaves by its condition: with `blockSize` iterations at hand
the final size is at most `allocSize`. -/
theorem splitLoop_exit (n : Nat) (start blockSize allocSize : Int) (buddies : List MemoryBlock)
    (ha : 1 ≤ allocSize) (hn : blockSize.toNat ≤ n) :
    (splitLoop n start blockSize allocSize buddies).1 ≤ allocSize := by
  induction n generalizing blockSize buddies with
  | zero =>
    simp only [splitLoop]
    omega
  | succ n ih =>
    simp only [splitLoop]
    split
    · rename_i hgt
      apply ih
      have h2 : (0 : Int) ≤ blockSize := by omega
      rw [Int.tdiv_eq_ediv h2 (by norm_num)]
      omega
    · omega

theorem buddyScanFrom_length {cur : MemoryBlock} {rest blocks1 : List MemoryBlock}
    (hs : buddyScanFrom cur rest = .merged blocks1) : blocks1.length = rest.length := by
  induction rest generalizing cur blocks1 with
  | nil => simp [buddyScanFrom] at hs
  | cons nxt rest ih =>
    have hrec : ∀ bs, (match buddyScanFrom nxt rest with
        | .merged blocks => MergeScan.merged (cur :: blocks)
        | r => r) = .merged bs → bs.length = (nxt :: rest).length := by
      intro bs hbs
      cases hr : buddyScanFrom nxt rest with
      | divisionByZero => simp [hr] at hbs
      | unchanged => simp [hr] at hbs
      | merged bs1 =>
        simp only [hr, MergeScan.merged.injEq] at hbs
        subst hbs
        simp [ih hr]
    simp only [buddyScanFrom] at hs
    split at hs
    · split at hs
      · cases hs
      · split at hs
        · simp only [MergeScan.merged.injEq] at hs
          subst hs
          rfl
        · exact hrec _ hs
    · exact hrec _ hs

/-- The buddy merge loop leaves by its condition: with `blocks.size()` rounds at
hand the list it returns admits no further buddy merge. -/
theorem buddyMergeLoop_exit (n : Nat) {blocks blocks1 : List MemoryBlock}
    (hn : blocks.length ≤ n) (hs : buddyMergeLoop n blocks = some blocks1) :
    buddyScan blocks1 = .unchanged := by
  induction n generalizing blocks with
  | zero =>
    simp only [buddyMergeLoop, Option.some.injEq] at hs
    subst hs
    have : blocks = [] := List.length_eq_zero.1 (by omega)
    subst this
    rfl
  | succ n ih =>
    simp only [buddyMergeLoop] at hs
    cases hb : buddyScan blocks with
    | divisionByZero => simp [hb] at hs
    | unchanged =>
      simp only [hb, Option.some.injEq] at hs
      subst hs; exact hb
    | merged bs =>
      simp only [hb] at hs
      cases blocks with
      | nil => simp [buddyScan] at hb
      | cons b rest =>
        have hl := buddyScanFrom_length hb
        exact ih (by simp only [List.length_cons] at hn; omega) hs

/-! ## Unknown strategy names -/

/-- C13: for every state, every size and every strategy name that is none of
the seven identifiers, `allocate(size, name)` returns, and returns the same
result and the same state as `allocate(size, "first-fit")`. -/
theorem unknown_strategy_is_firstFit (fuel fuel1 : Nat) (m : MemoryManager) (size : Int)
    (algorithm : String) (h1 : algorithm ≠ "fixed-partitioning")
    (h2 : algorithm ≠ "first-fit") (h3 : algorithm ≠ "best-fit")
    (h4 : algorithm ≠ "worst-fit") (h5 : algorithm ≠ "paging")
    (h6 : algorithm ≠ "segmentation") (h7 : algorithm ≠ "buddy-system") :
    allocate fuel m size algorithm = allocate fuel1 m size "first-fit" ∧
      (allocate fuel m size algorithm).isSome = true := by
  have e1 : runStrategy fuel m size algorithm = some (allocateFirstFit m size) := by
    simp only [runStrategy, if_neg h1, if_neg h2, if_neg h3, if_neg h4, if_neg h5, if_neg h6,
      if_neg h7]
  have e2 : runStrategy fuel1 m size "first-fit" = some (allocateFirstFit m size) := by
    simp [runStrategy]
  unfold allocate
  rw [e1, e2]
  split <;> exact ⟨rfl, rfl⟩

theorem unknown_strategy_is_firstFit_witness :
    allocate 0 MemoryManager.default 100 "next-fit" =
        allocate 3 MemoryManager.default 100 "first-fit" ∧
      (allocate 0 MemoryManager.default 100 "next-fit").isSome = true :=
  unknown_strategy_is_firstFit 0 3 MemoryManager.default 100 "next-fit" (by decide)
    (by decide) (by decide) (by decide) (by decide) (by decide) (by decide)

/-! ## The admission retry -/

theorem firstFitIndex_none_iff {blocks : List MemoryBlock} {size : Int} :
    firstFitIndex blocks size = none ↔ ∀ b ∈ blocks, b.status = .free → b.size < size := by
  induction blocks with
  | nil => simp [firstFitIndex]
  | cons a rest ih =>
    simp only [firstFitIndex]
    split
    · rename_i ha
      simp only [reduceCtorEq, false_iff, not_forall]
      exact ⟨a, List.mem_cons_self _ _, ha.1, by omega⟩
    · rename_i ha
      simp only [Option.map_eq_none', ih, List.mem_cons, forall_eq_or_imp]
      constructor
      · intro h
        exact ⟨fun hf => by
          by_contra hlt
          exact ha ⟨hf, by omega⟩, h⟩
      · intro h
        exact h.2

/-- The index returned by the first-fit scan is the lowest index of a free
block that can hold the request. -/
theorem firstFitIndex_first {blocks : List MemoryBlock} {size : Int} {i : Nat}
    (h : firstFitIndex blocks size = some i) :
    ∀ (j : Nat) (c : MemoryBlock), blocks[j]? = some c → c.status = .free → size ≤ c.size →
      i ≤ j := by
  induction blocks generalizing i with
  | nil => simp [firstFitIndex] at h
  | cons a rest ih =>
    simp only [firstFitIndex] at h
    split at h
    · cases h
      exact fun j _ _ _ _ => Nat.zero_le j
    · rename_i ha
      cases hr : firstFitIndex rest size with
      | none => simp [hr] at h
      | some k =>
        simp only [hr, Option.map_some', Option.some.injEq] at h
        subst h
        intro j c hc hf hs
        cases j with
        | zero =>
          simp only [List.getElem?_cons_zero, Option.some.injEq] at hc
          subst hc
          exact absurd ⟨hf, hs⟩ ha
        | succ j =>
          simp only [List.getElem?_cons_succ] at hc
          have := ih hr j c hc hf hs
          omega

/-- A deallocation that found something ends with the merge pass, one admission
retry and a statistics refresh, on a state that holds the queue as it was. -/
theorem deallocate_found_shape {m : MemoryManager} {processId : Int}
    (h : (deallocateById m processId).1 = true) :
    ∃ m1, m1.processQueue = m.processQueue ∧ m1.nextProcessId = m.nextProcessId ∧
      (deallocateById m processId).2 =
        updateMemoryStats (tryAllocateWaitingProcesses (mergeAdjacentFreeBlocks m1)) := by
  unfold deallocateById at h ⊢
  split
  · rename_i frames hl
    exact ⟨{ m with
      frameAllocation := frames.foldl (fun fa f => fa.set f false) m.frameAllocation
      pageTable := m.pageTable.filter (fun entry => entry.1 ≠ processId)
      blocks := framesToBlocks (m.pageTable.filter (fun entry => entry.1 ≠ processId))
        m.pageSize (frames.foldl (fun fa f => fa.set f false) m.frameAllocation).length },
      rfl, rfl, rfl⟩
  · rename_i hl
    simp only [hl] at h ⊢
    by_cases ho : ownsBlock processId m.blocks = true
    · rw [if_pos ho]
      exact ⟨{ m with blocks := freeOwned processId m.blocks }, rfl, rfl, rfl⟩
    · have ho1 : ownsBlock processId m.blocks = false := by simpa using ho
      simp [ho1] at h

/-- C11: the admission retry looks at the head of the queue only.  If no free
block is at least as large as the head's size, the whole state (queue and blocks
included) is left as it was, whatever the later entries are; if some free block
is large enough, the head alone leaves the queue, it is placed by the shared
block update at the lowest fitting index under the id recorded in the queue, and
the remaining entries keep their order.  A deallocation that finds the owner
runs this retry once, after the merge pass. -/
theorem admission_retry_head_only (m : MemoryManager) (head : Process)
    (waiting : List Process) (hq : m.processQueue = head :: waiting) :
    (∀ processId : Int, (deallocateById m processId).1 = true →
      ∃ m1, m1.processQueue = head :: waiting ∧
        (deallocateById m processId).2 =
          updateMemoryStats (tryAllocateWaitingProcesses (mergeAdjacentFreeBlocks m1))) ∧
    ((∀ b ∈ m.blocks, b.status = .free → b.size < head.size) →
      tryAllocateWaitingProcesses m = m) ∧
    ((∃ b ∈ m.blocks, b.status = .free ∧ head.size ≤ b.size) →
      ∃ i, FitsAt m.blocks i head.size ∧
        (∀ (j : Nat) (c : MemoryBlock), m.blocks[j]? = some c → c.status = .free →
          head.size ≤ c.size → i ≤ j) ∧
        (tryAllocateWaitingProcesses m).blocks = placeAt m.blocks i head.size head.id ∧
        (tryAllocateWaitingProcesses m).processQueue = waiting ∧
        (tryAllocateWaitingProcesses m).nextProcessId = m.nextProcessId) := by
  refine ⟨?_, ?_, ?_⟩
  · intro pid hf
    obtain ⟨m1, h1, -, h3⟩ := deallocate_found_shape hf
    exact ⟨m1, by rw [h1, hq], h3⟩
  · intro hno
    have hn := firstFitIndex_none_iff.2 hno
    unfold tryAllocateWaitingProcesses
    split
    · rfl
    · rename_i p w hpw
      rw [hq] at hpw
      simp only [List.cons.injEq] at hpw
      rw [← hpw.1, hn]
  · rintro ⟨b, hb, hf, hs⟩
    cases hi : firstFitIndex m.blocks head.size with
    | none =>
      have := firstFitIndex_none_iff.1 hi b hb hf
      omega
    | some i =>
      refine ⟨i, firstFitIndex_fits hi, firstFitIndex_first hi, ?_⟩
      unfold tryAllocateWaitingProcesses
      split
      · rename_i hnil
        rw [hq] at hnil
        cases hnil
      · rename_i p w hpw
        rw [hq] at hpw
        simp only [List.cons.injEq] at hpw
        rw [← hpw.1, ← hpw.2, hi]
        exact ⟨rfl, rfl, rfl⟩

theorem admission_retry_head_only_witness :
    (deallocateById headBlocked 1).1 = true ∧
    (deallocateById headBlocked 1).2.blocks = [⟨0, 0, 20, .free⟩, ⟨2, 20, 1004, .allocated⟩] ∧
    (deallocateById headBlocked 1).2.processQueue = [⟨3, 40⟩, ⟨4, 10⟩] ∧
    (∃ b ∈ (deallocateById headBlocked 1).2.blocks,
      b.status = .free ∧ (⟨4, 10⟩ : Process).size ≤ b.size) ∧
    tryAllocateWaitingProcesses (mergeAdjacentFreeBlocks
        { headBlocked with blocks := freeOwned 1 headBlocked.blocks }) =
      mergeAdjacentFreeBlocks
        { headBlocked with blocks := freeOwned 1 headBlocked.blocks } :=
  ⟨by decide, by decide, by decide, by decide,
    (admission_retry_head_only
      (mergeAdjacentFreeBlocks { headBlocked with blocks := freeOwned 1 headBlocked.blocks })
      ⟨3, 40⟩ [⟨4, 10⟩] rfl).2.1 (by decide)⟩

/-! ## Rollback of a failed segmentation request -/

theorem deallocate_owned {m : MemoryManager} {processId : Int}
    (hl : m.pageTable.lookup processId = none) (ho : ownsBlock processId m.blocks = true) :
    deallocateById m processId =
      (true, updateMemoryStats (tryAllocateWaitingProcesses (mergeAdjacentFreeBlocks
        { m with blocks := freeOwned processId m.blocks }))) := by
  unfold deallocateById
  simp only [hl]
  rw [if_pos ho]

/-- C14 (as amended): in a segmentation allocation of a reachable state where
the code and the data segment are placed and the stack segment is not, the call
returns failure and the rollback frees every block that carries the id of the
request, the data segment's block as well as the code segment's: the state
after the call is the one obtained by freeing those blocks, merging, retrying
the queue head and refreshing the statistics, and no block carries the id. -/
theorem segmentation_rollback_frees_all (m : MemoryManager) (h : Reachable m) (size : Int)
    (hcode : (placeSegment m.blocks (size.tdiv 3) m.nextProcessId).1 = true)
    (hdata : (placeSegment (placeSegment m.blocks (size.tdiv 3) m.nextProcessId).2
      (size.tdiv 3) m.nextProcessId).1 = true)
    (hstack : (placeSegment (placeSegment (placeSegment m.blocks (size.tdiv 3)
      m.nextProcessId).2 (size.tdiv 3) m.nextProcessId).2
      (size - size.tdiv 3 - size.tdiv 3) m.nextProcessId).1 = false) :
    allocateSegmentation m size =
      (false, updateMemoryStats (tryAllocateWaitingProcesses (mergeAdjacentFreeBlocks
        { m with blocks := (freeOwned m.nextProcessId
            (placeSegment (placeSegment m.blocks (size.tdiv 3) m.nextProcessId).2
              (size.tdiv 3) m.nextProcessId).2) }))) ∧
    (∀ b ∈ freeOwned m.nextProcessId
        (placeSegment (placeSegment m.blocks (size.tdiv 3) m.nextProcessId).2
          (size.tdiv 3) m.nextProcessId).2, b.id ≠ m.nextProcessId) ∧
    (∀ b ∈ (allocateSegmentation m size).2.blocks, b.id ≠ m.nextProcessId) := by
  obtain ⟨h1, h2, h3, h4⟩ := ids_reachable h
  have hl : m.pageTable.lookup m.nextProcessId = none :=
    lookup_none_of_keys (fun entry he => by have := h3 entry he; omega)
  have hs2 := (placeSegment_fail hstack).2
  have hown : ownsBlock m.nextProcessId
      (placeSegment (placeSegment m.blocks (size.tdiv 3) m.nextProcessId).2
        (size.tdiv 3) m.nextProcessId).2 = true :=
    placeSegment_keeps_owner _ _ (placeSegment_owner hcode)
  have hb : ∀ b ∈ (placeSegment (placeSegment m.blocks (size.tdiv 3)
      m.nextProcessId).2 (size.tdiv 3) m.nextProcessId).2,
      b.id < m.nextProcessId ∨ (b.id = m.nextProcessId ∧ b.status = .allocated) := by
    apply placeSegment_forall
      (fun i s => i < m.nextProcessId ∨ (i = m.nextProcessId ∧ s = .allocated)) _ _ _
      (Or.inr ⟨rfl, rfl⟩) (Or.inl h1)
    apply placeSegment_forall
      (fun i s => i < m.nextProcessId ∨ (i = m.nextProcessId ∧ s = .allocated)) _ _ _
      (Or.inr ⟨rfl, rfl⟩) (Or.inl h1)
    exact fun b hb => Or.inl (h2 b hb)
  have heq : allocateSegmentation m size =
      (false, updateMemoryStats (tryAllocateWaitingProcesses (mergeAdjacentFreeBlocks
        { m with blocks := (freeOwned m.nextProcessId
            (placeSegment (placeSegment m.blocks (size.tdiv 3) m.nextProcessId).2
              (size.tdiv 3) m.nextProcessId).2) }))) := by
    unfold allocateSegmentation
    simp only [hcode, hdata, hstack, hs2]
    rw [deallocate_owned (m := { m with blocks := (placeSegment (placeSegment m.blocks
      (size.tdiv 3) m.nextProcessId).2 (size.tdiv 3) m.nextProcessId).2 }) hl hown]
    simp
  refine ⟨heq, fun b hb1 => by have := freeOwned_ids h1 hb b hb1; omega, ?_⟩
  have hids := ids_rollback (m := { m with blocks := (placeSegment (placeSegment m.blocks
      (size.tdiv 3) m.nextProcessId).2 (size.tdiv 3) m.nextProcessId).2 }) h1 hb h3 h4
  have hn := (deallocate_queue { m with blocks := (placeSegment (placeSegment m.blocks
      (size.tdiv 3) m.nextProcessId).2 (size.tdiv 3) m.nextProcessId).2 } m.nextProcessId).2
  have hres : (allocateSegmentation m size).2 =
      (deallocateById { m with blocks := (placeSegment (placeSegment m.blocks
        (size.tdiv 3) m.nextProcessId).2 (size.tdiv 3) m.nextProcessId).2 }
        m.nextProcessId).2 := by
    rw [heq, deallocate_owned (m := { m with blocks := (placeSegment (placeSegment m.blocks
      (size.tdiv 3) m.nextProcessId).2 (size.tdiv 3) m.nextProcessId).2 }) hl hown]
  rw [hres]
  intro b hb1
  have hlt := hids.2.1 b hb1
  rw [hn] at hlt
  exact ne_of_lt hlt

theorem fixedSliced_reachable : Reachable fixedSliced :=
  Reachable.allocate Reachable.init
    (by rfl : allocate 0 MemoryManager.default 200 "fixed-partitioning" =
      some (true, fixedSliced))

theorem segmentation_rollback_frees_all_witness :
    allocateSegmentation fixedSliced 770 =
      (false, updateMemoryStats (tryAllocateWaitingProcesses (mergeAdjacentFreeBlocks
        { fixedSliced with blocks := (freeOwned fixedSliced.nextProcessId
            (placeSegment (placeSegment fixedSliced.blocks ((770 : Int).tdiv 3)
              fixedSliced.nextProcessId).2
              ((770 : Int).tdiv 3) fixedSliced.nextProcessId).2) }))) ∧
    (∀ b ∈ freeOwned fixedSliced.nextProcessId
        (placeSegment (placeSegment fixedSliced.blocks ((770 : Int).tdiv 3)
          fixedSliced.nextProcessId).2
          ((770 : Int).tdiv 3) fixedSliced.nextProcessId).2, b.id ≠ fixedSliced.nextProcessId) ∧
    (∀ b ∈ (allocateSegmentation fixedSliced 770).2.blocks,
      b.id ≠ fixedSliced.nextProcessId) :=
  segmentation_rollback_frees_all fixedSliced fixedSliced_reachable 770 (by decide)
    (by decide) (by decide)

/-- C14 (as stated) fails: on the sliced state `[A1 | F256 | F256 | F256]` a
segmentation request of 770 places the code segment at 256 and the data segment
at 512 and fails on the stack segment (258 units); after the call the blocks are
`[A1 | F768]`: the block taken for the data segment is free, not allocated. -/
theorem segmentation_leak_counterexample :
    Reachable fixedSliced ∧
    (placeSegment fixedSliced.blocks ((770 : Int).tdiv 3) 2).1 = true ∧
    (placeSegment (placeSegment fixedSliced.blocks ((770 : Int).tdiv 3) 2).2
      ((770 : Int).tdiv 3) 2) =
      (true, [⟨1, 0, 256, .allocated⟩, ⟨2, 256, 256, .allocated⟩, ⟨2, 512, 256, .allocated⟩,
        ⟨0, 768, 256, .free⟩]) ∧
    (placeSegment [⟨1, 0, 256, .allocated⟩, ⟨2, 256, 256, .allocated⟩,
      ⟨2, 512, 256, .allocated⟩, ⟨0, 768, 256, .free⟩]
      (770 - (770 : Int).tdiv 3 - (770 : Int).tdiv 3) 2).1 = false ∧
    (allocateSegmentation fixedSliced 770).1 = false ∧
    (allocateSegmentation fixedSliced 770).2.blocks =
      [⟨1, 0, 256, .allocated⟩, ⟨0, 256, 768, .free⟩] ∧
    ¬ ∃ b ∈ (allocateSegmentation fixedSliced 770).2.blocks,
      b.status = .allocated ∧ b.start ≤ 512 ∧ 512 < b.start + b.size :=
  ⟨fixedSliced_reachable, by decide, by decide, by decide, by decide, by decide, by decide⟩

/-! ## The buddy retry -/

theorem buddyFitIndex_none_iff {blocks : List MemoryBlock} {allocSize : Int} :
    buddyFitIndex blocks allocSize = none ↔
      ∀ b ∈ blocks, b.status = .free → powerOfTwoTest b.size = true → b.size < allocSize := by
  induction blocks with
  | nil => simp [buddyFitIndex]
  | cons a rest ih =>
    simp only [buddyFitIndex]
    split
    · rename_i ha
      simp only [reduceCtorEq, false_iff, not_forall]
      exact ⟨a, List.mem_cons_self _ _, ha.1, ha.2.1, by omega⟩
    · rename_i ha
      simp only [Option.map_eq_none', ih, List.mem_cons, forall_eq_or_imp]
      constructor
      · intro h
        exact ⟨fun hf ht => by
          by_contra hlt
          exact ha ⟨hf, ht, by omega⟩, h⟩
      · intro h
        exact h.2

theorem buddyMergeLoop_unchanged (n : Nat) {blocks : List MemoryBlock}
    (h : buddyScan blocks = .unchanged) : buddyMergeLoop n blocks = some blocks := by
  cases n with
  | zero => rfl
  | succ n => simp only [buddyMergeLoop, h]

/-- When the search finds no block and the merge scan merges nothing, the retry
runs on the same state again: no recursion budget reaches a result. -/
theorem buddy_stuck {m : MemoryManager} {size : Int}
    (hfit : buddyFitIndex m.blocks (roundUpPow2 size) = none)
    (hscan : buddyScan m.blocks = .unchanged) (fuel : Nat) :
    allocateBuddySystem fuel m size = none := by
  induction fuel with
  | zero => rfl
  | succ fuel ih =>
    simp only [allocateBuddySystem, hfit, buddyMergeLoop_unchanged _ hscan]
    exact ih

/-- C16: in a state where no free block has a power-of-two size of at least the
rounded request and the buddy merge scan can merge nothing, a buddy-system
request of valid size never returns, whatever the recursion budget: the retry
re-enters `allocateBuddySystem` on the unchanged state. -/
theorem buddy_retry_never_returns (m : MemoryManager) (size : Int) (hs : 0 < size)
    (hc : size ≤ m.totalMemory)
    (hfit : ∀ b ∈ m.blocks, b.status = .free → powerOfTwoTest b.size = true →
      b.size < roundUpPow2 size)
    (hscan : buddyScan m.blocks = .unchanged) (fuel : Nat) :
    allocate fuel m size "buddy-system" = none ∧ allocateBuddySystem fuel m size = none ∧
      (buddyMergeLoop m.blocks.length m.blocks = some m.blocks) := by
  have hv : ¬ (size ≤ 0 ∨ size > m.totalMemory) := by omega
  have hb := buddy_stuck (buddyFitIndex_none_iff.2 hfit) hscan fuel
  refine ⟨?_, hb, buddyMergeLoop_unchanged _ hscan⟩
  have hr : runStrategy fuel m size "buddy-system" = allocateBuddySystem fuel m size := by
    simp [runStrategy]
  simp only [allocate, if_neg hv, hr, hb, Option.map_none']

theorem buddy_retry_never_returns_witness :
    Reachable fullBuddy ∧ (0 : Int) < 1 ∧ (1 : Int) ≤ fullBuddy.totalMemory ∧
    ∀ fuel : Nat, allocate fuel fullBuddy 1 "buddy-system" = none ∧
      allocateBuddySystem fuel fullBuddy 1 = none ∧
      (buddyMergeLoop fullBuddy.blocks.length fullBuddy.blocks = some fullBuddy.blocks) :=
  ⟨Reachable.allocate Reachable.init
      (by rfl : allocate 1 MemoryManager.default 1024 "buddy-system" = some (true, fullBuddy)),
    by decide, by decide,
    fun fuel => buddy_retry_never_returns fullBuddy 1 (by decide) (by decide) (by decide)
      (by decide) fuel⟩

theorem oddHole_reachable : Reachable oddHole :=
  Reachable.allocate Reachable.init
    (by rfl : allocate 0 MemoryManager.default 100 "first-fit" = some (true, oddHole))

/-- C15 at a failing input: after `allocate(100, "first-fit")` 924 units are
free, the rounded request of a buddy-system `allocate(4)` is 4, and the call
does not return for any recursion budget: the only free block has a size that
is not a power of two, the merge scan finds no pair, and the retry repeats. -/
theorem buddy_enough_memory_no_return :
    Reachable oddHole ∧ (0 : Int) < 4 ∧ (4 : Int) ≤ oddHole.totalMemory ∧
    roundUpPow2 4 = 4 ∧ roundUpPow2 4 ≤ oddHole.freeMemory ∧
    oddHole.freeMemory = oddHole.totalMemory - sizeWithStatus .allocated oddHole.blocks ∧
    ∀ fuel : Nat, allocateBuddySystem fuel oddHole 4 = none ∧
      allocate fuel oddHole 4 "buddy-system" = none := by
  refine ⟨oddHole_reachable, by decide, by decide, by decide, by decide, by decide, ?_⟩
  intro fuel
  have hb : allocateBuddySystem fuel oddHole 4 = none :=
    buddy_stuck (by decide) (by decide) fuel
  refine ⟨hb, ?_⟩
  have hr : runStrategy fuel oddHole 4 "buddy-system" = allocateBuddySystem fuel oddHole 4 := by
    simp [runStrategy]
  have hv : ¬ ((4 : Int) ≤ 0 ∨ (4 : Int) > oddHole.totalMemory) := by decide
  simp only [allocate, if_neg hv, hr, hb, Option.map_none']

/-! ## The fixed-partition layout -/

theorem takeFreePartition_layout {id : Int} {blocks blocks1 : List MemoryBlock}
    (ht : takeFreePartition id blocks = some blocks1) :
    blocks1.map (fun b => (b.start, b.size)) = blocks.map (fun b => (b.start, b.size)) := by
  induction blocks generalizing blocks1 with
  | nil => simp [takeFreePartition] at ht
  | cons b rest ih =>
    simp only [takeFreePartition] at ht
    split at ht
    · cases ht
      rfl
    · cases hr : takeFreePartition id rest with
      | none => simp [hr] at ht
      | some bs =>
        simp only [hr, Option.map_some', Option.some.injEq] at ht
        subst ht
        simp only [List.map_cons, ih hr]

theorem fixed_layout_step {m : MemoryManager} (size : Int)
    (h : m.blocks.map (fun b => (b.start, b.size)) =
      [(0, 256), (256, 256), (512, 256), (768, 256)]) :
    (allocateFixedPartitioning m size).2.blocks.map (fun b => (b.start, b.size)) =
      [(0, 256), (256, 256), (512, 256), (768, 256)] := by
  unfold allocateFixedPartitioning
  split
  · exact h
  · split
    · rename_i bs hbs
      show bs.map (fun b => (b.start, b.size)) = _
      rw [takeFreePartition_layout hbs, h]
    · split
      · rename_i b hb
        rw [hb] at h
        simp at h
      · exact h

theorem fixed_layout_allocate {fuel : Nat} {m m1 : MemoryManager} {size : Int} {r : Bool}
    (h : m.blocks.map (fun b => (b.start, b.size)) =
      [(0, 256), (256, 256), (512, 256), (768, 256)])
    (ha : allocate fuel m size "fixed-partitioning" = some (r, m1)) :
    m1.blocks.map (fun b => (b.start, b.size)) =
      [(0, 256), (256, 256), (512, 256), (768, 256)] := by
  rcases allocate_cases ha with ⟨-, -, e⟩ | ⟨-, -, r0, m0, hrun, e⟩
  · rw [e]; exact h
  · have hr : runStrategy fuel m size "fixed-partitioning" =
        some (allocateFixedPartitioning m size) := by simp [runStrategy]
    rw [hr] at hrun
    have e0 : (allocateFixedPartitioning m size).2 = m0 :=
      congrArg Prod.snd (Option.some.inj hrun)
    have hb : m1.blocks = m0.blocks := by
      have := congrArg (fun p : Bool × MemoryManager => p.2.blocks) e
      simp only at this
      rw [this]
      unfold enqueueIfFailed
      split <;> rfl
    rw [hb, ← e0]
    exact fixed_layout_step size h

theorem fixed_first_success {fuel : Nat} {size : Int} {m1 : MemoryManager}
    (ha : allocate fuel MemoryManager.default size "fixed-partitioning" = some (true, m1)) :
    m1 = fixedSliced := by
  rcases allocate_cases ha with ⟨-, hf, -⟩ | ⟨-, -, r0, m0, hrun, e⟩
  · cases hf
  · have hr : runStrategy fuel MemoryManager.default size "fixed-partitioning" =
        some (allocateFixedPartitioning MemoryManager.default size) := by simp [runStrategy]
    rw [hr] at hrun
    by_cases hs : size ≤ 256
    · rw [fixed_first_state size hs] at hrun
      simp only [Option.some.injEq, Prod.mk.injEq] at hrun
      rw [← hrun.1, ← hrun.2] at e
      exact congrArg Prod.snd e
    · have h1 : size > partitionSize := by simp only [partitionSize]; omega
      simp only [allocateFixedPartitioning, if_pos h1, Option.some.injEq, Prod.mk.injEq]
        at hrun
      rw [← hrun.1, ← hrun.2] at e
      have := congrArg Prod.fst e
      simp [enqueueIfFailed] at this

/-- C17 (as amended): once fixed partitioning has sliced the fresh capacity-1024
space, in every state reached afterwards by fixed-partitioning requests alone
(placed or queued; deallocations that find nothing change nothing) the blocks
are the four partitions at 0, 256, 512 and 768, each of size exactly 256. -/
theorem fixed_layout_kept (m : MemoryManager) (h : FixedOnly m) :
    m.blocks.map (fun b => (b.start, b.size)) =
        [(0, 256), (256, 256), (512, 256), (768, 256)] ∧
      ∀ b ∈ m.blocks, b.size = 256 := by
  have key : m.blocks.map (fun b => (b.start, b.size)) =
      [(0, 256), (256, 256), (512, 256), (768, 256)] := by
    induction h with
    | sliced fuel size ha => rw [fixed_first_success ha]; rfl
    | allocate fuel size r _ ha ih => exact fixed_layout_allocate ih ha
    | deallocateNotFound pid _ hf ih => rw [deallocate_not_found hf]; exact ih
  refine ⟨key, fun b hb => ?_⟩
  have hm : (b.start, b.size) ∈ m.blocks.map (fun b => (b.start, b.size)) :=
    List.mem_map.2 ⟨b, hb, rfl⟩
  rw [key] at hm
  simp only [List.mem_cons, Prod.mk.injEq, List.mem_singleton, List.not_mem_nil,
    or_false] at hm
  rcases hm with h1 | h1 | h1 | h1 <;> exact h1.2

theorem fixed_layout_kept_witness :
    FixedOnly slicedTwice ∧
    slicedTwice.blocks.map (fun b => (b.start, b.size)) =
        [(0, 256), (256, 256), (512, 256), (768, 256)] ∧
      ∀ b ∈ slicedTwice.blocks, b.size = 256 :=
  have hr : FixedOnly slicedTwice :=
    FixedOnly.allocate 0 100 true
      (FixedOnly.sliced 0 200
        (by rfl : allocate 0 MemoryManager.default 200 "fixed-partitioning" =
          some (true, fixedSliced)))
      (by rfl : allocate 0 fixedSliced 100 "fixed-partitioning" = some (true, slicedTwice))
  ⟨hr, fixed_layout_kept slicedTwice hr⟩

/-- C17 (as stated) fails: a deallocation runs the merge pass, which joins
adjacent free partitions.  After the slicing request, deallocating owner 1
leaves the single free block of 1024; after two fixed-partitioning requests,
deallocating owner 1 leaves `[F256 | A2 256 | F512]`. -/
theorem fixed_layout_reverts_counterexample :
    allocate 0 MemoryManager.default 200 "fixed-partitioning" = some (true, fixedSliced) ∧
    (deallocateById fixedSliced 1).1 = true ∧
    (deallocateById fixedSliced 1).2.blocks = [⟨0, 0, 1024, .free⟩] ∧
    (¬ ∀ b ∈ (deallocateById fixedSliced 1).2.blocks, b.size = 256) ∧
    allocate 0 fixedSliced 100 "fixed-partitioning" = some (true, slicedTwice) ∧
    (deallocateById slicedTwice 1).2.blocks =
      [⟨0, 0, 256, .free⟩, ⟨2, 256, 256, .allocated⟩, ⟨0, 512, 512, .free⟩] ∧
    ¬ ∀ b ∈ (deallocateById slicedTwice 1).2.blocks, b.size = 256 :=
  ⟨by rfl, by decide, by decide, by decide, by rfl, by decide, by decide⟩

/-! ## First-fit in full -/

theorem placeAt_eq_splice {blocks : List MemoryBlock} {i : Nat} {b : MemoryBlock}
    (size id : Int) (hb : blocks[i]? = some b) :
    placeAt blocks i size id =
      blocks.take i ++ (⟨id, b.start, size, .allocated⟩ ::
        ((if b.size - size > 0 then [⟨0, b.start + size, b.size - size, .free⟩] else []) ++
          blocks.drop (i + 1))) := by
  induction blocks generalizing i with
  | nil => simp at hb
  | cons a rest ih =>
    cases i with
    | zero =>
      simp only [List.getElem?_cons_zero, Option.some.injEq] at hb
      subst hb
      simp only [placeAt, List.take_zero, List.nil_append, List.drop_succ_cons, List.drop_zero]
      split <;> rfl
    | succ j =>
      simp only [List.getElem?_cons_succ] at hb
      simp only [placeAt, List.take_succ_cons, List.cons_append, List.drop_succ_cons, ih hb]

theorem placeAt_used {blocks : List MemoryBlock} {i : Nat} {b : MemoryBlock}
    (size id : Int) (hb : blocks[i]? = some b) (hf : b.status = .free) :
    sizeWithStatus .allocated (placeAt blocks i size id) =
      sizeWithStatus .allocated blocks + size := by
  induction blocks generalizing i with
  | nil => simp at hb
  | cons a rest ih =>
    cases i with
    | zero =>
      simp only [List.getElem?_cons_zero, Option.some.injEq] at hb
      subst hb
      simp only [placeAt]
      split
      · simp [sizeWithStatus, hf]
        omega
      · simp [sizeWithStatus, hf]
        omega
    | succ j =>
      simp only [List.getElem?_cons_succ] at hb
      simp only [placeAt, sizeWithStatus, ih hb]
      omega

/-- C18: on a partition that tiles `[0, capacity)` with fresh statistics,
first-fit succeeds exactly when some free block has at least the requested
size, and a failed call changes nothing.  On success it takes the fitting free
block of lowest index and lowest address, replaces it by a block of exactly the
requested size allocated to the newly issued id, inserts right after it one
free unowned block for the leftover (start = block start + size) when the
leftover is positive, leaves every other block as it was and in place, raises
`usedMemory` by exactly the size and advances the id counter by one. -/
theorem firstFit_characterization (m : MemoryManager) (size : Int)
    (hinv : Contiguous 0 m.blocks m.totalMemory)
    (hstats : m.usedMemory = sizeWithStatus .allocated m.blocks) :
    ((allocateFirstFit m size).1 = true ↔
      ∃ b ∈ m.blocks, b.status = .free ∧ size ≤ b.size) ∧
    ((allocateFirstFit m size).1 = false → (allocateFirstFit m size).2 = m) ∧
    ((allocateFirstFit m size).1 = true →
      ∃ i b, m.blocks[i]? = some b ∧ b.status = .free ∧ size ≤ b.size ∧
        (∀ (j : Nat) (c : MemoryBlock), m.blocks[j]? = some c → c.status = .free →
          size ≤ c.size → i ≤ j ∧ b.start ≤ c.start) ∧
        (allocateFirstFit m size).2.blocks =
          m.blocks.take i ++ (⟨m.nextProcessId, b.start, size, .allocated⟩ ::
            ((if b.size - size > 0 then [⟨0, b.start + size, b.size - size, .free⟩]
              else []) ++ m.blocks.drop (i + 1))) ∧
        (allocateFirstFit m size).2.usedMemory = m.usedMemory + size ∧
        (allocateFirstFit m size).2.nextProcessId = m.nextProcessId + 1) := by
  cases hi : firstFitIndex m.blocks size with
  | none =>
    have hno := firstFitIndex_none_iff.1 hi
    have hres : allocateFirstFit m size = (false, m) := by
      simp only [allocateFirstFit, hi]
    rw [hres]
    refine ⟨⟨fun h => (by cases h), ?_⟩, fun _ => rfl, fun h => (by cases h)⟩
    rintro ⟨b, hb, hf, hs⟩
    have := hno b hb hf
    omega
  | some i =>
    obtain ⟨b, hb, hf, hs⟩ := firstFitIndex_fits hi
    have hres : allocateFirstFit m size = (true, updateMemoryStats
        { m with
          blocks := placeAt m.blocks i size m.nextProcessId
          nextProcessId := m.nextProcessId + 1 }) := by
      simp only [allocateFirstFit, hi]
    rw [hres]
    refine ⟨⟨fun _ => ⟨b, List.getElem?_mem hb, hf, hs⟩, fun _ => rfl⟩,
      fun h => (by cases h), fun _ => ?_⟩
    refine ⟨i, b, hb, hf, hs, ?_, placeAt_eq_splice size m.nextProcessId hb, ?_, rfl⟩
    · intro j c hc hcf hcs
      have hij := firstFitIndex_first hi j c hc hcf hcs
      exact ⟨hij, contiguous_start_mono hinv hb hc hij⟩
    · show sizeWithStatus .allocated (placeAt m.blocks i size m.nextProcessId) = _
      rw [placeAt_used size m.nextProcessId hb hf, hstats]

theorem firstFit_characterization_witness :
    (allocateFirstFit threeHoles 40).2.blocks =
      [⟨7, 0, 40, .allocated⟩, ⟨0, 40, 60, .free⟩, ⟨2, 100, 10, .allocated⟩,
        ⟨0, 110, 50, .free⟩, ⟨4, 160, 10, .allocated⟩, ⟨0, 170, 30, .free⟩,
        ⟨6, 200, 824, .allocated⟩] ∧
    (allocateFirstFit threeHoles 101).1 = false ∧
    (((allocateFirstFit threeHoles 40).1 = true ↔
      ∃ b ∈ threeHoles.blocks, b.status = .free ∧ (40 : Int) ≤ b.size) ∧
    ((allocateFirstFit threeHoles 40).1 = false →
      (allocateFirstFit threeHoles 40).2 = threeHoles) ∧
    ((allocateFirstFit threeHoles 40).1 = true →
      ∃ i b, threeHoles.blocks[i]? = some b ∧ b.status = .free ∧ (40 : Int) ≤ b.size ∧
        (∀ (j : Nat) (c : MemoryBlock), threeHoles.blocks[j]? = some c → c.status = .free →
          (40 : Int) ≤ c.size → i ≤ j ∧ b.start ≤ c.start) ∧
        (allocateFirstFit threeHoles 40).2.blocks =
          threeHoles.blocks.take i ++ (⟨threeHoles.nextProcessId, b.start, 40, .allocated⟩ ::
            ((if b.size - 40 > 0 then [⟨0, b.start + 40, b.size - 40, .free⟩]
              else []) ++ threeHoles.blocks.drop (i + 1))) ∧
        (allocateFirstFit threeHoles 40).2.usedMemory = threeHoles.usedMemory + 40 ∧
        (allocateFirstFit threeHoles 40).2.nextProcessId = threeHoles.nextProcessId + 1)) :=
  ⟨by decide, by decide,
    firstFit_characterization threeHoles 40
      ⟨rfl, by decide, rfl, by decide, rfl, by decide, rfl, by decide, rfl, by decide, rfl,
        by decide, rfl⟩
      (by decide)⟩

/-! ## The merge pass in full -/

theorem mergeFrom_eq_spec (cur : MemoryBlock) (rest : List MemoryBlock) :
    mergeFrom cur rest = mergeRunsSpec (cur :: rest) := by
  induction rest generalizing cur with
  | nil =>
    rw [mergeRunsSpec]
    split
    · simp [mergeFrom, mergeRunsSpec]
    · simp [mergeFrom, mergeRunsSpec]
  | cons nxt rest ih =>
    rw [mergeFrom]
    split
    · rename_i hboth
      rw [ih, mergeRunsSpec, mergeRunsSpec]
      simp only [hboth.1, hboth.2, if_true, List.takeWhile_cons, List.dropWhile_cons,
        decide_True, List.map_cons, List.sum_cons]
      congr 2
      omega
    · rename_i hnot
      rw [ih]
      conv_rhs => rw [mergeRunsSpec]
      by_cases hc : cur.status = .free
      · have hn : ¬ nxt.status = .free := fun hh => hnot ⟨hc, hh⟩
        simp [List.takeWhile_cons, List.dropWhile_cons, hn, hc]
        rw [← hc]
      · rw [if_neg hc]

theorem mergeFrom_no_adjacent_free (cur : MemoryBlock) (rest : List MemoryBlock) :
    (mergeFrom cur rest).Chain' (fun x y => ¬ (x.status = .free ∧ y.status = .free)) := by
  induction rest generalizing cur with
  | nil => exact List.chain'_singleton _
  | cons nxt rest ih =>
    unfold mergeFrom
    split
    · exact ih _
    · rename_i hnot
      obtain ⟨h, t, e, hs, -, -⟩ := mergeFrom_head nxt rest
      have ih1 := ih nxt
      rw [e] at ih1 ⊢
      exact List.chain'_cons.2 ⟨by rw [hs]; exact hnot, ih1⟩

theorem mergeFrom_size_sum (cur : MemoryBlock) (rest : List MemoryBlock) :
    ((mergeFrom cur rest).map (·.size)).sum = cur.size + (rest.map (·.size)).sum := by
  induction rest generalizing cur with
  | nil => simp [mergeFrom]
  | cons nxt rest ih =>
    unfold mergeFrom
    split
    · rw [ih]
      simp only [List.map_cons, List.sum_cons]
      omega
    · simp only [List.map_cons, List.sum_cons, ih]

theorem mergeFrom_keeps_nonfree (cur : MemoryBlock) (rest : List MemoryBlock) :
    (mergeFrom cur rest).filter (fun b => decide (b.status ≠ .free)) =
      (cur :: rest).filter (fun b => decide (b.status ≠ .free)) := by
  induction rest generalizing cur with
  | nil => rfl
  | cons nxt rest ih =>
    unfold mergeFrom
    split
    · rename_i hboth
      rw [ih]
      simp [List.filter_cons, hboth.1, hboth.2]
    · simp only [List.filter_cons, ih]

/-- C19: for every non-empty block list the merge pass computes what the
specification describes (each maximal run of consecutive free blocks replaced
by one free block with the start of the run's first block and the sum of the
run's sizes, every other block kept); the blocks that are not free are all
still there, unchanged and in the same order; no two adjacent blocks of the
result are both free; and the total size is that of the input. -/
theorem merge_pass_characterization (blocks : List MemoryBlock) (hne : blocks ≠ []) :
    mergeBlocks blocks = mergeRunsSpec blocks ∧
    (mergeBlocks blocks).filter (fun b => decide (b.status ≠ .free)) =
      blocks.filter (fun b => decide (b.status ≠ .free)) ∧
    (mergeBlocks blocks).Chain' (fun x y => ¬ (x.status = .free ∧ y.status = .free)) ∧
    ((mergeBlocks blocks).map (·.size)).sum = (blocks.map (·.size)).sum := by
  cases blocks with
  | nil => exact absurd rfl hne
  | cons b rest =>
    exact ⟨mergeFrom_eq_spec b rest, mergeFrom_keeps_nonfree b rest,
      mergeFrom_no_adjacent_free b rest, by
        rw [mergeBlocks, mergeFrom_size_sum]; rfl⟩

theorem merge_pass_characterization_witness :
    mergeBlocks [⟨0, 0, 8, .free⟩, ⟨0, 8, 4, .free⟩, ⟨0, 12, 4, .free⟩, ⟨4, 16, 8, .allocated⟩,
        ⟨5, 24, 8, .allocated⟩, ⟨0, 32, 8, .free⟩, ⟨0, 40, 8, .free⟩] =
      [⟨0, 0, 16, .free⟩, ⟨4, 16, 8, .allocated⟩, ⟨5, 24, 8, .allocated⟩, ⟨0, 32, 16, .free⟩] ∧
    (mergeBlocks [⟨0, 0, 8, .free⟩, ⟨0, 8, 4, .free⟩, ⟨0, 12, 4, .free⟩, ⟨4, 16, 8, .allocated⟩,
        ⟨5, 24, 8, .allocated⟩, ⟨0, 32, 8, .free⟩, ⟨0, 40, 8, .free⟩] =
      mergeRunsSpec [⟨0, 0, 8, .free⟩, ⟨0, 8, 4, .free⟩, ⟨0, 12, 4, .free⟩,
        ⟨4, 16, 8, .allocated⟩, ⟨5, 24, 8, .allocated⟩, ⟨0, 32, 8, .free⟩, ⟨0, 40, 8, .free⟩]) :=
  ⟨by decide, (merge_pass_characterization _ (by simp)).1⟩

/-! ## Paging in full -/

theorem freeIndicesFrom_mem {frames : List Bool} {k i : Nat} :
    i ∈ freeIndicesFrom frames k ↔ k ≤ i ∧ frames[i - k]? = some false := by
  induction frames generalizing k with
  | nil => simp [freeIndicesFrom]
  | cons f rest ih =>
    simp only [freeIndicesFrom]
    by_cases hik : i = k
    · subst hik
      split
      · rename_i hf
        simp [hf]
      · rename_i hf
        simp only [ih, Nat.sub_self, List.getElem?_cons_zero, Option.some.injEq]
        constructor
        · intro h; omega
        · intro h; exact absurd h.2 hf
    · have hrest : (k ≤ i ∧ (f :: rest)[i - k]? = some false) ↔
          (k + 1 ≤ i ∧ rest[i - (k + 1)]? = some false) := by
        constructor
        · intro ⟨h1, h2⟩
          have hlt : k + 1 ≤ i := by omega
          have e : i - k = (i - (k + 1)) + 1 := by omega
          rw [e, List.getElem?_cons_succ] at h2
          exact ⟨hlt, h2⟩
        · intro ⟨h1, h2⟩
          have e : i - k = (i - (k + 1)) + 1 := by omega
          rw [e, List.getElem?_cons_succ]
          exact ⟨by omega, h2⟩
      split
      · simp only [List.mem_cons, hik, false_or, ih, hrest]
      · simp only [ih, hrest]

theorem freeIndicesFrom_sorted (frames : List Bool) (k : Nat) :
    (freeIndicesFrom frames k).Pairwise (· < ·) := by
  induction frames generalizing k with
  | nil => exact List.Pairwise.nil
  | cons f rest ih =>
    simp only [freeIndicesFrom]
    split
    · refine List.Pairwise.cons ?_ (ih (k + 1))
      intro i hi
      have := (freeIndicesFrom_mem.1 hi).1
      omega
    · exact ih (k + 1)

theorem freeIndicesFrom_length (frames : List Bool) (k : Nat) :
    (freeIndicesFrom frames k).length = frames.count false := by
  induction frames generalizing k with
  | nil => rfl
  | cons f rest ih =>
    simp only [freeIndicesFrom]
    split
    · rename_i hf
      simp [hf, ih]
    · rename_i hf
      have hf1 : f = true := by simpa using hf
      simp [hf1, ih]

/-- The frames claimed by the loop of `allocatePaging` are the first `need` free
frames in index order. -/
theorem claimFrames_indices (frames : List Bool) (k need : Nat) :
    (claimFrames frames k need).2 = (freeIndicesFrom frames k).take need := by
  induction frames generalizing k need with
  | nil => simp [claimFrames, freeIndicesFrom]
  | cons f rest ih =>
    simp only [claimFrames, freeIndicesFrom]
    by_cases hn : need = 0
    · simp [hn]
    · rw [if_neg hn]
      obtain ⟨n, rfl⟩ := Nat.exists_eq_succ_of_ne_zero hn
      split
      · simp only [ih, Nat.add_sub_cancel, Nat.succ_eq_add_one, List.take_succ_cons]
      · exact ih _ _

/-- The frame table after the loop: the claimed frames are occupied, every other
frame is as it was. -/
theorem claimFrames_table (frames : List Bool) (k need j : Nat) :
    (claimFrames frames k need).1[j]? =
      if k + j ∈ (freeIndicesFrom frames k).take need then some true else frames[j]? := by
  induction frames generalizing k need j with
  | nil => simp [claimFrames, freeIndicesFrom]
  | cons f rest ih =>
    simp only [claimFrames, freeIndicesFrom]
    by_cases hn : need = 0
    · simp [hn]
    · rw [if_neg hn]
      obtain ⟨n, rfl⟩ := Nat.exists_eq_succ_of_ne_zero hn
      by_cases hf : f = false
      · simp only [hf, if_true, Nat.add_sub_cancel, Nat.succ_eq_add_one, List.take_succ_cons,
          List.mem_cons]
        cases j with
        | zero => simp
        | succ j =>
          simp only [List.getElem?_cons_succ, ih]
          have e : k + 1 + j = k + (j + 1) := by omega
          have hne : k + (j + 1) ≠ k := by omega
          simp only [e, hne, false_or]
      · simp only [if_neg hf]
        cases j with
        | zero =>
          have hnot : k + 0 ∉ (freeIndicesFrom rest (k + 1)).take (n + 1) := by
            intro hm
            have := (freeIndicesFrom_mem.1 (List.mem_of_mem_take hm)).1
            omega
          have hf1 : f = true := by simpa using hf
          simp [hnot, hf1]
        | succ j =>
          simp only [List.getElem?_cons_succ, ih]
          have e : k + 1 + j = k + (j + 1) := by omega
          simp only [e]

theorem pageTableAssign_new {pageTable : List (Int × List Nat)} {key : Int}
    (frames : List Nat) (h : pageTable.lookup key = none) :
    pageTableAssign pageTable key frames = pageTable ++ [(key, frames)] := by
  simp [pageTableAssign, h]

/-- C20: in every reachable state, for a size with `0 < size ≤ capacity` and
`N` the ceiling of `size / frameSize`: if fewer than `N` frames are free, the
paging strategy fails and leaves the whole state as it was; otherwise it
succeeds, the claimed frames are the first `N` entries of the list of free frame
indices in index order (the `N` lowest-indexed free frames), exactly those
frames become occupied and every other frame is as before, and the page table
is the old one followed by one new entry that maps the newly issued id to the
claimed frames in index order. -/
theorem paging_characterization (m : MemoryManager) (h : Reachable m) (size : Int)
    (hs : 0 < size) (N : Nat) (hN1 : size ≤ N * m.pageSize)
    (hN2 : ((N : Int) - 1) * m.pageSize < size) :
    (∀ i : Nat, i ∈ freeIndicesFrom m.frameAllocation 0 ↔ m.frameAllocation[i]? = some false) ∧
    (freeIndicesFrom m.frameAllocation 0).Pairwise (· < ·) ∧
    (freeIndicesFrom m.frameAllocation 0).length = m.frameAllocation.count false ∧
    (m.frameAllocation.count false < N → allocatePaging m size = (false, m)) ∧
    (N ≤ m.frameAllocation.count false →
      (allocatePaging m size).1 = true ∧
      ((freeIndicesFrom m.frameAllocation 0).take N).length = N ∧
      (∀ j : Nat, (allocatePaging m size).2.frameAllocation[j]? =
        if j ∈ (freeIndicesFrom m.frameAllocation 0).take N then some true
        else m.frameAllocation[j]?) ∧
      (allocatePaging m size).2.pageTable =
        m.pageTable ++ [(m.nextProcessId, (freeIndicesFrom m.frameAllocation 0).take N)] ∧
      (∀ entry ∈ m.pageTable, entry.1 ≠ m.nextProcessId) ∧
      (allocatePaging m size).2.nextProcessId = m.nextProcessId + 1) := by
  obtain ⟨-, hp, -, -, -⟩ := geometry_reachable h
  obtain ⟨-, -, h3, -⟩ := ids_reachable h
  rw [hp] at hN1 hN2
  have hpages : (size + m.pageSize - 1).tdiv m.pageSize = (N : Int) := by
    rw [hp, Int.tdiv_eq_ediv (by omega) (by norm_num)]
    omega
  have hl : m.pageTable.lookup m.nextProcessId = none :=
    lookup_none_of_keys (fun entry he => by have := h3 entry he; omega)
  refine ⟨fun i => ?_, freeIndicesFrom_sorted _ _, freeIndicesFrom_length _ _, ?_, ?_⟩
  · rw [freeIndicesFrom_mem]
    simp
  · intro hlt
    unfold allocatePaging
    simp only [hpages]
    rw [if_pos (by exact_mod_cast hlt)]
  · intro hle
    have hnot : ¬ ((m.frameAllocation.count false : Nat) : Int) < (N : Int) := by
      exact_mod_cast Nat.not_lt.2 hle
    have hres : allocatePaging m size = (true, updateMemoryStats
        { m with
          frameAllocation := (claimFrames m.frameAllocation 0 N).1
          pageTable := pageTableAssign m.pageTable m.nextProcessId
            (claimFrames m.frameAllocation 0 N).2
          blocks := framesToBlocks (pageTableAssign m.pageTable m.nextProcessId
            (claimFrames m.frameAllocation 0 N).2) m.pageSize
            (claimFrames m.frameAllocation 0 N).1.length
          nextProcessId := m.nextProcessId + 1 }) := by
      unfold allocatePaging
      simp only [hpages, Int.toNat_ofNat]
      rw [if_neg hnot]
    rw [hres]
    refine ⟨rfl, ?_, ?_, ?_, fun entry he => by have := h3 entry he; omega, rfl⟩
    · rw [List.length_take, freeIndicesFrom_length]
      omega
    · intro j
      show (claimFrames m.frameAllocation 0 N).1[j]? = _
      rw [claimFrames_table, Nat.zero_add]
    · show pageTableAssign m.pageTable m.nextProcessId (claimFrames m.frameAllocation 0 N).2 = _
      rw [pageTableAssign_new _ hl, claimFrames_indices]

set_option maxRecDepth 100000 in
theorem pagedGap_reachable : Reachable pagedGap :=
  Reachable.deallocate 1
    (Reachable.allocate
      (Reachable.allocate Reachable.init
        (by rfl : allocate 0 MemoryManager.default 6 "paging" =
          some (true, (allocatePaging MemoryManager.default 6).2)))
      (by rfl : allocate 0 (allocatePaging MemoryManager.default 6).2 4 "paging" =
        some (true, (allocatePaging (allocatePaging MemoryManager.default 6).2 4).2)))

set_option maxRecDepth 100000 in
theorem paging_characterization_witness :
    pagedGap.pageTable = [(2, [2])] ∧
    pagedGap.frameAllocation.take 5 = [false, false, true, false, false] ∧
    (0 : Int) < 10 ∧ (10 : Int) ≤ (3 : Nat) * pagedGap.pageSize ∧
    (((3 : Nat) : Int) - 1) * pagedGap.pageSize < 10 ∧
    3 ≤ pagedGap.frameAllocation.count false ∧
    (allocatePaging pagedGap 10).2.pageTable = [(2, [2]), (3, [0, 1, 3])] ∧
    (allocatePaging pagedGap 10).2.frameAllocation.take 5 = [true, true, true, true, false] ∧
    ((allocatePaging pagedGap 10).1 = true ∧
      ((freeIndicesFrom pagedGap.frameAllocation 0).take 3).length = 3 ∧
      (∀ j : Nat, (allocatePaging pagedGap 10).2.frameAllocation[j]? =
        if j ∈ (freeIndicesFrom pagedGap.frameAllocation 0).take 3 then some true
        else pagedGap.frameAllocation[j]?) ∧
      (allocatePaging pagedGap 10).2.pageTable =
        pagedGap.pageTable ++
          [(pagedGap.nextProcessId, (freeIndicesFrom pagedGap.frameAllocation 0).take 3)] ∧
      (∀ entry ∈ pagedGap.pageTable, entry.1 ≠ pagedGap.nextProcessId) ∧
      (allocatePaging pagedGap 10).2.nextProcessId = pagedGap.nextProcessId + 1) :=
  ⟨by decide, by decide, by decide, by decide, by decide, by decide, by decide, by decide,
    (paging_characterization pagedGap pagedGap_reachable 10 (by decide) 3 (by decide)
      (by decide)).2.2.2.2 (by decide)⟩

/-! ## Queued ids are not in use -/

theorem takeFreePartition_forall (P : Int → Status → Prop) {blocks blocks1 : List MemoryBlock}
    {id : Int} (h : ∀ b ∈ blocks, P b.id b.status) (hnew : P id .allocated)
    (ht : takeFreePartition id blocks = some blocks1) : ∀ b ∈ blocks1, P b.id b.status := by
  induction blocks generalizing blocks1 with
  | nil => simp [takeFreePartition] at ht
  | cons a rest ih =>
    have hrest : ∀ b ∈ rest, P b.id b.status := fun b hb => h b (List.mem_cons_of_mem _ hb)
    simp only [takeFreePartition] at ht
    split at ht
    · cases ht
      intro b hb
      rcases List.mem_cons.1 hb with e | hb1
      · subst e; exact hnew
      · exact hrest b hb1
    · cases hr : takeFreePartition id rest with
      | none => simp [hr] at ht
      | some bs =>
        simp only [hr, Option.map_some', Option.some.injEq] at ht
        subst ht
        intro b hb
        rcases List.mem_cons.1 hb with e | hb1
        · subst e; exact h _ (List.mem_cons_self _ _)
        · exact ih hrest hr b hb1

theorem fixedPartitions_forall (P : Int → Status → Prop) (n : Nat) {id : Int}
    (hnew : P id .allocated) (hfree : P 0 .free) :
    ∀ b ∈ fixedPartitions n id, P b.id b.status := by
  intro b hb
  obtain ⟨i, -, rfl⟩ := List.mem_map.1 hb
  split
  · exact hnew
  · exact hfree

theorem splitLoop_forall (P : Int → Status → Prop) (n : Nat) (start blockSize allocSize : Int)
    (buddies : List MemoryBlock) (hfree : P 0 .free) (h : ∀ b ∈ buddies, P b.id b.status) :
    ∀ b ∈ (splitLoop n start blockSize allocSize buddies).2, P b.id b.status := by
  induction n generalizing blockSize buddies with
  | zero => exact h
  | succ n ih =>
    simp only [splitLoop]
    split
    · apply ih
      intro b hb
      rcases List.mem_cons.1 hb with e | hb1
      · subst e; exact hfree
      · exact h b hb1
    · exact h

theorem buddyPlaceAt_forall (P : Int → Status → Prop) {blocks : List MemoryBlock} (i : Nat)
    (allocSize : Int) {id : Int} (hnew : P id .allocated) (hfree : P 0 .free)
    (h : ∀ b ∈ blocks, P b.id b.status) :
    ∀ b ∈ buddyPlaceAt blocks i allocSize id, P b.id b.status := by
  induction blocks generalizing i with
  | nil => intro b hb; cases hb
  | cons a rest ih =>
    have hrest : ∀ b ∈ rest, P b.id b.status := fun b hb => h b (List.mem_cons_of_mem _ hb)
    cases i with
    | zero =>
      simp only [buddyPlaceAt]
      intro b hb
      rcases List.mem_cons.1 hb with e | hb1
      · subst e; exact hnew
      · rcases List.mem_append.1 hb1 with hb2 | hb2
        · exact splitLoop_forall P _ _ _ _ _ hfree (fun c hc => by cases hc) b hb2
        · exact hrest b hb2
    | succ j =>
      simp only [buddyPlaceAt]
      intro b hb
      rcases List.mem_cons.1 hb with e | hb1
      · subst e; exact h _ (List.mem_cons_self _ _)
      · exact ih j hrest b hb1

theorem buddyScanFrom_forall (P : Int → Status → Prop) {cur : MemoryBlock}
    {rest blocks1 : List MemoryBlock} (h : ∀ b ∈ cur :: rest, P b.id b.status)
    (hs : buddyScanFrom cur rest = .merged blocks1) : ∀ b ∈ blocks1, P b.id b.status := by
  induction rest generalizing cur blocks1 with
  | nil => simp [buddyScanFrom] at hs
  | cons nxt rest ih =>
    have hrec : ∀ bs, (match buddyScanFrom nxt rest with
        | .merged blocks => MergeScan.merged (cur :: blocks)
        | r => r) = .merged bs → ∀ b ∈ bs, P b.id b.status := by
      intro bs hbs
      cases hr : buddyScanFrom nxt rest with
      | divisionByZero => simp [hr] at hbs
      | unchanged => simp [hr] at hbs
      | merged bs1 =>
        simp only [hr, MergeScan.merged.injEq] at hbs
        subst hbs
        intro b hb
        rcases List.mem_cons.1 hb with e | hb1
        · subst e; exact h _ (List.mem_cons_self _ _)
        · exact ih (fun c hc => h c (List.mem_cons_of_mem _ hc)) hr b hb1
    simp only [buddyScanFrom] at hs
    split at hs
    · split at hs
      · cases hs
      · split at hs
        · simp only [MergeScan.merged.injEq] at hs
          subst hs
          intro b hb
          rcases List.mem_cons.1 hb with e | hb1
          · subst e; exact h cur (List.mem_cons_self _ _)
          · exact h b (List.mem_cons_of_mem _ (List.mem_cons_of_mem _ hb1))
        · exact hrec _ hs
    · exact hrec _ hs

theorem buddyMergeLoop_forall (P : Int → Status → Prop) (n : Nat)
    {blocks blocks1 : List MemoryBlock} (h : ∀ b ∈ blocks, P b.id b.status)
    (hs : buddyMergeLoop n blocks = some blocks1) : ∀ b ∈ blocks1, P b.id b.status := by
  induction n generalizing blocks with
  | zero =>
    simp only [buddyMergeLoop, Option.some.injEq] at hs
    subst hs; exact h
  | succ n ih =>
    simp only [buddyMergeLoop] at hs
    cases hb : buddyScan blocks with
    | divisionByZero => simp [hb] at hs
    | unchanged =>
      simp only [hb, Option.some.injEq] at hs
      subst hs; exact h
    | merged bs =>
      simp only [hb] at hs
      cases blocks with
      | nil => simp [buddyScan] at hb
      | cons b rest => exact ih (buddyScanFrom_forall P h hb) hs

theorem framesToBlocks_forall (P : Int → Status → Prop) {pageTable : List (Int × List Nat)}
    (pageSize : Int) (n : Nat) (hfree : P 0 .free)
    (h : ∀ entry ∈ pageTable, P entry.1 .allocated) :
    ∀ b ∈ framesToBlocks pageTable pageSize n, P b.id b.status := by
  intro b hb
  obtain ⟨i, -, rfl⟩ := List.mem_map.1 hb
  unfold frameBlock frameOwner
  cases hf : pageTable.find? (fun entry => entry.2.contains i) with
  | none => exact hfree
  | some entry => exact h entry (List.mem_of_find?_eq_some hf)

theorem freeOwned_forall (P : Int → Status → Prop) (processId : Int)
    {blocks : List MemoryBlock} (hfree : P 0 .free) (h : ∀ b ∈ blocks, P b.id b.status) :
    ∀ b ∈ freeOwned processId blocks, P b.id b.status := by
  intro b hb
  obtain ⟨c, hc, rfl⟩ := List.mem_map.1 hb
  split
  · exact hfree
  · exact h c hc

theorem notQueued_free (queue : List Process) (id : Int) : NotQueued queue id .free :=
  fun h => by cases h

theorem notQueued_new {queue : List Process} {id : Int} (status : Status)
    (h : ∀ p ∈ queue, p.id < id) : NotQueued queue id status :=
  fun _ p hp => by have := h p hp; omega

theorem apart_tryAllocate {m : MemoryManager} (h : QueueApart m) :
    QueueApart (tryAllocateWaitingProcesses m) := by
  obtain ⟨h1, h2, h3⟩ := h
  unfold tryAllocateWaitingProcesses
  split
  · exact ⟨h1, h2, h3⟩
  · rename_i p waiting hq
    split
    · rw [hq] at h1 h2 h3
      simp only [List.map_cons, List.nodup_cons, List.mem_map, not_exists, not_and] at h1
      refine ⟨h1.2, ?_, fun entry he q hq1 => h3 entry he q (List.mem_cons_of_mem _ hq1)⟩
      apply placeAt_forall (NotQueued waiting)
      · exact fun b hb hs q hq1 => h2 b hb hs q (List.mem_cons_of_mem _ hq1)
      · exact fun _ q hq1 he => h1.1 q hq1 he.symm
      · exact notQueued_free _ _
    · exact ⟨h1, h2, h3⟩

theorem apart_deallocate {m : MemoryManager} (h : QueueApart m) (processId : Int) :
    QueueApart (deallocateById m processId).2 := by
  obtain ⟨h1, h2, h3⟩ := h
  unfold deallocateById
  split
  · apply apart_tryAllocate (m := mergeAdjacentFreeBlocks _)
    have hk : ∀ entry ∈ m.pageTable.filter (fun entry => entry.1 ≠ processId),
        ∀ p ∈ m.processQueue, entry.1 ≠ p.id :=
      fun entry he => h3 entry (List.mem_filter.1 he).1
    refine ⟨h1, ?_, hk⟩
    apply mergeBlocks_forall (NotQueued m.processQueue)
    exact framesToBlocks_forall (NotQueued m.processQueue) _ _ (notQueued_free _ _)
      (fun entry he _ => hk entry he)
  · simp only
    split
    · apply apart_tryAllocate (m := mergeAdjacentFreeBlocks _)
      refine ⟨h1, ?_, h3⟩
      apply mergeBlocks_forall (NotQueued m.processQueue)
      exact freeOwned_forall (NotQueued m.processQueue) _ (notQueued_free _ _) h2
    · exact ⟨h1, freeOwned_forall (NotQueued m.processQueue) _ (notQueued_free _ _) h2, h3⟩

theorem apart_place {m : MemoryManager} (hi : IdsBelow m) (h : QueueApart m) (i : Nat)
    (size : Int) :
    QueueApart (updateMemoryStats
      { m with
        blocks := placeAt m.blocks i size m.nextProcessId
        nextProcessId := m.nextProcessId + 1 }) := by
  obtain ⟨h1, h2, h3⟩ := h
  refine ⟨h1, ?_, h3⟩
  exact placeAt_forall (NotQueued m.processQueue) _ _ _ h2 (notQueued_new _ hi.2.2.2)
    (notQueued_free _ _)

theorem apart_fixed {m : MemoryManager} (hi : IdsBelow m) (h : QueueApart m) (size : Int) :
    QueueApart (allocateFixedPartitioning m size).2 := by
  obtain ⟨h1, h2, h3⟩ := h
  unfold allocateFixedPartitioning
  split
  · exact ⟨h1, h2, h3⟩
  · split
    · rename_i bs hbs
      exact ⟨h1, takeFreePartition_forall (NotQueued m.processQueue) h2
        (notQueued_new _ hi.2.2.2) hbs, h3⟩
    · split
      · split
        · exact ⟨h1, fixedPartitions_forall (NotQueued m.processQueue) _
            (notQueued_new _ hi.2.2.2) (notQueued_free _ _), h3⟩
        · exact ⟨h1, h2, h3⟩
      · exact ⟨h1, h2, h3⟩

theorem apart_firstFit {m : MemoryManager} (hi : IdsBelow m) (h : QueueApart m) (size : Int) :
    QueueApart (allocateFirstFit m size).2 := by
  unfold allocateFirstFit
  split
  · exact apart_place hi h _ _
  · exact h

theorem apart_bestFit {m : MemoryManager} (hi : IdsBelow m) (h : QueueApart m) (size : Int) :
    QueueApart (allocateBestFit m size).2 := by
  unfold allocateBestFit
  split
  · exact apart_place hi h _ _
  · exact h

theorem apart_worstFit {m : MemoryManager} (hi : IdsBelow m) (h : QueueApart m) (size : Int) :
    QueueApart (allocateWorstFit m size).2 := by
  unfold allocateWorstFit
  split
  · exact apart_place hi h _ _
  · exact h

theorem pageTableAssign_forall (P : Int → Prop) {pageTable : List (Int × List Nat)}
    {key : Int} (frames : List Nat) (hk : P key) (h : ∀ entry ∈ pageTable, P entry.1) :
    ∀ entry ∈ pageTableAssign pageTable key frames, P entry.1 := by
  unfold pageTableAssign
  split
  · intro entry he
    obtain ⟨e0, he0, rfl⟩ := List.mem_map.1 he
    split
    · exact hk
    · exact h e0 he0
  · intro entry he
    rcases List.mem_append.1 he with h1 | h1
    · exact h entry h1
    · simp only [List.mem_singleton] at h1
      subst h1; exact hk

theorem apart_paging {m : MemoryManager} (hi : IdsBelow m) (h : QueueApart m) (size : Int) :
    QueueApart (allocatePaging m size).2 := by
  obtain ⟨h1, h2, h3⟩ := h
  unfold allocatePaging
  simp only
  split
  · exact ⟨h1, h2, h3⟩
  · have hk := pageTableAssign_forall (fun i => ∀ p ∈ m.processQueue, i ≠ p.id)
      (claimFrames m.frameAllocation 0 ((size + m.pageSize - 1).tdiv m.pageSize).toNat).2
      (show ∀ p ∈ m.processQueue, m.nextProcessId ≠ p.id from
        fun p hp => by have := hi.2.2.2 p hp; omega) h3
    refine ⟨h1, ?_, hk⟩
    exact framesToBlocks_forall (NotQueued m.processQueue) _ _ (notQueued_free _ _)
      (fun entry he _ => hk entry he)

theorem apart_segmentation {m : MemoryManager} (hi : IdsBelow m) (h : QueueApart m)
    (size : Int) : QueueApart (allocateSegmentation m size).2 := by
  obtain ⟨h1, h2, h3⟩ := h
  have hb : ∀ b ∈ (placeSegment (placeSegment (placeSegment m.blocks (size.tdiv 3)
      m.nextProcessId).2 (size.tdiv 3) m.nextProcessId).2
      (size - size.tdiv 3 - size.tdiv 3) m.nextProcessId).2,
      NotQueued m.processQueue b.id b.status := by
    apply placeSegment_forall (NotQueued m.processQueue) _ _ _
      (notQueued_new _ hi.2.2.2) (notQueued_free _ _)
    apply placeSegment_forall (NotQueued m.processQueue) _ _ _
      (notQueued_new _ hi.2.2.2) (notQueued_free _ _)
    apply placeSegment_forall (NotQueued m.processQueue) _ _ _
      (notQueued_new _ hi.2.2.2) (notQueued_free _ _)
    exact h2
  unfold allocateSegmentation
  simp only
  split
  · exact ⟨h1, hb, h3⟩
  · split
    · exact apart_deallocate (m := { m with blocks := (placeSegment (placeSegment
        (placeSegment m.blocks (size.tdiv 3) m.nextProcessId).2 (size.tdiv 3)
        m.nextProcessId).2 (size - size.tdiv 3 - size.tdiv 3) m.nextProcessId).2 })
        ⟨h1, hb, h3⟩ _
    · exact ⟨h1, hb, h3⟩

theorem apart_buddy {fuel : Nat} {m m1 : MemoryManager} {size : Int} {r : Bool}
    (hi : IdsBelow m) (h : QueueApart m)
    (hr : allocateBuddySystem fuel m size = some (r, m1)) : QueueApart m1 := by
  induction fuel generalizing m with
  | zero => simp [allocateBuddySystem] at hr
  | succ fuel ih =>
    obtain ⟨h1, h2, h3⟩ := h
    simp only [allocateBuddySystem] at hr
    split at hr
    · simp only [Option.some.injEq, Prod.mk.injEq] at hr
      rw [← hr.2]
      exact ⟨h1, buddyPlaceAt_forall (NotQueued m.processQueue) _ _
        (notQueued_new _ hi.2.2.2) (notQueued_free _ _) h2, h3⟩
    · split at hr
      · cases hr
      · rename_i bs hbs
        exact ih (m := { m with blocks := bs })
          ⟨hi.1, buddyMergeLoop_ids _ hi.2.1 hbs, hi.2.2.1, hi.2.2.2⟩
          ⟨h1, buddyMergeLoop_forall (NotQueued m.processQueue) _ h2 hbs, h3⟩ hr

theorem apart_runStrategy {fuel : Nat} {m : MemoryManager} {size : Int} {algorithm : String}
    {r : Bool} {m1 : MemoryManager} (hi : IdsBelow m) (h : QueueApart m)
    (hr : runStrategy fuel m size algorithm = some (r, m1)) : QueueApart m1 := by
  rcases runStrategy_cases hr with e | e | e | e | e | ⟨-, e⟩ | e
  · have := apart_fixed hi h size; rwa [e] at this
  · have := apart_firstFit hi h size; rwa [e] at this
  · have := apart_bestFit hi h size; rwa [e] at this
  · have := apart_worstFit hi h size; rwa [e] at this
  · have := apart_paging hi h size; rwa [e] at this
  · have := apart_segmentation hi h size; rwa [e] at this
  · exact apart_buddy hi h e

theorem apart_enqueue {m : MemoryManager} (size : Int) (r : Bool) (hi : IdsBelow m)
    (h : QueueApart m) : QueueApart (enqueueIfFailed size (r, m)).2 := by
  obtain ⟨h1, h2, h3⟩ := h
  obtain ⟨-, i2, i3, i4⟩ := hi
  unfold enqueueIfFailed
  split
  · refine ⟨?_, ?_, ?_⟩
    · show ((m.processQueue ++ [(⟨m.nextProcessId, size⟩ : Process)]).map (·.id)).Nodup
      rw [List.map_append, List.nodup_append]
      refine ⟨h1, by simp, ?_⟩
      intro a ha hb
      simp only [List.map_cons, List.map_nil, List.mem_singleton] at hb
      obtain ⟨p, hp, rfl⟩ := List.mem_map.1 ha
      have := i4 p hp
      omega
    · intro b hb hs p hp
      rcases List.mem_append.1 hp with hp1 | hp1
      · exact h2 b hb hs p hp1
      · simp only [List.mem_singleton] at hp1
        subst hp1
        have := i2 b hb
        show b.id ≠ m.nextProcessId
        omega
    · intro entry he p hp
      rcases List.mem_append.1 hp with hp1 | hp1
      · exact h3 entry he p hp1
      · simp only [List.mem_singleton] at hp1
        subst hp1
        have := i3 entry he
        show entry.1 ≠ m.nextProcessId
        omega
  · exact ⟨h1, h2, h3⟩

theorem apart_allocate {fuel : Nat} {m : MemoryManager} {size : Int} {algorithm : String}
    {r : Bool} {m1 : MemoryManager} (hi : IdsBelow m) (h : QueueApart m)
    (ha : allocate fuel m size algorithm = some (r, m1)) : QueueApart m1 := by
  rcases allocate_cases ha with ⟨-, -, e⟩ | ⟨hs, -, r0, m0, hrun, e⟩
  · rw [e]; exact h
  · have h0 := apart_runStrategy hi h hrun
    have i0 := ids_runStrategy hi (by omega : 0 ≤ size) hrun
    have h1 := apart_enqueue size r0 i0 h0
    rw [← e] at h1
    exact h1

theorem apart_reachable {m : MemoryManager} (h : Reachable m) : QueueApart m := by
  induction h with
  | init =>
    refine ⟨List.nodup_nil, ?_, ?_⟩
    · intro b _ _ p hp; cases hp
    · intro entry he; cases he
  | allocate hreach ha ih => exact apart_allocate (ids_reachable hreach) ih ha
  | deallocate pid _ ih => exact apart_deallocate ih pid

/-! ## Deallocation frees every block of the owner -/

theorem tryAllocate_forall (P : Int → Status → Prop) {m : MemoryManager}
    (h : ∀ b ∈ m.blocks, P b.id b.status) (hfree : P 0 .free)
    (hq : ∀ p ∈ m.processQueue, P p.id .allocated) :
    ∀ b ∈ (tryAllocateWaitingProcesses m).blocks, P b.id b.status := by
  unfold tryAllocateWaitingProcesses
  split
  · exact h
  · rename_i p waiting hpw
    split
    · exact placeAt_forall P _ _ _ h (hq p (by rw [hpw]; exact List.mem_cons_self _ _)) hfree
    · exact h

/-- C12: in every reachable state, for every owner id that is not a key of the
page table and owns at least one allocated block, `deallocateById` reports found
and afterwards no block is allocated to that id, however many it owned. -/
theorem deallocate_frees_every_block (m : MemoryManager) (h : Reachable m) (processId : Int)
    (hpage : ∀ entry ∈ m.pageTable, entry.1 ≠ processId)
    (hown : ∃ b ∈ m.blocks, b.status = .allocated ∧ b.id = processId) :
    (deallocateById m processId).1 = true ∧
      ∀ b ∈ (deallocateById m processId).2.blocks,
        ¬ (b.status = .allocated ∧ b.id = processId) := by
  have hl := lookup_none_of_keys hpage
  have ho := ownsBlock_iff.2 hown
  obtain ⟨-, ha, -⟩ := apart_reachable h
  obtain ⟨b0, hb0, hs0, hid0⟩ := hown
  rw [deallocate_owned hl ho]
  refine ⟨rfl, ?_⟩
  show ∀ b ∈ (tryAllocateWaitingProcesses (mergeAdjacentFreeBlocks
      { m with blocks := freeOwned processId m.blocks })).blocks,
      ¬ (b.status = .allocated ∧ b.id = processId)
  apply tryAllocate_forall (fun i s => ¬ (s = .allocated ∧ i = processId))
  · apply mergeBlocks_forall (fun i s => ¬ (s = .allocated ∧ i = processId))
    intro b hb
    obtain ⟨c, hc, rfl⟩ := List.mem_map.1 hb
    split
    · exact fun hh => by cases hh.1
    · assumption
  · exact fun hh => by cases hh.1
  · intro p hp hh
    have := ha b0 hb0 hs0 p hp
    rw [hid0] at this
    exact this hh.2.symm

theorem deallocate_frees_every_block_witness :
    Reachable segmented ∧
    (segmented.blocks.filter (fun b => decide (b.status = .allocated ∧ b.id = 1))).length = 3 ∧
    (deallocateById segmented 1).2.blocks = [⟨0, 0, 1024, .free⟩] ∧
    (deallocateById segmented 1).1 = true ∧
    ∀ b ∈ (deallocateById segmented 1).2.blocks, ¬ (b.status = .allocated ∧ b.id = 1) :=
  have hr : Reachable segmented :=
    Reachable.allocate Reachable.init
      (by rfl : allocate 0 MemoryManager.default 9 "segmentation" = some (true, segmented))
  ⟨hr, by decide, by decide,
    deallocate_frees_every_block segmented hr 1 (by decide)
      ⟨⟨1, 0, 3, .allocated⟩, by decide, rfl, rfl⟩⟩

/-! ## Page table and frame table agree -/

theorem releaseFrames_occupied (frames : List Nat) (table : List Bool) (j : Nat) :
    (frames.foldl (fun fa f => fa.set f false) table)[j]? = some true ↔
      j ∉ frames ∧ table[j]? = some true := by
  induction frames generalizing table with
  | nil => simp
  | cons f rest ih =>
    rw [List.foldl_cons, ih, List.getElem?_set]
    by_cases hfj : f = j
    · subst hfj
      simp only [if_true, List.mem_cons, true_or, not_true_eq_false, false_and, iff_false,
        not_and]
      intro _
      split <;> simp
    · simp only [if_neg hfj, List.mem_cons, not_or]
      constructor
      · intro h; exact ⟨⟨fun e => hfj e.symm, h.1⟩, h.2⟩
      · intro h; exact ⟨h.1.2, h.2⟩

theorem lookup_some_mem {pageTable : List (Int × List Nat)} {key : Int} {frames : List Nat}
    (h : pageTable.lookup key = some frames) : (key, frames) ∈ pageTable := by
  obtain ⟨l1, l2, e, -⟩ := List.lookup_eq_some_iff.1 h
  rw [e]
  simp

theorem paging_release {pageTable : List (Int × List Nat)} {frameAllocation : List Bool}
    {processId : Int} {frames : List Nat} (h : PagingConsistent pageTable frameAllocation)
    (hl : pageTable.lookup processId = some frames) :
    PagingConsistent (pageTable.filter (fun entry => entry.1 ≠ processId))
      (frames.foldl (fun fa f => fa.set f false) frameAllocation) := by
  obtain ⟨h1, h2, h3, h4⟩ := h
  have hmem := lookup_some_mem hl
  have hsym : Symmetric (fun e1 e2 : Int × List Nat => ∀ i ∈ e1.2, i ∉ e2.2) :=
    fun e1 e2 hd i hi hj => hd i hj hi
  refine ⟨(List.filter_sublist _).map _ |>.nodup h1,
    fun entry he => h2 entry (List.mem_filter.1 he).1, h3.filter _, fun i => ?_⟩
  rw [releaseFrames_occupied, h4]
  constructor
  · rintro ⟨hni, entry, he, hi⟩
    refine ⟨entry, List.mem_filter.2 ⟨he, ?_⟩, hi⟩
    simp only [ne_eq, decide_eq_true_eq]
    intro hk
    have heq : entry = (processId, frames) :=
      List.inj_on_of_nodup_map h1 he hmem hk
    rw [heq] at hi
    exact hni hi
  · rintro ⟨entry, he, hi⟩
    obtain ⟨he1, he2⟩ := List.mem_filter.1 he
    simp only [ne_eq, decide_eq_true_eq] at he2
    refine ⟨fun hfi => ?_, entry, he1, hi⟩
    have hne : entry ≠ (processId, frames) := fun e => he2 (by rw [e])
    exact h3.forall hsym he1 hmem hne i hi hfi

theorem paging_claim {pageTable : List (Int × List Nat)} {frameAllocation : List Bool}
    {key : Int} (need : Nat) (h : PagingConsistent pageTable frameAllocation)
    (hk : ∀ entry ∈ pageTable, entry.1 ≠ key) :
    PagingConsistent
      (pageTableAssign pageTable key (claimFrames frameAllocation 0 need).2)
      (claimFrames frameAllocation 0 need).1 := by
  obtain ⟨h1, h2, h3, h4⟩ := h
  rw [pageTableAssign_new _ (lookup_none_of_keys hk), claimFrames_indices]
  have hfree : ∀ i ∈ (freeIndicesFrom frameAllocation 0).take need,
      frameAllocation[i]? = some false := by
    intro i hi
    have := (freeIndicesFrom_mem.1 (List.mem_of_mem_take hi)).2
    simpa using this
  have hnd : ((freeIndicesFrom frameAllocation 0).take need).Nodup :=
    ((freeIndicesFrom_sorted frameAllocation 0).sublist (List.take_sublist _ _)).imp
      (fun hlt => Nat.ne_of_lt hlt)
  refine ⟨?_, ?_, ?_, fun i => ?_⟩
  · rw [List.map_append, List.nodup_append]
    refine ⟨h1, by simp, ?_⟩
    intro a ha hb
    simp only [List.map_cons, List.map_nil, List.mem_singleton] at hb
    obtain ⟨entry, he, rfl⟩ := List.mem_map.1 ha
    exact hk entry he hb
  · intro entry he
    rcases List.mem_append.1 he with he1 | he1
    · exact h2 entry he1
    · simp only [List.mem_singleton] at he1
      subst he1; exact hnd
  · rw [List.pairwise_append]
    refine ⟨h3, List.pairwise_singleton _ _, ?_⟩
    intro e1 he1 e2 he2 i hi hj
    simp only [List.mem_singleton] at he2
    subst he2
    have ht := (h4 i).2 ⟨e1, he1, hi⟩
    rw [hfree i hj] at ht
    cases ht
  · have ht := claimFrames_table frameAllocation 0 need i
    rw [Nat.zero_add] at ht
    rw [ht]
    constructor
    · intro hh
      split at hh
      · rename_i hc
        exact ⟨_, List.mem_append.2 (Or.inr (List.mem_singleton.2 rfl)), hc⟩
      · obtain ⟨entry, he, hi⟩ := (h4 i).1 hh
        exact ⟨entry, List.mem_append.2 (Or.inl he), hi⟩
    · rintro ⟨entry, he, hi⟩
      rcases List.mem_append.1 he with he1 | he1
      · have ht2 := (h4 i).2 ⟨entry, he1, hi⟩
        split
        · rfl
        · exact ht2
      · simp only [List.mem_singleton] at he1
        subst he1
        rw [if_pos hi]

theorem tryAllocate_paging_fields (m : MemoryManager) :
    (tryAllocateWaitingProcesses m).pageTable = m.pageTable ∧
      (tryAllocateWaitingProcesses m).frameAllocation = m.frameAllocation := by
  unfold tryAllocateWaitingProcesses
  split
  · exact ⟨rfl, rfl⟩
  · split <;> exact ⟨rfl, rfl⟩

theorem paging_deallocate {m : MemoryManager}
    (h : PagingConsistent m.pageTable m.frameAllocation) (processId : Int) :
    PagingConsistent (deallocateById m processId).2.pageTable
      (deallocateById m processId).2.frameAllocation := by
  unfold deallocateById
  split
  · rename_i frames hl
    have hf := tryAllocate_paging_fields (mergeAdjacentFreeBlocks
      { m with
        frameAllocation := frames.foldl (fun fa f => fa.set f false) m.frameAllocation
        pageTable := m.pageTable.filter (fun entry => entry.1 ≠ processId)
        blocks := framesToBlocks (m.pageTable.filter (fun entry => entry.1 ≠ processId))
          m.pageSize (frames.foldl (fun fa f => fa.set f false) m.frameAllocation).length })
    show PagingConsistent (tryAllocateWaitingProcesses _).pageTable
      (tryAllocateWaitingProcesses _).frameAllocation
    rw [hf.1, hf.2]
    exact paging_release h hl
  · simp only
    split
    · have hf := tryAllocate_paging_fields (mergeAdjacentFreeBlocks
        { m with blocks := freeOwned processId m.blocks })
      show PagingConsistent (tryAllocateWaitingProcesses _).pageTable
        (tryAllocateWaitingProcesses _).frameAllocation
      rw [hf.1, hf.2]
      exact h
    · exact h

theorem paging_fixed {m : MemoryManager} (size : Int) :
    (allocateFixedPartitioning m size).2.pageTable = m.pageTable ∧
      (allocateFixedPartitioning m size).2.frameAllocation = m.frameAllocation := by
  unfold allocateFixedPartitioning
  split
  · exact ⟨rfl, rfl⟩
  · split
    · exact ⟨rfl, rfl⟩
    · split
      · split <;> exact ⟨rfl, rfl⟩
      · exact ⟨rfl, rfl⟩

theorem paging_firstFit {m : MemoryManager} (size : Int) :
    (allocateFirstFit m size).2.pageTable = m.pageTable ∧
      (allocateFirstFit m size).2.frameAllocation = m.frameAllocation := by
  unfold allocateFirstFit
  split <;> exact ⟨rfl, rfl⟩

theorem paging_bestFit {m : MemoryManager} (size : Int) :
    (allocateBestFit m size).2.pageTable = m.pageTable ∧
      (allocateBestFit m size).2.frameAllocation = m.frameAllocation := by
  unfold allocateBestFit
  split <;> exact ⟨rfl, rfl⟩

theorem paging_worstFit {m : MemoryManager} (size : Int) :
    (allocateWorstFit m size).2.pageTable = m.pageTable ∧
      (allocateWorstFit m size).2.frameAllocation = m.frameAllocation := by
  unfold allocateWorstFit
  split <;> exact ⟨rfl, rfl⟩

theorem paging_buddy {fuel : Nat} {m m1 : MemoryManager} {size : Int} {r : Bool}
    (hr : allocateBuddySystem fuel m size = some (r, m1)) :
    m1.pageTable = m.pageTable ∧ m1.frameAllocation = m.frameAllocation := by
  induction fuel generalizing m with
  | zero => simp [allocateBuddySystem] at hr
  | succ fuel ih =>
    simp only [allocateBuddySystem] at hr
    split at hr
    · simp only [Option.some.injEq, Prod.mk.injEq] at hr
      rw [← hr.2]
      exact ⟨rfl, rfl⟩
    · split at hr
      · cases hr
      · rename_i bs hbs
        exact ih (m := { m with blocks := bs }) hr

theorem paging_paging {m : MemoryManager} (hi : IdsBelow m)
    (h : PagingConsistent m.pageTable m.frameAllocation) (size : Int) :
    PagingConsistent (allocatePaging m size).2.pageTable
      (allocatePaging m size).2.frameAllocation := by
  unfold allocatePaging
  simp only
  split
  · exact h
  · exact paging_claim _ h (fun entry he => by have := hi.2.2.1 entry he; omega)

theorem paging_segmentation {m : MemoryManager}
    (h : PagingConsistent m.pageTable m.frameAllocation) (size : Int) :
    PagingConsistent (allocateSegmentation m size).2.pageTable
      (allocateSegmentation m size).2.frameAllocation := by
  unfold allocateSegmentation
  simp only
  split
  · exact h
  · split
    · exact paging_deallocate (m := { m with blocks := (placeSegment (placeSegment
        (placeSegment m.blocks (size.tdiv 3) m.nextProcessId).2 (size.tdiv 3)
        m.nextProcessId).2 (size - size.tdiv 3 - size.tdiv 3) m.nextProcessId).2 }) h _
    · exact h

theorem paging_runStrategy {fuel : Nat} {m : MemoryManager} {size : Int} {algorithm : String}
    {r : Bool} {m1 : MemoryManager} (hi : IdsBelow m)
    (h : PagingConsistent m.pageTable m.frameAllocation)
    (hr : runStrategy fuel m size algorithm = some (r, m1)) :
    PagingConsistent m1.pageTable m1.frameAllocation := by
  rcases runStrategy_cases hr with e | e | e | e | e | ⟨-, e⟩ | e
  · have := paging_fixed (m := m) size; rw [e] at this; rw [this.1, this.2]; exact h
  · have := paging_firstFit (m := m) size; rw [e] at this; rw [this.1, this.2]; exact h
  · have := paging_bestFit (m := m) size; rw [e] at this; rw [this.1, this.2]; exact h
  · have := paging_worstFit (m := m) size; rw [e] at this; rw [this.1, this.2]; exact h
  · have := paging_paging hi h size; rwa [e] at this
  · have := paging_segmentation h size; rwa [e] at this
  · have := paging_buddy e; rw [this.1, this.2]; exact h

theorem paging_allocate {fuel : Nat} {m : MemoryManager} {size : Int} {algorithm : String}
    {r : Bool} {m1 : MemoryManager} (hi : IdsBelow m)
    (h : PagingConsistent m.pageTable m.frameAllocation)
    (ha : allocate fuel m size algorithm = some (r, m1)) :
    PagingConsistent m1.pageTable m1.frameAllocation := by
  rcases allocate_cases ha with ⟨-, -, e⟩ | ⟨-, -, r0, m0, hrun, e⟩
  · rw [e]; exact h
  · have h0 := paging_runStrategy hi h hrun
    have e1 : m1.pageTable = m0.pageTable ∧ m1.frameAllocation = m0.frameAllocation := by
      have e2 : m1 = (enqueueIfFailed size (r0, m0)).2 := congrArg Prod.snd e
      rw [e2]
      unfold enqueueIfFailed
      split <;> exact ⟨rfl, rfl⟩
    rw [e1.1, e1.2]
    exact h0

theorem paging_reachable {m : MemoryManager} (h : Reachable m) :
    PagingConsistent m.pageTable m.frameAllocation := by
  induction h with
  | init =>
    refine ⟨List.nodup_nil, fun entry he => (by cases he), List.Pairwise.nil, fun i => ?_⟩
    constructor
    · intro hh
      have : (List.replicate 256 false)[i]? = some true := hh
      rw [List.getElem?_replicate] at this
      split at this <;> simp at this
    · rintro ⟨entry, he, -⟩
      cases he
  | allocate hreach ha ih => exact paging_allocate (ids_reachable hreach) ih ha
  | deallocate pid _ ih => exact paging_deallocate ih pid

/-- C22: in every state reachable from the initial state of the default manager
by `allocate` and `deallocateById` calls, a frame index that two page-table
entries list is listed by one and the same entry (so by one owner), no entry
lists a frame twice, the owners of the entries are pairwise distinct, and a
frame is marked occupied in the frame table if and only if some page-table entry
lists it. -/
theorem frames_consistent (m : MemoryManager) (h : Reachable m) :
    (∀ e1 ∈ m.pageTable, ∀ e2 ∈ m.pageTable, ∀ i : Nat, i ∈ e1.2 → i ∈ e2.2 →
      e1 = e2 ∧ e1.1 = e2.1) ∧
    (∀ entry ∈ m.pageTable, entry.2.Nodup) ∧
    (m.pageTable.map (·.1)).Nodup ∧
    (∀ i : Nat, m.frameAllocation[i]? = some true ↔ ∃ entry ∈ m.pageTable, i ∈ entry.2) := by
  obtain ⟨h1, h2, h3, h4⟩ := paging_reachable h
  have hsym : Symmetric (fun e1 e2 : Int × List Nat => ∀ i ∈ e1.2, i ∉ e2.2) :=
    fun e1 e2 hd i hi hj => hd i hj hi
  refine ⟨?_, h2, h1, h4⟩
  intro e1 he1 e2 he2 i hi1 hi2
  by_cases he : e1 = e2
  · exact ⟨he, by rw [he]⟩
  · exact absurd hi2 (h3.forall hsym he1 he2 he i hi1)

set_option maxRecDepth 100000 in
theorem pagedTwo_reachable : Reachable pagedTwo :=
  Reachable.allocate
    (Reachable.allocate Reachable.init
      (by rfl : allocate 0 MemoryManager.default 6 "paging" =
        some (true, (allocatePaging MemoryManager.default 6).2)))
    (by rfl : allocate 0 (allocatePaging MemoryManager.default 6).2 4 "paging" =
      some (true, pagedTwo))

set_option maxRecDepth 100000 in
theorem frames_consistent_witness :
    pagedTwo.pageTable = [(1, [0, 1]), (2, [2])] ∧
    pagedTwo.frameAllocation.take 4 = [true, true, true, false] ∧
    (∀ e1 ∈ pagedTwo.pageTable, ∀ e2 ∈ pagedTwo.pageTable, ∀ i : Nat, i ∈ e1.2 → i ∈ e2.2 →
      e1 = e2 ∧ e1.1 = e2.1) ∧
    (∀ entry ∈ pagedTwo.pageTable, entry.2.Nodup) ∧
    (pagedTwo.pageTable.map (·.1)).Nodup ∧
    (∀ i : Nat, pagedTwo.frameAllocation[i]? = some true ↔
      ∃ entry ∈ pagedTwo.pageTable, i ∈ entry.2) :=
  ⟨by decide, by decide, frames_consistent pagedTwo pagedTwo_reachable⟩

/-! ## The block view after a paging allocation -/

theorem frameOwner_of_mem {pageTable : List (Int × List Nat)} {entry : Int × List Nat}
    {i : Nat} (hd : pageTable.Pairwise (fun e1 e2 => ∀ i ∈ e1.2, i ∉ e2.2))
    (he : entry ∈ pageTable) (hi : i ∈ entry.2) : frameOwner pageTable i = some entry.1 := by
  have hsym : Symmetric (fun e1 e2 : Int × List Nat => ∀ i ∈ e1.2, i ∉ e2.2) :=
    fun e1 e2 hd i hi hj => hd i hj hi
  unfold frameOwner
  cases hf : pageTable.find? (fun e => e.2.contains i) with
  | none =>
    have := List.find?_eq_none.1 hf entry he
    simp [hi] at this
  | some e =>
    have hmem := List.mem_of_find?_eq_some hf
    have hc : i ∈ e.2 := by
      have := List.find?_some hf
      simpa using this
    by_cases hee : e = entry
    · rw [hee]; rfl
    · exact absurd hi (hd.forall hsym hmem he hee i hc)

theorem frameOwner_of_free {pageTable : List (Int × List Nat)} {i : Nat}
    (h : ∀ entry ∈ pageTable, i ∉ entry.2) : frameOwner pageTable i = none := by
  unfold frameOwner
  have : pageTable.find? (fun e => e.2.contains i) = none := by
    rw [List.find?_eq_none]
    intro e he
    simpa using h e he
  rw [this]; rfl

theorem framesToBlocks_get (pageTable : List (Int × List Nat)) (pageSize : Int) {n i : Nat}
    (h : i < n) : (framesToBlocks pageTable pageSize n)[i]? =
      some (frameBlock pageTable pageSize i) := by
  unfold framesToBlocks
  rw [List.getElem?_map, List.getElem?_range h]
  rfl

theorem deallocate_not_owner {m : MemoryManager} {processId : Int}
    (hpage : ∀ entry ∈ m.pageTable, entry.1 ≠ processId)
    (hblock : ∀ b ∈ m.blocks, b.status = .allocated → b.id ≠ processId) :
    deallocateById m processId = (false, m) := by
  unfold deallocateById
  rw [lookup_none_of_keys hpage]
  simp only [ownsBlock_of_not_owner hblock, freeOwned_of_not_owner hblock]
  rfl

/-- A successful call of `allocatePaging`: the state it returns. -/
theorem paging_success {m : MemoryManager} {size : Int}
    (h : (allocatePaging m size).1 = true) :
    (allocatePaging m size).2.pageTable = pageTableAssign m.pageTable m.nextProcessId
      (claimFrames m.frameAllocation 0
        ((size + m.pageSize - 1).tdiv m.pageSize).toNat).2 ∧
    (allocatePaging m size).2.blocks = framesToBlocks (allocatePaging m size).2.pageTable
      m.pageSize m.frameAllocation.length ∧
    (allocatePaging m size).2.pageSize = m.pageSize ∧
    (allocatePaging m size).2.totalMemory = m.totalMemory := by
  unfold allocatePaging at h ⊢
  simp only at h ⊢
  split
  · rename_i hlt
    rw [if_pos hlt] at h
    cases h
  · refine ⟨rfl, ?_, rfl, rfl⟩
    show framesToBlocks _ m.pageSize (claimFrames m.frameAllocation 0 _).1.length = _
    rw [claimFrames_length]
    rfl

/-- C21: after a successful paging allocation in a reachable state, whatever
the blocks were before, the block list has exactly `capacity / frameSize`
blocks; block `i` starts at `i * frameSize` and has size `frameSize`; it is
allocated to owner `p` when frame `i` is listed in `p`'s page-table entry and is
free with no owner when no entry lists it.  An owner of an allocated block of
the old layout that is not a page-table key owns no block afterwards, and
deallocating it reports not-found and changes nothing. -/
theorem paging_rebuilds_blocks (m : MemoryManager) (h : Reachable m) (fuel : Nat)
    (size : Int) (m1 : MemoryManager)
    (ha : allocate fuel m size "paging" = some (true, m1)) :
    (m1.blocks.length : Int) = m1.totalMemory.tdiv m1.pageSize ∧
    m1.blocks.length = 256 ∧
    (∀ i : Nat, i < m1.blocks.length →
      (∃ b, m1.blocks[i]? = some b ∧ b.start = i * m1.pageSize ∧ b.size = m1.pageSize) ∧
      (∀ entry ∈ m1.pageTable, i ∈ entry.2 →
        m1.blocks[i]? = some ⟨entry.1, i * m1.pageSize, m1.pageSize, .allocated⟩) ∧
      ((∀ entry ∈ m1.pageTable, i ∉ entry.2) →
        m1.blocks[i]? = some ⟨0, i * m1.pageSize, m1.pageSize, .free⟩)) ∧
    (∀ b ∈ m.blocks, b.status = .allocated → (∀ entry ∈ m.pageTable, entry.1 ≠ b.id) →
      (∀ c ∈ m1.blocks, ¬ (c.status = .allocated ∧ c.id = b.id)) ∧
        deallocateById m1 b.id = (false, m1)) := by
  have hreach1 : Reachable m1 := Reachable.allocate h ha
  obtain ⟨-, -, hdis, -⟩ := paging_reachable hreach1
  obtain ⟨ht, hp, hlen, -, -⟩ := geometry_reachable h
  obtain ⟨-, hb2, -, -⟩ := ids_reachable h
  rcases allocate_cases ha with ⟨-, hf, -⟩ | ⟨-, -, r0, m0, hrun, e⟩
  · cases hf
  have hr : runStrategy fuel m size "paging" = some (allocatePaging m size) := by
    simp [runStrategy]
  rw [hr] at hrun
  have e0 : allocatePaging m size = (r0, m0) := Option.some.inj hrun
  have hr0 : r0 = true := by
    cases r0
    · have := congrArg Prod.fst e
      simp [enqueueIfFailed] at this
    · rfl
  subst hr0
  have em : m1 = m0 := by
    have := congrArg Prod.snd e
    simpa [enqueueIfFailed] using this
  have hs1 : (allocatePaging m size).1 = true := by rw [e0]
  obtain ⟨hpt, hbl, hps, htot⟩ := paging_success hs1
  rw [e0] at hpt hbl hps htot
  simp only at hpt hbl hps htot
  rw [← em] at hpt hbl hps htot
  rw [hlen, hp] at hbl
  rw [hp] at hps
  rw [ht] at htot
  have hlen1 : m1.blocks.length = 256 := by
    rw [hbl]
    simp [framesToBlocks]
  refine ⟨by rw [hlen1, htot, hps]; decide, hlen1, ?_, ?_⟩
  · intro i hi
    rw [hlen1] at hi
    have hget := framesToBlocks_get m1.pageTable 4 hi
    rw [← hbl] at hget
    refine ⟨⟨_, hget, ?_, ?_⟩, ?_, ?_⟩
    · rw [hps]; unfold frameBlock; split <;> rfl
    · rw [hps]; unfold frameBlock; split <;> rfl
    · intro entry he hie
      rw [hget, hps]
      simp only [frameBlock, frameOwner_of_mem hdis he hie]
    · intro hfree
      rw [hget, hps]
      simp only [frameBlock, frameOwner_of_free hfree]
  · intro b hb hs hnk
    have hblt := hb2 b hb
    have hnot : ∀ c ∈ m1.blocks, c.status = .allocated → c.id ≠ b.id := by
      rw [hbl]
      apply framesToBlocks_forall (fun i s => s = .allocated → i ≠ b.id) 4 256
      · intro hh; cases hh
      · intro entry he _
        rw [hpt] at he
        exact pageTableAssign_forall (fun i => i ≠ b.id) _ (by omega)
          (fun e0 he0 => hnk e0 he0) entry he
    refine ⟨fun c hc hh => hnot c hc hh.1 hh.2, deallocate_not_owner ?_ hnot⟩
    intro entry he
    rw [hpt] at he
    exact pageTableAssign_forall (fun i => i ≠ b.id) _ (by omega)
      (fun e0 he0 => hnk e0 he0) entry he

set_option maxRecDepth 100000 in
theorem paging_rebuilds_blocks_witness :
    oddHole.blocks = [⟨1, 0, 100, .allocated⟩, ⟨0, 100, 924, .free⟩] ∧
    (allocatePaging oddHole 6).2.pageTable = [(2, [0, 1])] ∧
    (allocatePaging oddHole 6).2.blocks.take 3 =
      [⟨2, 0, 4, .allocated⟩, ⟨2, 4, 4, .allocated⟩, ⟨0, 8, 4, .free⟩] ∧
    (deallocateById (allocatePaging oddHole 6).2 1).1 = false ∧
    (((allocatePaging oddHole 6).2.blocks.length : Int) =
      (allocatePaging oddHole 6).2.totalMemory.tdiv (allocatePaging oddHole 6).2.pageSize ∧
    (allocatePaging oddHole 6).2.blocks.length = 256 ∧
    (∀ i : Nat, i < (allocatePaging oddHole 6).2.blocks.length →
      (∃ b, (allocatePaging oddHole 6).2.blocks[i]? = some b ∧
        b.start = i * (allocatePaging oddHole 6).2.pageSize ∧
        b.size = (allocatePaging oddHole 6).2.pageSize) ∧
      (∀ entry ∈ (allocatePaging oddHole 6).2.pageTable, i ∈ entry.2 →
        (allocatePaging oddHole 6).2.blocks[i]? =
          some ⟨entry.1, i * (allocatePaging oddHole 6).2.pageSize,
            (allocatePaging oddHole 6).2.pageSize, .allocated⟩) ∧
      ((∀ entry ∈ (allocatePaging oddHole 6).2.pageTable, i ∉ entry.2) →
        (allocatePaging oddHole 6).2.blocks[i]? =
          some ⟨0, i * (allocatePaging oddHole 6).2.pageSize,
            (allocatePaging oddHole 6).2.pageSize, .free⟩)) ∧
    (∀ b ∈ oddHole.blocks, b.status = .allocated →
      (∀ entry ∈ oddHole.pageTable, entry.1 ≠ b.id) →
      (∀ c ∈ (allocatePaging oddHole 6).2.blocks, ¬ (c.status = .allocated ∧ c.id = b.id)) ∧
        deallocateById (allocatePaging oddHole 6).2 b.id =
          (false, (allocatePaging oddHole 6).2))) :=
  ⟨rfl, by decide, by decide, by decide,
    paging_rebuilds_blocks oddHole oddHole_reachable 0 6 (allocatePaging oddHole 6).2
      (by rfl)⟩

/-! ## A successful segmentation request -/

theorem placeAt_get_lt {blocks : List MemoryBlock} {i j : Nat} (size id : Int) (h : j < i) :
    (placeAt blocks i size id)[j]? = blocks[j]? := by
  induction blocks generalizing i j with
  | nil => rfl
  | cons a rest ih =>
    cases i with
    | zero => omega
    | succ i =>
      cases j with
      | zero => simp [placeAt]
      | succ j =>
        simp only [placeAt, List.getElem?_cons_succ]
        exact ih (by omega)

theorem placeAt_get_self {blocks : List MemoryBlock} {i : Nat} {b : MemoryBlock}
    (size id : Int) (h : blocks[i]? = some b) :
    (placeAt blocks i size id)[i]? = some ⟨id, b.start, size, .allocated⟩ := by
  induction blocks generalizing i with
  | nil => simp at h
  | cons a rest ih =>
    cases i with
    | zero =>
      simp only [List.getElem?_cons_zero, Option.some.injEq] at h
      subst h
      simp [placeAt]
    | succ i =>
      simp only [List.getElem?_cons_succ] at h
      simp only [placeAt, List.getElem?_cons_succ]
      exact ih h

/-- After a first-fit placement of size `c`, a first-fit scan for a size of at
least `c` ends behind the block just placed. -/
theorem firstFitIndex_after {blocks : List MemoryBlock} {c d id : Int} {i j : Nat}
    (hcd : c ≤ d) (hi : firstFitIndex blocks c = some i)
    (hj : firstFitIndex (placeAt blocks i c id) d = some j) : i < j := by
  induction blocks generalizing i j with
  | nil => simp [firstFitIndex] at hi
  | cons a rest ih =>
    simp only [firstFitIndex] at hi
    split at hi
    · cases hi
      simp only [placeAt, firstFitIndex] at hj
      rw [if_neg (by simp)] at hj
      obtain ⟨k, -, hk⟩ := Option.map_eq_some'.1 hj
      omega
    · rename_i ha
      cases hr : firstFitIndex rest c with
      | none => simp [hr] at hi
      | some k =>
        simp only [hr, Option.map_some', Option.some.injEq] at hi
        subst hi
        simp only [placeAt, firstFitIndex] at hj
        have ha1 : ¬ (a.status = .free ∧ a.size ≥ d) := fun hh => ha ⟨hh.1, by omega⟩
        rw [if_neg ha1] at hj
        cases hr2 : firstFitIndex (placeAt rest k c id) d with
        | none => simp [hr2] at hj
        | some k2 =>
          simp only [hr2, Option.map_some', Option.some.injEq] at hj
          have := ih hr hr2
          omega

theorem placeAt_keeps_others {blocks : List MemoryBlock} {i : Nat} {b : MemoryBlock}
    (size id : Int) (hb : blocks[i]? = some b) (hf : b.status = .free) :
    (placeAt blocks i size id).filter (fun x => decide (x.status = .allocated ∧ x.id ≠ id)) =
      blocks.filter (fun x => decide (x.status = .allocated ∧ x.id ≠ id)) := by
  induction blocks generalizing i with
  | nil => simp at hb
  | cons a rest ih =>
    cases i with
    | zero =>
      simp only [List.getElem?_cons_zero, Option.some.injEq] at hb
      subst hb
      simp only [placeAt]
      split <;> simp [List.filter_cons, hf]
    | succ i =>
      simp only [List.getElem?_cons_succ] at hb
      simp only [placeAt, List.filter_cons, ih hb]

theorem placeAt_owned_perm {blocks : List MemoryBlock} {i : Nat} {b : MemoryBlock}
    (size : Int) {id : Int} (hb : blocks[i]? = some b) (hid : b.id ≠ id) (h0 : id ≠ 0) :
    ((placeAt blocks i size id).filter (fun x => decide (x.id = id))).Perm
      (⟨id, b.start, size, .allocated⟩ :: blocks.filter (fun x => decide (x.id = id))) := by
  induction blocks generalizing i with
  | nil => simp at hb
  | cons a rest ih =>
    cases i with
    | zero =>
      simp only [List.getElem?_cons_zero, Option.some.injEq] at hb
      subst hb
      have h00 : ¬ (0 : Int) = id := fun e => h0 e.symm
      simp only [placeAt]
      split <;> simp [List.filter_cons, hid, h00]
    | succ i =>
      simp only [List.getElem?_cons_succ] at hb
      simp only [placeAt, List.filter_cons]
      split
      · exact ((ih hb).cons a).trans (List.Perm.swap _ _ _)
      · exact ih hb

theorem placeSegment_success {blocks : List MemoryBlock} {c id : Int}
    (h : (placeSegment blocks c id).1 = true) :
    ∃ i, firstFitIndex blocks c = some i ∧ (placeSegment blocks c id).2 = placeAt blocks i c id := by
  unfold placeSegment at h ⊢
  cases hf : firstFitIndex blocks c with
  | none => simp [hf] at h
  | some i => exact ⟨i, rfl, rfl⟩

/-- A successful call of `allocateSegmentation`: all three segments were placed
and the state is the one after the three placements with the counter advanced
and the statistics refreshed. -/
theorem segmentation_success {m : MemoryManager} {size : Int}
    (h : (allocateSegmentation m size).1 = true) :
    (placeSegment m.blocks (size.tdiv 3) m.nextProcessId).1 = true ∧
    (placeSegment (placeSegment m.blocks (size.tdiv 3) m.nextProcessId).2 (size.tdiv 3)
      m.nextProcessId).1 = true ∧
    (placeSegment (placeSegment (placeSegment m.blocks (size.tdiv 3) m.nextProcessId).2
      (size.tdiv 3) m.nextProcessId).2 (size - size.tdiv 3 - size.tdiv 3)
      m.nextProcessId).1 = true ∧
    (allocateSegmentation m size).2 = updateMemoryStats
      { m with
        blocks := (placeSegment (placeSegment (placeSegment m.blocks (size.tdiv 3)
          m.nextProcessId).2 (size.tdiv 3) m.nextProcessId).2
          (size - size.tdiv 3 - size.tdiv 3) m.nextProcessId).2
        nextProcessId := m.nextProcessId + 1 } := by
  unfold allocateSegmentation at h ⊢
  simp only at h ⊢
  split
  · rename_i hall
    exact ⟨hall.1, hall.2.1, hall.2.2, rfl⟩
  · rename_i hnot
    rw [if_neg hnot] at h
    split at h <;> cases h

/-- C23: when a segmentation request succeeds in a reachable state, the three
segments have sizes `size/3`, `size/3` and `size - 2*(size/3)`, which sum to
`size`; each is placed by the shared block update at the index of a first-fit
scan, code first, then data, then stack, under the id that is being issued; the
three blocks lie at increasing indices of the resulting list; exactly three
blocks carry that id; the blocks allocated to other owners are the same, in the
same order; and the id counter has advanced by exactly one. -/
theorem segmentation_places_three (m : MemoryManager) (h : Reachable m) (fuel : Nat)
    (size : Int) (m1 : MemoryManager)
    (ha : allocate fuel m size "segmentation" = some (true, m1)) :
    size.tdiv 3 + size.tdiv 3 + (size - 2 * size.tdiv 3) = size ∧
    ∃ (i1 i2 i3 : Nat) (b1 b2 b3 : MemoryBlock) (blocks1 blocks2 : List MemoryBlock),
      firstFitIndex m.blocks (size.tdiv 3) = some i1 ∧ m.blocks[i1]? = some b1 ∧
      blocks1 = placeAt m.blocks i1 (size.tdiv 3) m.nextProcessId ∧
      firstFitIndex blocks1 (size.tdiv 3) = some i2 ∧ blocks1[i2]? = some b2 ∧
      blocks2 = placeAt blocks1 i2 (size.tdiv 3) m.nextProcessId ∧
      firstFitIndex blocks2 (size - 2 * size.tdiv 3) = some i3 ∧ blocks2[i3]? = some b3 ∧
      m1.blocks = placeAt blocks2 i3 (size - 2 * size.tdiv 3) m.nextProcessId ∧
      i1 < i2 ∧ i2 < i3 ∧
      m1.blocks[i1]? = some ⟨m.nextProcessId, b1.start, size.tdiv 3, .allocated⟩ ∧
      m1.blocks[i2]? = some ⟨m.nextProcessId, b2.start, size.tdiv 3, .allocated⟩ ∧
      m1.blocks[i3]? =
        some ⟨m.nextProcessId, b3.start, size - 2 * size.tdiv 3, .allocated⟩ ∧
      (m1.blocks.filter (fun x => decide (x.id = m.nextProcessId))).length = 3 ∧
      ((m1.blocks.filter (fun x => decide (x.id = m.nextProcessId))).map (·.size)).Perm
        [size.tdiv 3, size.tdiv 3, size - 2 * size.tdiv 3] ∧
      m1.blocks.filter (fun x => decide (x.status = .allocated ∧ x.id ≠ m.nextProcessId)) =
        m.blocks.filter (fun x => decide (x.status = .allocated ∧ x.id ≠ m.nextProcessId)) ∧
      m1.nextProcessId = m.nextProcessId + 1 ∧ m1.processQueue = m.processQueue := by
  obtain ⟨hpos, hids, -, -⟩ := ids_reachable h
  rcases allocate_cases ha with ⟨-, hf, -⟩ | ⟨hs, -, r0, m0, hrun, e⟩
  · cases hf
  have hr : runStrategy fuel m size "segmentation" = some (allocateSegmentation m size) := by
    simp [runStrategy]
  rw [hr] at hrun
  have e0 : allocateSegmentation m size = (r0, m0) := Option.some.inj hrun
  have hr0 : r0 = true := by
    cases r0
    · have := congrArg Prod.fst e
      simp [enqueueIfFailed] at this
    · rfl
  subst hr0
  have em : m1 = m0 := by
    have := congrArg Prod.snd e
    simpa [enqueueIfFailed] using this
  have hs1 : (allocateSegmentation m size).1 = true := by rw [e0]
  obtain ⟨hc, hd, hst, hres⟩ := segmentation_success hs1
  rw [e0] at hres
  simp only at hres
  rw [← em] at hres
  have hstack : size - size.tdiv 3 - size.tdiv 3 = size - 2 * size.tdiv 3 := by omega
  rw [hstack] at hst hres
  have hseg := segment_sizes (by omega : 0 ≤ size)
  obtain ⟨i1, hi1, hp1⟩ := placeSegment_success hc
  rw [hp1] at hd hst hres
  obtain ⟨i2, hi2, hp2⟩ := placeSegment_success hd
  rw [hp2] at hst hres
  obtain ⟨i3, hi3, hp3⟩ := placeSegment_success hst
  rw [hp3] at hres
  obtain ⟨b1, hb1, hf1, -⟩ := firstFitIndex_fits hi1
  obtain ⟨b2, hb2, hf2, -⟩ := firstFitIndex_fits hi2
  obtain ⟨b3, hb3, hf3, -⟩ := firstFitIndex_fits hi3
  have h12 : i1 < i2 := firstFitIndex_after (le_refl _) hi1 hi2
  have h23 : i2 < i3 := firstFitIndex_after (by omega) hi2 hi3
  have hblocks : m1.blocks = placeAt (placeAt (placeAt m.blocks i1 (size.tdiv 3)
      m.nextProcessId) i2 (size.tdiv 3) m.nextProcessId) i3 (size - 2 * size.tdiv 3)
      m.nextProcessId := by rw [hres]; rfl
  -- ids of the blocks that are overwritten
  have hP0 : ∀ b ∈ m.blocks,
      b.id < m.nextProcessId ∨ (b.id = m.nextProcessId ∧ b.status = .allocated) :=
    fun b hb => Or.inl (hids b hb)
  have hP1 := placeAt_forall
    (fun i s => i < m.nextProcessId ∨ (i = m.nextProcessId ∧ s = .allocated)) i1
    (size.tdiv 3) m.nextProcessId hP0 (Or.inr ⟨rfl, rfl⟩) (Or.inl hpos)
  have hP2 := placeAt_forall
    (fun i s => i < m.nextProcessId ∨ (i = m.nextProcessId ∧ s = .allocated)) i2
    (size.tdiv 3) m.nextProcessId hP1 (Or.inr ⟨rfl, rfl⟩) (Or.inl hpos)
  have hfreeId : ∀ {bs : List MemoryBlock} {b : MemoryBlock},
      (∀ x ∈ bs, x.id < m.nextProcessId ∨ (x.id = m.nextProcessId ∧ x.status = .allocated)) →
      b ∈ bs → b.status = .free → b.id ≠ m.nextProcessId := by
    intro bs b hall hb hf
    rcases hall b hb with hlt | ⟨-, hal⟩
    · omega
    · rw [hf] at hal; cases hal
  have hn1 : b1.id ≠ m.nextProcessId := hfreeId hP0 (List.getElem?_mem hb1) hf1
  have hn2 : b2.id ≠ m.nextProcessId := hfreeId hP1 (List.getElem?_mem hb2) hf2
  have hn3 : b3.id ≠ m.nextProcessId := hfreeId hP2 (List.getElem?_mem hb3) hf3
  have hne0 : m.nextProcessId ≠ 0 := by omega
  have hnone : m.blocks.filter (fun x => decide (x.id = m.nextProcessId)) = [] := by
    rw [List.filter_eq_nil_iff]
    intro b hb
    have := hids b hb
    simp only [decide_eq_true_eq]
    omega
  have hperm1 := placeAt_owned_perm (size.tdiv 3) hb1 hn1 hne0
  rw [hnone] at hperm1
  have hperm2 := (placeAt_owned_perm (size.tdiv 3) hb2 hn2 hne0).trans (hperm1.cons _)
  have hperm3 := (placeAt_owned_perm (size - 2 * size.tdiv 3) hb3 hn3 hne0).trans
    (hperm2.cons _)
  rw [← hblocks] at hperm3
  refine ⟨by omega, i1, i2, i3, b1, b2, b3, _, _, hi1, hb1, rfl, hi2, hb2, rfl, hi3, hb3,
    hblocks, h12, h23, ?_, ?_, ?_, ?_, ?_, ?_, ?_, ?_⟩
  · rw [hblocks, placeAt_get_lt _ _ (by omega : i1 < i3), placeAt_get_lt _ _ h12]
    exact placeAt_get_self _ _ hb1
  · rw [hblocks, placeAt_get_lt _ _ h23]
    exact placeAt_get_self _ _ hb2
  · rw [hblocks]
    exact placeAt_get_self _ _ hb3
  · rw [hperm3.length_eq]; rfl
  · have := hperm3.map (·.size)
    refine this.trans ?_
    simp only [List.map_cons, List.map_nil]
    exact (List.Perm.swap _ _ _).trans ((List.Perm.swap _ _ _).cons _)
  · rw [hblocks, placeAt_keeps_others _ _ hb3 hf3, placeAt_keeps_others _ _ hb2 hf2,
      placeAt_keeps_others _ _ hb1 hf1]
  · rw [hres]; rfl
  · rw [hres]; rfl

theorem segmentation_places_three_witness :
    Reachable oddHole ∧
    allocate 0 oddHole 10 "segmentation" = some (true, (allocateSegmentation oddHole 10).2) ∧
    (allocateSegmentation oddHole 10).2.blocks =
      [⟨1, 0, 100, .allocated⟩, ⟨2, 100, 3, .allocated⟩, ⟨2, 103, 3, .allocated⟩,
        ⟨2, 106, 4, .allocated⟩, ⟨0, 110, 914, .free⟩] ∧
    ((10 : Int).tdiv 3 + (10 : Int).tdiv 3 + (10 - 2 * (10 : Int).tdiv 3) = 10 ∧
    ∃ (i1 i2 i3 : Nat) (b1 b2 b3 : MemoryBlock) (blocks1 blocks2 : List MemoryBlock),
      firstFitIndex oddHole.blocks ((10 : Int).tdiv 3) = some i1 ∧
      oddHole.blocks[i1]? = some b1 ∧
      blocks1 = placeAt oddHole.blocks i1 ((10 : Int).tdiv 3) oddHole.nextProcessId ∧
      firstFitIndex blocks1 ((10 : Int).tdiv 3) = some i2 ∧ blocks1[i2]? = some b2 ∧
      blocks2 = placeAt blocks1 i2 ((10 : Int).tdiv 3) oddHole.nextProcessId ∧
      firstFitIndex blocks2 (10 - 2 * (10 : Int).tdiv 3) = some i3 ∧
      blocks2[i3]? = some b3 ∧
      (allocateSegmentation oddHole 10).2.blocks =
        placeAt blocks2 i3 (10 - 2 * (10 : Int).tdiv 3) oddHole.nextProcessId ∧
      i1 < i2 ∧ i2 < i3 ∧
      (allocateSegmentation oddHole 10).2.blocks[i1]? =
        some ⟨oddHole.nextProcessId, b1.start, (10 : Int).tdiv 3, .allocated⟩ ∧
      (allocateSegmentation oddHole 10).2.blocks[i2]? =
        some ⟨oddHole.nextProcessId, b2.start, (10 : Int).tdiv 3, .allocated⟩ ∧
      (allocateSegmentation oddHole 10).2.blocks[i3]? =
        some ⟨oddHole.nextProcessId, b3.start, 10 - 2 * (10 : Int).tdiv 3, .allocated⟩ ∧
      ((allocateSegmentation oddHole 10).2.blocks.filter
        (fun x => decide (x.id = oddHole.nextProcessId))).length = 3 ∧
      (((allocateSegmentation oddHole 10).2.blocks.filter
        (fun x => decide (x.id = oddHole.nextProcessId))).map (·.size)).Perm
        [(10 : Int).tdiv 3, (10 : Int).tdiv 3, 10 - 2 * (10 : Int).tdiv 3] ∧
      (allocateSegmentation oddHole 10).2.blocks.filter
          (fun x => decide (x.status = .allocated ∧ x.id ≠ oddHole.nextProcessId)) =
        oddHole.blocks.filter
          (fun x => decide (x.status = .allocated ∧ x.id ≠ oddHole.nextProcessId)) ∧
      (allocateSegmentation oddHole 10).2.nextProcessId = oddHole.nextProcessId + 1 ∧
      (allocateSegmentation oddHole 10).2.processQueue = oddHole.processQueue) :=
  ⟨oddHole_reachable, by rfl, by rfl,
    segmentation_places_three oddHole oddHole_reachable 0 10
      (allocateSegmentation oddHole 10).2 (by rfl)⟩

end MemorySim
